import Mathlib

/-!
# protoc-gen-trans: type index, message plans, generation run and reconciliation engine

A shallow embedding of `main.go` (the functions `main`, `initTypeNameToDesc`,
`addTypeNames`, `isGoogleWKT` and `emitMessageType`) and of the key policies of
`main_test.go`, together with theorems about them. The operations of the generated code
(`ExtractTranslations`, `GetTranslationKeys`, `Translate`) come from templates that are
not among the sources; they are modelled from the specification, and every definition of
that model says so.

Modelling conventions.

* Go strings are Lean `String`s; `strings.HasPrefix`, `strings.Contains` and
  `strings.TrimSuffix` work on character lists.
* The descriptor fields the code dereferences unconditionally (`*msg.Name`, `*field.Name`,
  `*field.Type`, `*field.Label`, `*field.TypeName`, `*f.Name`) are required fields of the
  model; the fields it reads through a nil-safe getter (`GetOptions`, `GetMapEntry`,
  `GetPackage`) or through `proto.GetExtension` are `Option`s. The package of a file is
  read both ways: through `GetPackage` in `initTypeNameToDesc` and as `*f.Package` in
  `main`, where an unset package is a nil dereference.
* The Go map `typeNameToDesc` is a function `String → Option DescriptorProto`; a write
  `typeNameToDesc[name] = desc` is a pointwise update.
* `code io.Writer` is the list of template executions written so far, threaded through
  the calls. `log.Fatalf` and the run-time panic of an out-of-range slice index end the
  run; they are the two constructors of `Fault`.
* `camelCase` and the templates are declared outside `main.go`; `camelCase` is a
  parameter and a template execution is recorded by its name and its argument. The
  library call `uuid.NewSHA1` of the tests is a parameter as well.
* `translations.KeyGetter` is an interface, so a key policy may keep state in its
  receiver: a policy is a function from the state before a call and the two arguments of
  `GetKey` to the key and the state after, and extraction threads that state through its
  calls in the order the specification gives. The two policies of the tests are empty
  structs; they are lifted by `statelessKeyGetter`.
-/

namespace ProtocGenTrans

/-! ## Descriptors -/

/-- Go `descriptor.FieldDescriptorProto_Type`. -/
inductive FieldType where
  | TYPE_DOUBLE | TYPE_FLOAT | TYPE_INT64 | TYPE_UINT64 | TYPE_INT32 | TYPE_FIXED64
  | TYPE_FIXED32 | TYPE_BOOL | TYPE_STRING | TYPE_GROUP | TYPE_MESSAGE | TYPE_BYTES
  | TYPE_UINT32 | TYPE_ENUM | TYPE_SFIXED32 | TYPE_SFIXED64 | TYPE_SINT32 | TYPE_SINT64
deriving DecidableEq, Repr

/-- Go `descriptor.FieldDescriptorProto_Label`. -/
inductive FieldLabel where
  | LABEL_OPTIONAL | LABEL_REQUIRED | LABEL_REPEATED
deriving DecidableEq, Repr

/-- Go `descriptor.FieldOptions`, reduced to the extension `extensions.E_Translated`
(an optional bool). -/
structure FieldOptions where
  Translated : Option Bool
deriving DecidableEq, Repr

/-- Go `descriptor.FieldDescriptorProto`, the parts `main.go` reads. -/
structure FieldDescriptorProto where
  Name : String
  Label : FieldLabel
  Type_ : FieldType
  TypeName : String
  Options : Option FieldOptions
deriving DecidableEq, Repr

/-- Go `descriptor.MessageOptions`, the part `main.go` reads. -/
structure MessageOptions where
  MapEntry : Option Bool
deriving DecidableEq, Repr

/-- Go `descriptor.DescriptorProto`, the parts `main.go` reads. -/
inductive DescriptorProto where
  | mk (Name : String) (Field : List FieldDescriptorProto)
      (NestedType : List DescriptorProto) (Options : Option MessageOptions)
deriving Repr

/-- Go `descriptor.FileDescriptorProto`, the parts `main.go` reads. -/
structure FileDescriptorProto where
  Name : String
  Package : Option String
  MessageType : List DescriptorProto

/-- Field `Name` of a message descriptor. -/
def DescriptorProto.Name : DescriptorProto → String
  | .mk n _ _ _ => n

/-- Field `Field` of a message descriptor. -/
def DescriptorProto.Field : DescriptorProto → List FieldDescriptorProto
  | .mk _ fs _ _ => fs

/-- Field `NestedType` of a message descriptor. -/
def DescriptorProto.NestedType : DescriptorProto → List DescriptorProto
  | .mk _ _ ns _ => ns

/-- Go `(*DescriptorProto).GetOptions`. -/
def DescriptorProto.GetOptions : DescriptorProto → Option MessageOptions
  | .mk _ _ _ o => o

/-- Go `(*MessageOptions).GetMapEntry`: false on a nil receiver or an unset field. -/
def GetMapEntry : Option MessageOptions → Bool
  | some o => o.MapEntry.getD false
  | none => false

/-- Go `(*FileDescriptorProto).GetPackage`: the empty string when unset. -/
def FileDescriptorProto.GetPackage (f : FileDescriptorProto) : String :=
  f.Package.getD ""

/-- Go `proto.GetExtension(field.GetOptions(), extensions.E_Translated)`: `none` stands
for a non-nil error (nil options or extension not set), `some b` for the value. -/
def GetExtension : Option FieldOptions → Option Bool
  | some o => o.Translated
  | none => none

/-- Go `strings.HasPrefix`. -/
def HasPrefix (s p : String) : Bool :=
  p.data.isPrefixOf s.data

/-- Go `isGoogleWKT` (main.go:170). -/
def isGoogleWKT (field : FieldDescriptorProto) : Bool :=
  HasPrefix field.TypeName ".google.protobuf"

/-! ## The type index (main.go:132-158) -/

/-- The Go map `typeNameToDesc`. -/
abbrev TypeIndex := String → Option DescriptorProto

/-- The write `m[name] = desc`. -/
def TypeIndex.set (m : TypeIndex) (name : String) (desc : DescriptorProto) : TypeIndex :=
  fun k => if k = name then some desc else m k

mutual
/-- Go `addTypeNames` (main.go:151), on the map passed explicitly. -/
def addTypeNames (m : TypeIndex) (pfx : String) : DescriptorProto → TypeIndex
  | .mk name fields nested opts =>
    addTypeNamesNested (m.set (pfx ++ name) (.mk name fields nested opts))
      (pfx ++ name ++ ".") nested
/-- The loop `for _, msg := range desc.NestedType` of `addTypeNames`. -/
def addTypeNamesNested (m : TypeIndex) (pfx : String) : List DescriptorProto → TypeIndex
  | [] => m
  | msg :: rest => addTypeNamesNested (addTypeNames m pfx msg) pfx rest
end

/-- The loop `for _, desc := range f.MessageType` of `initTypeNameToDesc`. -/
def addTopLevel (m : TypeIndex) (dottedPkg : String) : List DescriptorProto → TypeIndex
  | [] => m
  | desc :: rest => addTopLevel (addTypeNames m dottedPkg desc) dottedPkg rest

/-- The string `dottedPkg` computed at main.go:140-143. -/
def dottedPkg (f : FileDescriptorProto) : String :=
  let d := "." ++ f.GetPackage
  if d ≠ "." then d ++ "." else d

/-- The loop `for _, f := range files` of `initTypeNameToDesc`. -/
def addFiles (m : TypeIndex) : List FileDescriptorProto → TypeIndex
  | [] => m
  | f :: rest => addFiles (addTopLevel m (dottedPkg f) f.MessageType) rest

/-- Go `initTypeNameToDesc` (main.go:134): the map it leaves in `typeNameToDesc`. -/
def initTypeNameToDesc (files : List FileDescriptorProto) : TypeIndex :=
  addFiles (fun _ => none) files

/-! ## Message plans (main.go:65-130) -/

/-- Go `Field` (template data): the fields `main.go` sets. -/
structure Field where
  Name : String
  IsArray : Bool
  IsMap : Bool
deriving DecidableEq, Repr

/-- Go `Message` (template data). -/
structure Message where
  Name : String
  TranslatedFields : List Field
  CompositeFields : List Field
deriving DecidableEq, Repr

/-- Go `File` (template data). -/
structure File where
  Name : String
  Package : String
deriving DecidableEq, Repr

/-- One template execution written to `code`. -/
inductive Emitted where
  | fileHeader (f : File)
  | extractTranslations (m : Message)
  | translate (m : Message)
  | getTranslationKeys (m : Message)
deriving DecidableEq, Repr

/-- The ways a run of `emitMessageType` ends without returning. -/
inductive Fault where
  | fatal (msg field : String)
  | indexOutOfRange
deriving DecidableEq, Repr

/-- The pair `(translateFields, compositeFields)` of the field loop. -/
abbrev Acc := List Field × List Field

/-- Lines 98-116 of `emitMessageType`: the composite part of the loop body. The guard
`isMap && desc.Field[1].GetType() != TYPE_MESSAGE` reads the second field of `desc` only
when `isMap` holds, and then `desc` is not nil. -/
def compositePart (camelCase : String → String) (typeNameToDesc : TypeIndex)
    (field : FieldDescriptorProto) (st : Acc) : Except Fault Acc :=
  if field.Type_ = FieldType.TYPE_MESSAGE ∧ isGoogleWKT field = false then
    let desc := typeNameToDesc field.TypeName
    let isMap : Bool :=
      match desc with
      | some d => GetMapEntry d.GetOptions
      | none => false
    let isArray : Bool := !isMap && decide (field.Label = FieldLabel.LABEL_REPEATED)
    match desc, isMap with
    | some d, true =>
      match d.Field[1]? with
      | none => .error Fault.indexOutOfRange
      | some value =>
        if value.Type_ ≠ FieldType.TYPE_MESSAGE then .ok st
        else .ok (st.1, st.2 ++ [⟨camelCase field.Name, isArray, isMap⟩])
    | _, _ => .ok (st.1, st.2 ++ [⟨camelCase field.Name, isArray, isMap⟩])
  else .ok st

/-- Lines 82-116 of `emitMessageType`: one iteration of the loop over `msg.Field`. -/
def fieldBody (camelCase : String → String) (typeNameToDesc : TypeIndex) (msgName : String)
    (st : Acc) (field : FieldDescriptorProto) : Except Fault Acc :=
  match GetExtension field.Options with
  | some ext =>
    if ext ≠ true then .ok st
    else if field.Type_ ≠ FieldType.TYPE_STRING then .error (Fault.fatal msgName field.Name)
    else compositePart camelCase typeNameToDesc field
      (st.1 ++ [⟨camelCase field.Name, decide (field.Label = FieldLabel.LABEL_REPEATED), false⟩],
        st.2)
  | none => compositePart camelCase typeNameToDesc field st

/-- The loop `for _, field := range msg.Field` of `emitMessageType`. -/
def fieldLoop (camelCase : String → String) (typeNameToDesc : TypeIndex) (msgName : String) :
    Acc → List FieldDescriptorProto → Except Fault Acc
  | st, [] => .ok st
  | st, field :: rest =>
    match fieldBody camelCase typeNameToDesc msgName st field with
    | .error e => .error e
    | .ok st1 => fieldLoop camelCase typeNameToDesc msgName st1 rest

/-- Lines 119-127 of `emitMessageType`: the three template executions on the message. -/
def plan (m : Message) : List Emitted :=
  [Emitted.extractTranslations m, Emitted.translate m, Emitted.getTranslationKeys m]

mutual
/-- Go `emitMessageType` (main.go:65): the contents of `code` when it returns, or the
fault that ends the run. -/
def emitMessageType (camelCase : String → String) (typeNameToDesc : TypeIndex)
    (code : List Emitted) (msgNamePrefix : String) : DescriptorProto → Except Fault (List Emitted)
  | .mk name fields nested opts =>
    if GetMapEntry opts = true then .ok code
    else
      match emitNested camelCase typeNameToDesc code ((msgNamePrefix ++ name) ++ "_") nested with
      | .error e => .error e
      | .ok code1 =>
        match fieldLoop camelCase typeNameToDesc name ([], []) fields with
        | .error e => .error e
        | .ok st => .ok (code1 ++ plan ⟨msgNamePrefix ++ name, st.1, st.2⟩)
/-- The loop `for _, nestedType := range msg.NestedType` of `emitMessageType`. -/
def emitNested (camelCase : String → String) (typeNameToDesc : TypeIndex)
    (code : List Emitted) (msgNamePrefix : String) : List DescriptorProto → Except Fault (List Emitted)
  | [] => .ok code
  | nestedType :: rest =>
    match emitMessageType camelCase typeNameToDesc code msgNamePrefix nestedType with
    | .error e => .error e
    | .ok code1 => emitNested camelCase typeNameToDesc code1 msgNamePrefix rest
end

/-! ## Vocabulary of the specification -/

/-- Spec: `Reaches T path t` says that the type `t` is reached from the type `T` by the
nesting path `path = [N1, ..., Nk]`, `k ≥ 1`: `N1` is the name of `T`, each next name is
the name of a nested type of the previous one, and the last type is `t`. -/
inductive Reaches : DescriptorProto → List String → DescriptorProto → Prop where
  | top (t : DescriptorProto) : Reaches t [t.Name] t
  | nested {T n : DescriptorProto} {path : List String} {t : DescriptorProto} :
      n ∈ T.NestedType → Reaches n path t → Reaches T (T.Name :: path) t

/-- Spec: the leading part of a qualified name, `"."` for the empty package `p` and
`"." + p + "."` otherwise. -/
def qualifiedPrefix (p : String) : String :=
  if p = "" then "." else "." ++ p ++ "."

/-- Spec: the fully-qualified dotted name of the type with nesting path `path` in a file
of package `p`. -/
def qualifiedName (p : String) (path : List String) : String :=
  qualifiedPrefix p ++ ".".intercalate path

/-- Spec: the types reached from the top-level types of the files, each with its
qualified name. -/
def Registered (files : List FileDescriptorProto) (k : String) (t : DescriptorProto) : Prop :=
  ∃ f ∈ files, ∃ T ∈ f.MessageType, ∃ path, Reaches T path t ∧ k = qualifiedName f.GetPackage path

mutual
/-- Spec: the build order below one type: the type itself, then its nested types in
declaration order (each before its own nested types), every type with its dotted name
under the leading part `pfx`. -/
def buildOrderType (pfx : String) : DescriptorProto → List (String × DescriptorProto)
  | .mk name fields nested opts =>
    (pfx ++ name, .mk name fields nested opts) :: buildOrderNested (pfx ++ name ++ ".") nested
/-- Spec: the build order of a list of sibling types. -/
def buildOrderNested (pfx : String) : List DescriptorProto → List (String × DescriptorProto)
  | [] => []
  | t :: rest => buildOrderType pfx t ++ buildOrderNested pfx rest
end

/-- Spec: the build order of a schema set: files in input order, top-level types in
declaration order, each type before its nested types. -/
def buildOrder (files : List FileDescriptorProto) : List (String × DescriptorProto) :=
  files.flatMap (fun f => buildOrderNested (qualifiedPrefix f.GetPackage) f.MessageType)

/-- The map after the writes of `l`, in order, on top of `m`. -/
def replay (m : TypeIndex) (l : List (String × DescriptorProto)) : TypeIndex :=
  l.foldl (fun acc e => acc.set e.1 e.2) m

/-- Spec: a message type has an offending field: some type in its nesting tree, with no
map-entry type on the way from the root down to it (itself included), has a field whose
translated annotation is present and true and whose kind is not string. -/
inductive HasOffendingField : DescriptorProto → Prop where
  | own {msg : DescriptorProto} {f : FieldDescriptorProto} :
      GetMapEntry msg.GetOptions = false → f ∈ msg.Field →
      GetExtension f.Options = some true → f.Type_ ≠ FieldType.TYPE_STRING →
      HasOffendingField msg
  | inNested {msg n : DescriptorProto} :
      GetMapEntry msg.GetOptions = false → n ∈ msg.NestedType →
      HasOffendingField n → HasOffendingField msg

/-- Spec: every map-entry type registered in the index has at least two fields (a key
field and a value field). -/
def MapEntriesHaveValue (typeNameToDesc : TypeIndex) : Prop :=
  ∀ k d, typeNameToDesc k = some d → GetMapEntry d.GetOptions = true → 2 ≤ d.Field.length

/-- Spec: the type name begins with `.google.protobuf`. -/
def BeginsWithGoogleProtobuf (typeName : String) : Prop :=
  ∃ rest : String, typeName = ".google.protobuf" ++ rest

/-- The entries `d` appended to the two lists of `st`. -/
def Acc.append (st d : Acc) : Acc :=
  (st.1 ++ d.1, st.2 ++ d.2)

/-- A run that continues with `g` on success and keeps its fault otherwise. -/
def andThen {α β : Type} (r : Except Fault α) (g : α → Except Fault β) : Except Fault β :=
  match r with
  | .error e => .error e
  | .ok a => g a

/-! ## Sample schemas -/

/-- A type without fields, nested in `sampleOuter`. -/
def sampleInner : DescriptorProto := .mk "Inner" [] [] none

/-- A top-level type with one nested type. -/
def sampleOuter : DescriptorProto := .mk "Outer" [] [sampleInner] none

/-- A file of package `pkg` with the top-level type `Outer`. -/
def sampleFile : FileDescriptorProto := ⟨"a.proto", some "pkg", [sampleOuter]⟩

/-- A second file of package `pkg` that declares `Outer` again, with a field. -/
def sampleFileDup : FileDescriptorProto :=
  ⟨"b.proto", some "pkg",
    [.mk "Outer" [⟨"id", FieldLabel.LABEL_OPTIONAL, FieldType.TYPE_INT32, "", none⟩] [] none]⟩

/-- The nested type `NestedMessage`: one translated string field. -/
def sampleNested : DescriptorProto :=
  .mk "NestedMessage"
    [⟨"name", FieldLabel.LABEL_OPTIONAL, FieldType.TYPE_STRING, "", some ⟨some true⟩⟩] [] none

/-- The map-entry type of a map from string to `NestedMessage`. -/
def sampleMap1Entry : DescriptorProto :=
  .mk "Map1Entry"
    [⟨"key", FieldLabel.LABEL_OPTIONAL, FieldType.TYPE_STRING, "", none⟩,
     ⟨"value", FieldLabel.LABEL_OPTIONAL, FieldType.TYPE_MESSAGE,
        ".test.TestMessage1.NestedMessage", none⟩]
    [] (some ⟨some true⟩)

/-- The map-entry type of a map from string to string. -/
def sampleLabelsEntry : DescriptorProto :=
  .mk "LabelsEntry"
    [⟨"key", FieldLabel.LABEL_OPTIONAL, FieldType.TYPE_STRING, "", none⟩,
     ⟨"value", FieldLabel.LABEL_OPTIONAL, FieldType.TYPE_STRING, "", none⟩]
    [] (some ⟨some true⟩)

/-- Field `nested`: a singular `NestedMessage`. -/
def sampleFieldNested : FieldDescriptorProto :=
  ⟨"nested", FieldLabel.LABEL_OPTIONAL, FieldType.TYPE_MESSAGE,
    ".test.TestMessage1.NestedMessage", none⟩

/-- Field `nested_array`: a repeated `NestedMessage`. -/
def sampleFieldNestedArray : FieldDescriptorProto :=
  ⟨"nested_array", FieldLabel.LABEL_REPEATED, FieldType.TYPE_MESSAGE,
    ".test.TestMessage1.NestedMessage", none⟩

/-- Field `map1`: a map from string to `NestedMessage`. -/
def sampleFieldMap1 : FieldDescriptorProto :=
  ⟨"map1", FieldLabel.LABEL_REPEATED, FieldType.TYPE_MESSAGE,
    ".test.TestMessage1.Map1Entry", none⟩

/-- Field `labels`: a map from string to string. -/
def sampleFieldLabels : FieldDescriptorProto :=
  ⟨"labels", FieldLabel.LABEL_REPEATED, FieldType.TYPE_MESSAGE,
    ".test.TestMessage1.LabelsEntry", none⟩

/-- Field `created`: a well-known type. -/
def sampleFieldCreated : FieldDescriptorProto :=
  ⟨"created", FieldLabel.LABEL_OPTIONAL, FieldType.TYPE_MESSAGE,
    ".google.protobuf.Timestamp", none⟩

/-- The fields of `TestMessage1` before `nested`. -/
def sampleScalarFields : List FieldDescriptorProto :=
  [⟨"id", FieldLabel.LABEL_OPTIONAL, FieldType.TYPE_STRING, "", none⟩,
   ⟨"name1", FieldLabel.LABEL_OPTIONAL, FieldType.TYPE_STRING, "", some ⟨some true⟩⟩,
   ⟨"array1", FieldLabel.LABEL_REPEATED, FieldType.TYPE_STRING, "", some ⟨some true⟩⟩]

/-- The last field of `TestMessage1`: a string annotated `translated = false`. -/
def sampleFieldName2 : FieldDescriptorProto :=
  ⟨"name2", FieldLabel.LABEL_OPTIONAL, FieldType.TYPE_STRING, "", some ⟨some false⟩⟩

/-- A message type in the shape of the test schema: plain, translated and repeated
translated strings, a singular and a repeated sub-message, a map to sub-messages, a map to
strings, a well-known type and a string annotated false. -/
def sampleMessage : DescriptorProto :=
  .mk "TestMessage1"
    (sampleScalarFields ++ [sampleFieldNested, sampleFieldNestedArray, sampleFieldMap1,
      sampleFieldLabels, sampleFieldCreated, sampleFieldName2])
    [sampleNested, sampleMap1Entry, sampleLabelsEntry] none

/-- The schema file of package `test` that declares `TestMessage1`. -/
def sampleTestFile : FileDescriptorProto := ⟨"test.proto", some "test", [sampleMessage]⟩

/-- The index of the sample schema. -/
def sampleIndex : TypeIndex := initTypeNameToDesc [sampleTestFile]

/-- A map-entry type without fields, as no compiler emits it. -/
def sampleBadEntry : DescriptorProto := .mk "BadEntry" [] [] (some ⟨some true⟩)

/-- A type whose first field refers to `BadEntry` and whose second field is an int32
annotated `translated = true`. -/
def sampleBadMessage : DescriptorProto :=
  .mk "Bad"
    [⟨"entries", FieldLabel.LABEL_REPEATED, FieldType.TYPE_MESSAGE, ".BadEntry", none⟩,
     ⟨"count", FieldLabel.LABEL_OPTIONAL, FieldType.TYPE_INT32, "", some ⟨some true⟩⟩]
    [] none

/-- A file without package that declares `BadEntry` and `Bad`. -/
def sampleBadFile : FileDescriptorProto := ⟨"bad.proto", none, [sampleBadEntry, sampleBadMessage]⟩

/-- A type whose nested type has an int32 field annotated `translated = true`, after a
field that is a map to sub-messages. -/
def sampleOffending : DescriptorProto :=
  .mk "Offending" [sampleFieldMap1]
    [.mk "Part"
      [sampleFieldMap1,
       ⟨"count", FieldLabel.LABEL_OPTIONAL, FieldType.TYPE_INT32, "", some ⟨some true⟩⟩]
      [] none]
    none

/-- Field `nested` of the sample schema, annotated `translated = false`. -/
def sampleFieldNestedFalse : FieldDescriptorProto :=
  ⟨"nested", FieldLabel.LABEL_OPTIONAL, FieldType.TYPE_MESSAGE,
    ".test.TestMessage1.NestedMessage", some ⟨some false⟩⟩

/-- The first field of `Bad`, annotated `translated = false`. -/
def sampleFieldBadFalse : FieldDescriptorProto :=
  ⟨"entries", FieldLabel.LABEL_REPEATED, FieldType.TYPE_MESSAGE, ".BadEntry", some ⟨some false⟩⟩

/-- The first field of `Bad`, without annotation. -/
def sampleFieldBad : FieldDescriptorProto :=
  ⟨"entries", FieldLabel.LABEL_REPEATED, FieldType.TYPE_MESSAGE, ".BadEntry", none⟩

/-! ## The key policies of the tests (main_test.go:14-32) -/

/-- Go `buildKey` (main_test.go:16). The library call
`uuid.NewSHA1(uuid.NIL, []byte(s)).String()` is the parameter `newSHA1`. -/
def buildKey (newSHA1 : String → String) (s : String) : String :=
  newSHA1 s

/-- Go `(*englishKeyGetter).GetKey` (main_test.go:20). -/
def englishKeyGetter.GetKey (newSHA1 : String → String) (_oldKey translatedText : String) :
    String :=
  buildKey newSHA1 translatedText

/-- Go `(*japaneseKeyGetter).GetKey` (main_test.go:26). -/
def japaneseKeyGetter.GetKey (newSHA1 : String → String) (oldKey translatedText : String) :
    String :=
  if oldKey ≠ "" then oldKey else buildKey newSHA1 translatedText

/-- A stand-in for the UUID of a text: the text between brackets. -/
def sampleSHA1 (s : String) : String :=
  "<" ++ s ++ ">"

/-! ## The generation run (main.go:22-63) -/

/-- The search of `strings.Contains` on character lists: `sub` starts at some position
of the list. -/
def containsChars : List Char → List Char → Bool
  | [], sub => sub.isPrefixOf []
  | c :: s, sub => sub.isPrefixOf (c :: s) || containsChars s sub

/-- Go `strings.Contains`. -/
def Contains (s substr : String) : Bool :=
  containsChars s.data substr.data

/-- Go `strings.HasSuffix`. -/
def HasSuffix (s suffix : String) : Bool :=
  suffix.data.isSuffixOf s.data

/-- Go `strings.TrimSuffix`: `s[:len(s)-len(suffix)]` when `s` ends in `suffix`, else `s`. -/
def TrimSuffix (s suffix : String) : String :=
  if HasSuffix s suffix = true then ⟨s.data.take (s.data.length - suffix.data.length)⟩ else s

/-- Go `plugin.CodeGeneratorResponse_File`: the name and, for the content, the template
executions written to `code`. -/
structure CodeGeneratorResponse_File where
  Name : String
  Content : List Emitted
deriving DecidableEq, Repr

/-- The ways a run of `main` ends without a response: a fault of `emitMessageType`, or the
nil dereference of `*f.Package` (main.go:47) on a file whose package is not set. -/
inductive MainFault where
  | emit (fault : Fault)
  | nilDereference
deriving DecidableEq, Repr

/-- The test at main.go:39 that excludes a file from generation. -/
def excluded (f : FileDescriptorProto) : Bool :=
  Contains f.Name "google/protobuf" || Contains f.Name "extensions.proto"

/-- The string `outputFilename` of main.go:54. -/
def outputFilename (f : FileDescriptorProto) : String :=
  TrimSuffix f.Name ".proto" ++ "_trans.pb.go"

/-- The loop `for _, f := range req.ProtoFile` of `main` (main.go:37-60), on the slice
`files` built so far. The inner loop over `f.MessageType` calls `emitMessageType` with the
empty name prefix, which is `emitNested` with that prefix. -/
def mainLoop (camelCase : String → String) (typeNameToDesc : TypeIndex) :
    List CodeGeneratorResponse_File → List FileDescriptorProto →
      Except MainFault (List CodeGeneratorResponse_File)
  | files, [] => .ok files
  | files, f :: rest =>
    if excluded f = true then mainLoop camelCase typeNameToDesc files rest
    else
      match f.Package with
      | none => .error MainFault.nilDereference
      | some pkg =>
        match emitNested camelCase typeNameToDesc [Emitted.fileHeader ⟨f.Name, pkg⟩] ""
            f.MessageType with
        | .error e => .error (MainFault.emit e)
        | .ok code =>
          mainLoop camelCase typeNameToDesc (files ++ [⟨outputFilename f, code⟩]) rest

/-- Go `main` (main.go:22) from the decoded request on: the files handed to `emitFiles`,
or the fault that ends the run. -/
def main (camelCase : String → String) (protoFile : List FileDescriptorProto) :
    Except MainFault (List CodeGeneratorResponse_File) :=
  mainLoop camelCase (initTypeNameToDesc protoFile) [] protoFile

/-- Spec: `sub` occurs in `s` as a substring. -/
def IsSubstring (sub s : String) : Prop :=
  ∃ a b : String, s = a ++ sub ++ b

/-- A file of a well-known type, excluded from generation. -/
def sampleTimestampFile : FileDescriptorProto :=
  ⟨"google/protobuf/timestamp.proto", some "google.protobuf", [.mk "Timestamp" [] [] none]⟩

/-- A file of package `test` whose type `Offending` misuses the annotation. -/
def sampleOffendingFile : FileDescriptorProto :=
  ⟨"offending.proto", some "test", [sampleOffending]⟩

/-! ## Vocabulary of the specification: nesting paths by position -/

/-- Spec: the type reached from `T` by the positions `p`: the empty path reaches `T`, and
`i :: p` goes on from the nested type of `T` at position `i`. -/
def typeAt : DescriptorProto → List Nat → Option DescriptorProto
  | T, [] => some T
  | T, i :: p =>
    match T.NestedType[i]? with
    | some n => typeAt n p
    | none => none

/-- Spec: the names `N1, ..., Nk` of the types on the path `p` from `T`, `T` first. -/
def namesAt : DescriptorProto → List Nat → List String
  | T, [] => [T.Name]
  | T, i :: p =>
    T.Name :: (match T.NestedType[i]? with
      | some n => namesAt n p
      | none => [])

/-- Spec: the path `p` from `T` exists and no type on it, `T` and the type reached
included, is a map-entry type. -/
def OpenPath : DescriptorProto → List Nat → Prop
  | T, [] => GetMapEntry T.GetOptions = false
  | T, i :: p => GetMapEntry T.GetOptions = false ∧ ∃ n, T.NestedType[i]? = some n ∧ OpenPath n p

/-- Spec: `m` is the plan of the type at the path `p` from `T`: its name is the names on
the path joined by `_` after `pfx`, and its lists are those the field loop builds for
that type. -/
def PlanOf (camelCase : String → String) (idx : TypeIndex) (pfx : String)
    (T : DescriptorProto) (p : List Nat) (m : Message) : Prop :=
  ∃ t st, typeAt T p = some t ∧ fieldLoop camelCase idx t.Name ([], []) t.Field = .ok st ∧
    m = ⟨pfx ++ "_".intercalate (namesAt T p), st.1, st.2⟩

/-- Spec: the type reached from the top-level types `l` by the path `p`, whose first
position selects the top-level type. -/
def typeAtFrom (l : List DescriptorProto) : List Nat → Option DescriptorProto
  | [] => none
  | i :: p =>
    match l[i]? with
    | some T => typeAt T p
    | none => none

/-- Spec: the path `p` from the top-level types `l` exists and passes through no map-entry
type. -/
def OpenPathFrom (l : List DescriptorProto) : List Nat → Prop
  | [] => False
  | i :: p => ∃ T, l[i]? = some T ∧ OpenPath T p

/-- A type that is not a map entry, nested in the map-entry type `HolderEntry`. -/
def sampleHidden : DescriptorProto := .mk "Hidden" [] [] none

/-- A map-entry type with a nested type. -/
def sampleHolderEntry : DescriptorProto :=
  .mk "HolderEntry"
    [⟨"key", FieldLabel.LABEL_OPTIONAL, FieldType.TYPE_STRING, "", none⟩,
     ⟨"value", FieldLabel.LABEL_OPTIONAL, FieldType.TYPE_STRING, "", none⟩]
    [sampleHidden] (some ⟨some true⟩)

/-- A top-level type whose only nested type is the map-entry type `HolderEntry`. -/
def sampleHolder : DescriptorProto := .mk "Holder" [] [sampleHolderEntry] none

/-- The schema file of package `test` that declares `Holder`. -/
def sampleHolderFile : FileDescriptorProto := ⟨"holder.proto", some "test", [sampleHolder]⟩

/-! ## The reconciliation engine (spec §3, §4.4)

The operations `ExtractTranslations`, `GetTranslationKeys` and `Translate` are generated
code; the templates that produce them are not in `main.go`. They are modelled here from
the specification. -/

/-- Go `translations.KeyGetter` (keys.go:4), an interface: the method
`GetKey(currentKey, translatedText)` of a receiver that may hold state of its own (spec
§3). A policy over states `σ` maps the state of the receiver before the call and the two
arguments to the key and the state after the call. -/
abbrev KeyGetter (σ : Type) := σ → String → String → String × σ

/-- A policy without state, from its `GetKey` function, as the two policies of the tests. -/
def statelessKeyGetter (getKey : String → String → String) : KeyGetter Unit :=
  fun s oldKey text => (getKey oldKey text, s)

/-- A policy with state that mints a new key at every call, whatever the old key and the
text: the state counts the calls and the key of call `n` is `n + 1` letters `k`. -/
def mintingKeyGetter : KeyGetter Nat :=
  fun n _ _ => (String.mk (List.replicate (n + 1) 'k'), n + 1)

/-- Modelled from the spec: one translatable field of a `MessageNode` (§3), the triple
`(fieldName, currentKey, text)`; an empty `currentKey` is a field without key. The
generated message types that hold it are missing from the sources. -/
structure TransField where
  fieldName : String
  currentKey : String
  text : String
deriving DecidableEq, Repr

mutual
/-- Modelled from the spec: `MessageNode` (§3), the instance-level view of a generated
message type (missing from the sources): the ordered translatable fields and the ordered
composite children. -/
inductive MessageNode where
  | mk (fields : List TransField) (children : List Child)
/-- Modelled from the spec: a composite child of a `MessageNode` (§3): absent, a single
node, an ordered sequence of nodes, or a mapping from string keys to nodes (the entries
in iteration order). -/
inductive Child where
  | absent
  | single (node : MessageNode)
  | array (nodes : List MessageNode)
  | map (entries : List (String × MessageNode))
end

/-- Modelled from the spec: `TranslationMap` (§3), the mapping from key to text that the
missing `ExtractTranslations` returns, as the writes `m[key] = text` in order. -/
abbrev TranslationMap := List (String × String)

/-- Modelled from the spec: the lookup function a caller of the missing `Translate`
builds from a `TranslationMap` (§6, main_test.go:51): the text written last under the key,
and the empty text when the key is absent. -/
def TranslationMap.lookup (m : TranslationMap) (key : String) : String :=
  m.foldl (fun acc e => if e.1 = key then e.2 else acc) ""

/-- Modelled from the spec: what a step of the missing `ExtractTranslations` (§4.4)
yields: the stamped part of `current`, the translation map, and the state of the key
policy after its calls. -/
structure Extraction (σ : Type) (α : Type) where
  stamped : α
  translations : TranslationMap
  state : σ

/-- Modelled from the spec: the translatable-field step of the missing
`ExtractTranslations` (§4.4): each field of `current`, in order, gets the key the policy
returns for the key of the corresponding field of `previous` (empty when there is none)
and the text of the field; `(key, text)` is added to the map. -/
def extractFields {σ : Type} (keyGetter : KeyGetter σ) :
    σ → List TransField → List TransField → Extraction σ (List TransField)
  | s, [], _ => ⟨[], [], s⟩
  | s, f :: fs, previous =>
    let oldKey := match previous.head? with
      | some p => p.currentKey
      | none => ""
    let r := keyGetter s oldKey f.text
    let rest := extractFields keyGetter r.2 fs previous.tail
    ⟨⟨f.fieldName, r.1, f.text⟩ :: rest.stamped, (r.1, f.text) :: rest.translations, rest.state⟩

/-- Modelled from the spec: the translatable fields of `previous` in the missing
`ExtractTranslations`, none when `previous` is absent (§4.4, nil-safe). -/
def previousFields : Option MessageNode → List TransField
  | some (.mk fields _) => fields
  | none => []

/-- Modelled from the spec: the composite children of `previous` in the missing
`ExtractTranslations`, none when `previous` is absent (§4.4, nil-safe). -/
def previousChildren : Option MessageNode → List Child
  | some (.mk _ children) => children
  | none => []

/-- Modelled from the spec: the previous single child in the missing
`ExtractTranslations`, absent when the previous child is absent or of another kind. -/
def previousSingle : Option Child → Option MessageNode
  | some (.single p) => some p
  | _ => none

/-- Modelled from the spec: the previous array in the missing `ExtractTranslations`, empty
when the previous child is absent or of another kind. -/
def previousArray : Option Child → List MessageNode
  | some (.array ps) => ps
  | _ => []

/-- Modelled from the spec: the previous map entries in the missing
`ExtractTranslations`, none when the previous child is absent or of another kind. -/
def previousMap : Option Child → List (String × MessageNode)
  | some (.map ps) => ps
  | _ => []

mutual
/-- Modelled from the spec: the missing `ExtractTranslations(current, previous,
keyGetter)` (§4.4), from the state `s` of the key policy on: the stamped `current`, the
translation map and the state after. The translatable fields come first, then each
composite child is extracted against the child of `previous` at the same place, and the
maps are merged in that order. -/
def extractNode {σ : Type} (keyGetter : KeyGetter σ) :
    MessageNode → Option MessageNode → σ → Extraction σ MessageNode
  | .mk fields children, previous, s =>
    let fs := extractFields keyGetter s fields (previousFields previous)
    let cs := extractChildren keyGetter children (previousChildren previous) fs.state
    ⟨.mk fs.stamped cs.stamped, fs.translations ++ cs.translations, cs.state⟩
/-- Modelled from the spec: the loop of the missing `ExtractTranslations` over the
composite fields. -/
def extractChildren {σ : Type} (keyGetter : KeyGetter σ) :
    List Child → List Child → σ → Extraction σ (List Child)
  | [], _, s => ⟨[], [], s⟩
  | c :: cs, previous, s =>
    let r := extractChild keyGetter c previous.head? s
    let rest := extractChildren keyGetter cs previous.tail r.state
    ⟨r.stamped :: rest.stamped, r.translations ++ rest.translations, rest.state⟩
/-- Modelled from the spec: one composite field in the missing `ExtractTranslations`:
singular against the single previous child, array elements by index, map entries by
key. -/
def extractChild {σ : Type} (keyGetter : KeyGetter σ) :
    Child → Option Child → σ → Extraction σ Child
  | .absent, _, s => ⟨.absent, [], s⟩
  | .single n, previous, s =>
    let r := extractNode keyGetter n (previousSingle previous) s
    ⟨.single r.stamped, r.translations, r.state⟩
  | .array ns, previous, s =>
    let r := extractNodes keyGetter ns (previousArray previous) s
    ⟨.array r.stamped, r.translations, r.state⟩
  | .map es, previous, s =>
    let r := extractEntries keyGetter es (previousMap previous) s
    ⟨.map r.stamped, r.translations, r.state⟩
/-- Modelled from the spec: array elements in the missing `ExtractTranslations`: index
`i` of `current` pairs with index `i` of `previous` if it exists, else with absent. -/
def extractNodes {σ : Type} (keyGetter : KeyGetter σ) :
    List MessageNode → List MessageNode → σ → Extraction σ (List MessageNode)
  | [], _, s => ⟨[], [], s⟩
  | n :: ns, previous, s =>
    let r := extractNode keyGetter n previous.head? s
    let rest := extractNodes keyGetter ns previous.tail r.state
    ⟨r.stamped :: rest.stamped, r.translations ++ rest.translations, rest.state⟩
/-- Modelled from the spec: map entries in the missing `ExtractTranslations`: an entry of
`current` pairs with the entry of `previous` under the same map key, else with absent. -/
def extractEntries {σ : Type} (keyGetter : KeyGetter σ) :
    List (String × MessageNode) → List (String × MessageNode) → σ →
      Extraction σ (List (String × MessageNode))
  | [], _, s => ⟨[], [], s⟩
  | (k, n) :: es, previous, s =>
    let r := extractNode keyGetter n (previous.lookup k) s
    let rest := extractEntries keyGetter es previous r.state
    ⟨(k, r.stamped) :: rest.stamped, r.translations ++ rest.translations, rest.state⟩
end

mutual
/-- Modelled from the spec: the missing `GetTranslationKeys(node)` (§4.4): the stamped keys
of the translatable fields in order, then those of every composite child in the traversal
order of extraction. -/
def getTranslationKeys : MessageNode → List String
  | .mk fields children => fields.map (fun f => f.currentKey) ++ getTranslationKeysChildren children
/-- Modelled from the spec: the keys of the composite children, for the missing
`GetTranslationKeys`. -/
def getTranslationKeysChildren : List Child → List String
  | [] => []
  | c :: cs => getTranslationKeysChild c ++ getTranslationKeysChildren cs
/-- Modelled from the spec: the keys of one composite child, for the missing
`GetTranslationKeys`. -/
def getTranslationKeysChild : Child → List String
  | .absent => []
  | .single n => getTranslationKeys n
  | .array ns => getTranslationKeysNodes ns
  | .map es => getTranslationKeysEntries es
/-- Modelled from the spec: the keys of array elements, for the missing
`GetTranslationKeys`. -/
def getTranslationKeysNodes : List MessageNode → List String
  | [] => []
  | n :: ns => getTranslationKeys n ++ getTranslationKeysNodes ns
/-- Modelled from the spec: the keys of map entries, for the missing
`GetTranslationKeys`. -/
def getTranslationKeysEntries : List (String × MessageNode) → List String
  | [] => []
  | (_, n) :: es => getTranslationKeys n ++ getTranslationKeysEntries es
end

mutual
/-- Modelled from the spec: the missing `Translate(node, lookup)` (§4.4): a new tree in
which the text of every translatable field is `lookup` of its stored key, with children
translated alike. -/
def translateNode (lookup : String → String) : MessageNode → MessageNode
  | .mk fields children =>
    .mk (fields.map (fun f => ⟨f.fieldName, f.currentKey, lookup f.currentKey⟩))
      (translateChildren lookup children)
/-- Modelled from the spec: the composite children in the missing `Translate`. -/
def translateChildren (lookup : String → String) : List Child → List Child
  | [] => []
  | c :: cs => translateChild lookup c :: translateChildren lookup cs
/-- Modelled from the spec: one composite child in the missing `Translate`. -/
def translateChild (lookup : String → String) : Child → Child
  | .absent => .absent
  | .single n => .single (translateNode lookup n)
  | .array ns => .array (translateNodes lookup ns)
  | .map es => .map (translateEntries lookup es)
/-- Modelled from the spec: array elements in the missing `Translate`. -/
def translateNodes (lookup : String → String) : List MessageNode → List MessageNode
  | [] => []
  | n :: ns => translateNode lookup n :: translateNodes lookup ns
/-- Modelled from the spec: map entries in the missing `Translate`. -/
def translateEntries (lookup : String → String) :
    List (String × MessageNode) → List (String × MessageNode)
  | [] => []
  | (k, n) :: es => (k, translateNode lookup n) :: translateEntries lookup es
end

/-- An instance that holds one translatable array `array1` with the given texts and no
keys, as `Array1` in `TestEmptyStrings`. -/
def arrayInstance (texts : List String) : MessageNode :=
  .mk (texts.map (fun t => ⟨"array1", "", t⟩)) []

/-! ## Vocabulary of the specification: instance trees of the same shape -/

mutual
/-- Spec: two instance trees have the same shape, and the translatable fields at the same
place are related by `R`. -/
def relNode (R : TransField → TransField → Prop) : MessageNode → MessageNode → Prop
  | .mk fs cs, B => ∃ gs ds, B = .mk gs ds ∧ List.Forall₂ R fs gs ∧ relChildren R cs ds
/-- Spec: composite children of the same shape, place by place. -/
def relChildren (R : TransField → TransField → Prop) : List Child → List Child → Prop
  | [], ds => ds = []
  | c :: cs, ds => ∃ d ds1, ds = d :: ds1 ∧ relChild R c d ∧ relChildren R cs ds1
/-- Spec: two composite children of the same kind and shape. -/
def relChild (R : TransField → TransField → Prop) : Child → Child → Prop
  | .absent, d => d = .absent
  | .single n, d => ∃ m, d = .single m ∧ relNode R n m
  | .array ns, d => ∃ ms, d = .array ms ∧ relNodes R ns ms
  | .map es, d => ∃ fs, d = .map fs ∧ relEntries R es fs
/-- Spec: arrays of the same length with elements of the same shape. -/
def relNodes (R : TransField → TransField → Prop) : List MessageNode → List MessageNode → Prop
  | [], ms => ms = []
  | n :: ns, ms => ∃ m ms1, ms = m :: ms1 ∧ relNode R n m ∧ relNodes R ns ms1
/-- Spec: maps with the same keys in the same iteration order and values of the same
shape. -/
def relEntries (R : TransField → TransField → Prop) :
    List (String × MessageNode) → List (String × MessageNode) → Prop
  | [], fs => fs = []
  | (k, n) :: es, fs => ∃ m fs1, fs = (k, m) :: fs1 ∧ relNode R n m ∧ relEntries R es fs1
end

/-- Spec: structurally isomorphic instance trees: the same shape and the same field
names, whatever the texts and keys. -/
def Isomorphic (A B : MessageNode) : Prop :=
  relNode (fun a b => a.fieldName = b.fieldName) A B

/-- Spec: `A` has the text content of `B`: the same shape, and at every place the same
field name and the same text. -/
def SameText (A B : MessageNode) : Prop :=
  relNode (fun a b => a.fieldName = b.fieldName ∧ a.text = b.text) A B

/-- Spec: every field of `A` carries the key of the corresponding field of `B`. -/
def SameKeys (A B : MessageNode) : Prop :=
  relNode (fun a b => a.fieldName = b.fieldName ∧ a.currentKey = b.currentKey) A B

mutual
/-- Spec: every map of the instance tree holds each map key once. -/
def DistinctMapKeys : MessageNode → Prop
  | .mk _ cs => distinctMapKeysChildren cs
/-- Spec: `DistinctMapKeys` for a sequence of composite children. -/
def distinctMapKeysChildren : List Child → Prop
  | [] => True
  | c :: cs => distinctMapKeysChild c ∧ distinctMapKeysChildren cs
/-- Spec: `DistinctMapKeys` for one composite child. -/
def distinctMapKeysChild : Child → Prop
  | .absent => True
  | .single n => DistinctMapKeys n
  | .array ns => distinctMapKeysNodes ns
  | .map es => (es.map Prod.fst).Nodup ∧ distinctMapKeysEntries es
/-- Spec: `DistinctMapKeys` for array elements. -/
def distinctMapKeysNodes : List MessageNode → Prop
  | [] => True
  | n :: ns => DistinctMapKeys n ∧ distinctMapKeysNodes ns
/-- Spec: `DistinctMapKeys` for the values of map entries. -/
def distinctMapKeysEntries : List (String × MessageNode) → Prop
  | [] => True
  | (_, n) :: es => DistinctMapKeys n ∧ distinctMapKeysEntries es
end

mutual
/-- The pairs `(key, text)` of the translatable fields of a tree, in the traversal order
of extraction. -/
def fieldEntries : MessageNode → List (String × String)
  | .mk fields children => fields.map (fun f => (f.currentKey, f.text)) ++ fieldEntriesChildren children
/-- The pairs `(key, text)` below a sequence of composite children. -/
def fieldEntriesChildren : List Child → List (String × String)
  | [] => []
  | c :: cs => fieldEntriesChild c ++ fieldEntriesChildren cs
/-- The pairs `(key, text)` below one composite child. -/
def fieldEntriesChild : Child → List (String × String)
  | .absent => []
  | .single n => fieldEntries n
  | .array ns => fieldEntriesNodes ns
  | .map es => fieldEntriesEntries es
/-- The pairs `(key, text)` below array elements. -/
def fieldEntriesNodes : List MessageNode → List (String × String)
  | [] => []
  | n :: ns => fieldEntries n ++ fieldEntriesNodes ns
/-- The pairs `(key, text)` below map entries. -/
def fieldEntriesEntries : List (String × MessageNode) → List (String × String)
  | [] => []
  | (_, n) :: es => fieldEntries n ++ fieldEntriesEntries es
end

/-- Spec: a key policy that returns the old key when it is not empty, in every state. -/
def ReusesOldKey {σ : Type} (keyGetter : KeyGetter σ) : Prop :=
  ∀ s oldKey text, oldKey ≠ "" → (keyGetter s oldKey text).1 = oldKey

/-- An instance in the shape of the English test message: two translatable fields, a
single child, an array of two children and a map with two entries, without keys. -/
def sampleEnglish : MessageNode :=
  .mk [⟨"name1", "", "book"⟩, ⟨"name3", "", "person"⟩]
    [.single (.mk [⟨"name", "", "inner"⟩] []),
     .array [.mk [⟨"name", "", "one"⟩] [], .mk [⟨"name", "", "two"⟩] []],
     .map [("1", .mk [⟨"name", "", "first"⟩] []), ("2", .mk [⟨"name", "", "second"⟩] [])]]

/-- An instance of the same shape as `sampleEnglish` with Japanese texts. -/
def sampleJapanese : MessageNode :=
  .mk [⟨"name1", "", "hon"⟩, ⟨"name3", "", "hito"⟩]
    [.single (.mk [⟨"name", "", "naka"⟩] []),
     .array [.mk [⟨"name", "", "ichi"⟩] [], .mk [⟨"name", "", "ni"⟩] []],
     .map [("1", .mk [⟨"name", "", "saisho"⟩] []), ("2", .mk [⟨"name", "", "tsugi"⟩] [])]]

/-- The instance `sampleEnglish` stamped by the English policy against no previous. -/
def sampleEnglishWithKeys : MessageNode :=
  (extractNode (statelessKeyGetter (englishKeyGetter.GetKey sampleSHA1)) sampleEnglish none
    ()).stamped

/-- An instance that holds the same text at every place: two translatable fields, an
array of two children and a map of two entries. -/
def sampleSameTexts : MessageNode :=
  .mk [⟨"name1", "", "same"⟩, ⟨"name3", "", "same"⟩]
    [.array [.mk [⟨"name", "", "same"⟩] [], .mk [⟨"name", "", "same"⟩] []],
     .map [("1", .mk [⟨"name", "", "same"⟩] []), ("2", .mk [⟨"name", "", "same"⟩] [])]]

/-- An instance of the same shape as `sampleSameTexts` with other texts, some of them
equal. -/
def sampleOtherTexts : MessageNode :=
  .mk [⟨"name1", "", "onaji"⟩, ⟨"name3", "", "onaji"⟩]
    [.array [.mk [⟨"name", "", "ichi"⟩] [], .mk [⟨"name", "", "ni"⟩] []],
     .map [("1", .mk [⟨"name", "", "onaji"⟩] []), ("2", .mk [⟨"name", "", "tsugi"⟩] [])]]

/-- The template data `emitMessageType` builds for `TestMessage1` with the identity for
`camelCase`. -/
def sampleMessagePlan : Message :=
  ⟨"TestMessage1", [⟨"name1", false, false⟩, ⟨"array1", true, false⟩],
    [⟨"nested", false, false⟩, ⟨"nested_array", true, false⟩, ⟨"map1", false, true⟩]⟩

/-! ## Lemmas on strings -/

theorem dot_append_eq_dot (p : String) : "." ++ p = "." ↔ p = "" := by
  constructor
  · intro h
    have h1 := congrArg String.data h
    rw [String.data_append] at h1
    apply String.ext
    have h2 : ".".data = ['.'] := rfl
    rw [h2] at h1
    simpa using h1
  · rintro rfl
    rfl

theorem dottedPkg_eq (f : FileDescriptorProto) : dottedPkg f = qualifiedPrefix f.GetPackage := by
  unfold dottedPkg qualifiedPrefix
  by_cases h : f.GetPackage = ""
  · simp [h]
  · have h1 : ¬ ("." ++ f.GetPackage = ".") := fun e => h ((dot_append_eq_dot _).1 e)
    simp [h, h1]

theorem intercalate_go_append (a b s : String) (l : List String) :
    String.intercalate.go (a ++ b) s l = a ++ String.intercalate.go b s l := by
  induction l generalizing b with
  | nil => simp [String.intercalate.go]
  | cons x xs ih =>
    simp only [String.intercalate.go]
    rw [String.append_assoc a b s, String.append_assoc a (b ++ s) x]
    exact ih (b ++ s ++ x)

theorem intercalate_singleton (n : String) : ".".intercalate [n] = n := by
  simp [String.intercalate, String.intercalate.go]

theorem intercalate_cons_cons (pfx n x : String) (xs : List String) :
    pfx ++ ".".intercalate (n :: x :: xs) = (pfx ++ n ++ ".") ++ ".".intercalate (x :: xs) := by
  simp only [String.intercalate, String.intercalate.go]
  rw [← intercalate_go_append, ← intercalate_go_append]
  simp [String.append_assoc]

/-! ## The type index as a replay of the build order -/

theorem replay_nil (m : TypeIndex) : replay m [] = m := rfl

theorem replay_cons (m : TypeIndex) (e : String × DescriptorProto)
    (l : List (String × DescriptorProto)) : replay m (e :: l) = replay (m.set e.1 e.2) l := rfl

theorem replay_append (m : TypeIndex) (l1 l2 : List (String × DescriptorProto)) :
    replay m (l1 ++ l2) = replay (replay m l1) l2 := by
  simp [replay, List.foldl_append]

theorem replay_of_not_mem (l : List (String × DescriptorProto)) (m : TypeIndex) (k : String)
    (h : ∀ e ∈ l, e.1 ≠ k) : replay m l k = m k := by
  induction l generalizing m with
  | nil => rfl
  | cons e rest ih =>
    rw [replay_cons, ih _ (fun e1 he1 => h e1 (List.mem_cons_of_mem _ he1))]
    have h1 : ¬ (k = e.1) := fun e1 => h e (List.mem_cons_self _ _) e1.symm
    simp [TypeIndex.set, h1]

theorem replay_some (l : List (String × DescriptorProto)) (m : TypeIndex) (k : String)
    (d : DescriptorProto) (h : replay m l k = some d) : m k = some d ∨ (k, d) ∈ l := by
  induction l generalizing m with
  | nil => exact Or.inl h
  | cons e rest ih =>
    rw [replay_cons] at h
    rcases ih _ h with h1 | h1
    · by_cases hk : k = e.1
      · simp only [TypeIndex.set, hk, if_true, Option.some.injEq] at h1
        right
        rw [hk, ← h1]
        exact List.mem_cons_self _ _
      · simp only [TypeIndex.set, hk, if_false] at h1
        exact Or.inl h1
    · exact Or.inr (List.mem_cons_of_mem _ h1)

theorem replay_isSome (l : List (String × DescriptorProto)) (m : TypeIndex) (k : String)
    (h : (∃ d, m k = some d) ∨ ∃ d, (k, d) ∈ l) : ∃ d, replay m l k = some d := by
  induction l generalizing m with
  | nil =>
    rcases h with h | ⟨d, hd⟩
    · exact h
    · cases hd
  | cons e rest ih =>
    rw [replay_cons]
    apply ih
    by_cases hk : k = e.1
    · left
      exact ⟨e.2, by simp [TypeIndex.set, hk]⟩
    · rcases h with ⟨d, hd⟩ | ⟨d, hd⟩
      · left
        exact ⟨d, by simp [TypeIndex.set, hk, hd]⟩
      · right
        rcases List.mem_cons.1 hd with h1 | h1
        · exact absurd (congrArg Prod.fst h1) hk
        · exact ⟨d, h1⟩

mutual
theorem addTypeNames_eq_replay (m : TypeIndex) (pfx : String) :
    ∀ t : DescriptorProto, addTypeNames m pfx t = replay m (buildOrderType pfx t)
  | .mk name fields nested opts => by
    rw [addTypeNames, buildOrderType, replay_cons]
    exact addTypeNamesNested_eq_replay _ _ nested
theorem addTypeNamesNested_eq_replay (m : TypeIndex) (pfx : String) :
    ∀ l : List DescriptorProto, addTypeNamesNested m pfx l = replay m (buildOrderNested pfx l)
  | [] => by
    rw [addTypeNamesNested, buildOrderNested, replay_nil]
  | t :: rest => by
    rw [addTypeNamesNested, buildOrderNested, replay_append, addTypeNames_eq_replay m pfx t]
    exact addTypeNamesNested_eq_replay _ _ rest
end

theorem addTopLevel_eq_replay (pfx : String) (l : List DescriptorProto) (m : TypeIndex) :
    addTopLevel m pfx l = replay m (buildOrderNested pfx l) := by
  induction l generalizing m with
  | nil => rw [addTopLevel, buildOrderNested, replay_nil]
  | cons t rest ih =>
    rw [addTopLevel, buildOrderNested, replay_append, ih, addTypeNames_eq_replay]

theorem addFiles_eq_replay (files : List FileDescriptorProto) (m : TypeIndex) :
    addFiles m files = replay m (buildOrder files) := by
  induction files generalizing m with
  | nil => rfl
  | cons f rest ih =>
    rw [addFiles, ih, addTopLevel_eq_replay, dottedPkg_eq]
    simp [buildOrder, replay_append]

theorem initTypeNameToDesc_eq_replay (files : List FileDescriptorProto) :
    initTypeNameToDesc files = replay (fun _ => none) (buildOrder files) :=
  addFiles_eq_replay files _

/-! ## The build order lists exactly the types reached by a nesting path -/

theorem Reaches.path_ne_nil {T t : DescriptorProto} {path : List String}
    (h : Reaches T path t) : path ≠ [] := by
  cases h <;> simp

theorem mem_buildOrderNested_of_mem (pfx : String) (e : String × DescriptorProto)
    (n : DescriptorProto) (l : List DescriptorProto) (hn : n ∈ l)
    (he : e ∈ buildOrderType pfx n) : e ∈ buildOrderNested pfx l := by
  induction l with
  | nil => cases hn
  | cons x rest ih =>
    rw [buildOrderNested]
    rcases List.mem_cons.1 hn with h | h
    · subst h
      exact List.mem_append_left _ he
    · exact List.mem_append_right _ (ih h)

theorem mem_buildOrderType_of_reaches {T t : DescriptorProto} {path : List String}
    (h : Reaches T path t) :
    ∀ pfx : String, (pfx ++ ".".intercalate path, t) ∈ buildOrderType pfx T := by
  induction h with
  | top t =>
    intro pfx
    cases t with
    | mk name fields nested opts =>
      rw [intercalate_singleton, buildOrderType]
      exact List.mem_cons_self _ _
  | @nested T n path t hn hr ih =>
    intro pfx
    cases T with
    | mk name fields nested opts =>
      obtain ⟨x, xs, rfl⟩ := List.exists_cons_of_ne_nil hr.path_ne_nil
      have h1 : DescriptorProto.Name (.mk name fields nested opts) = name := rfl
      rw [h1, intercalate_cons_cons, buildOrderType]
      exact List.mem_cons_of_mem _ (mem_buildOrderNested_of_mem _ _ n nested hn (ih _))

mutual
theorem reaches_of_mem_buildOrderType (k : String) (d : DescriptorProto) (pfx : String) :
    ∀ T : DescriptorProto, (k, d) ∈ buildOrderType pfx T →
      ∃ path, Reaches T path d ∧ k = pfx ++ ".".intercalate path
  | .mk name fields nested opts => by
    intro h
    rw [buildOrderType] at h
    rcases List.mem_cons.1 h with h1 | h1
    · refine ⟨[name], ?_, ?_⟩
      · rw [(Prod.mk.inj h1).2]
        exact Reaches.top _
      · rw [intercalate_singleton]
        exact (Prod.mk.inj h1).1
    · obtain ⟨n, hn, path, hr, hk⟩ :=
        reaches_of_mem_buildOrderNested k d (pfx ++ name ++ ".") nested h1
      refine ⟨name :: path, Reaches.nested (T := .mk name fields nested opts) hn hr, ?_⟩
      obtain ⟨x, xs, rfl⟩ := List.exists_cons_of_ne_nil hr.path_ne_nil
      rw [intercalate_cons_cons]
      exact hk
theorem reaches_of_mem_buildOrderNested (k : String) (d : DescriptorProto) (pfx : String) :
    ∀ l : List DescriptorProto, (k, d) ∈ buildOrderNested pfx l →
      ∃ n ∈ l, ∃ path, Reaches n path d ∧ k = pfx ++ ".".intercalate path
  | [] => by
    intro h
    rw [buildOrderNested] at h
    cases h
  | T :: rest => by
    intro h
    rw [buildOrderNested] at h
    rcases List.mem_append.1 h with h1 | h1
    · obtain ⟨path, hr, hk⟩ := reaches_of_mem_buildOrderType k d pfx T h1
      exact ⟨T, List.mem_cons_self _ _, path, hr, hk⟩
    · obtain ⟨n, hn, path, hr, hk⟩ := reaches_of_mem_buildOrderNested k d pfx rest h1
      exact ⟨n, List.mem_cons_of_mem _ hn, path, hr, hk⟩
end

theorem registered_iff_mem_buildOrder (files : List FileDescriptorProto) (k : String)
    (t : DescriptorProto) : Registered files k t ↔ (k, t) ∈ buildOrder files := by
  unfold Registered buildOrder
  rw [List.mem_flatMap]
  constructor
  · rintro ⟨f, hf, T, hT, path, hr, rfl⟩
    exact ⟨f, hf, mem_buildOrderNested_of_mem _ _ T _ hT (mem_buildOrderType_of_reaches hr _)⟩
  · rintro ⟨f, hf, h⟩
    obtain ⟨T, hT, path, hr, hk⟩ := reaches_of_mem_buildOrderNested k t _ _ h
    exact ⟨f, hf, T, hT, path, hr, hk⟩

/-! ## Claims on the type index -/

/-- C1: for a file `f` of the schema set, a top-level type `T` of it and a type `t` reached
from `T` by the nesting path `path`, the index built by `initTypeNameToDesc` has an entry
under the qualified name of `t` (`"." + p + "." + N1 + "." + ... + Nk`, or
`"." + N1 + "." + ... + Nk` for the empty package); when every type registered under that
name is `t`, the entry is `t`; and every entry of the index is a type reached by a nesting
path, stored under its qualified name. -/
theorem initTypeNameToDesc_entries (files : List FileDescriptorProto)
    (f : FileDescriptorProto) (T : DescriptorProto) (path : List String) (t : DescriptorProto)
    (hf : f ∈ files) (hT : T ∈ f.MessageType) (hr : Reaches T path t) :
    (∃ d, initTypeNameToDesc files (qualifiedName f.GetPackage path) = some d) ∧
    ((∀ t1, Registered files (qualifiedName f.GetPackage path) t1 → t1 = t) →
      initTypeNameToDesc files (qualifiedName f.GetPackage path) = some t) ∧
    (∀ k d, initTypeNameToDesc files k = some d → Registered files k d) := by
  have hreg : Registered files (qualifiedName f.GetPackage path) t :=
    ⟨f, hf, T, hT, path, hr, rfl⟩
  have h3 : ∀ k d, initTypeNameToDesc files k = some d → Registered files k d := by
    intro k d h
    rw [initTypeNameToDesc_eq_replay] at h
    rcases replay_some _ _ _ _ h with h1 | h1
    · cases h1
    · exact (registered_iff_mem_buildOrder files k d).2 h1
  have h1 : ∃ d, initTypeNameToDesc files (qualifiedName f.GetPackage path) = some d := by
    rw [initTypeNameToDesc_eq_replay]
    exact replay_isSome _ _ _ (Or.inr ⟨t, (registered_iff_mem_buildOrder files _ t).1 hreg⟩)
  refine ⟨h1, ?_, h3⟩
  intro huniq
  obtain ⟨d, hd⟩ := h1
  rw [hd, huniq d (h3 _ d hd)]

/-- C9: building the index is total, and for every name the index holds the descriptor
written last in the build order (files in input order, top-level types in declaration
order, each type before its nested types): if the build order is `pre`, then `(k, d)`,
then `post`, and no entry of `post` has the name `k`, the index maps `k` to `d`, whatever
`pre` holds under `k` and whatever other names were written. -/
theorem initTypeNameToDesc_last_write_wins (files : List FileDescriptorProto)
    (pre post : List (String × DescriptorProto)) (k : String) (d : DescriptorProto)
    (horder : buildOrder files = pre ++ (k, d) :: post)
    (hlast : ∀ e ∈ post, e.1 ≠ k) :
    initTypeNameToDesc files k = some d := by
  rw [initTypeNameToDesc_eq_replay, horder, replay_append, replay_cons,
    replay_of_not_mem post _ k hlast]
  simp [TypeIndex.set]

theorem initTypeNameToDesc_entries_witness :
    sampleFile ∈ [sampleFile] ∧ sampleOuter ∈ sampleFile.MessageType ∧
    Reaches sampleOuter ["Outer", "Inner"] sampleInner ∧
    initTypeNameToDesc [sampleFile] ".pkg.Outer.Inner" = some sampleInner ∧
    (∀ k d, initTypeNameToDesc [sampleFile] k = some d → Registered [sampleFile] k d) := by
  have hf : sampleFile ∈ [sampleFile] := List.mem_singleton.2 rfl
  have hT : sampleOuter ∈ sampleFile.MessageType := List.mem_singleton.2 rfl
  have hr : Reaches sampleOuter ["Outer", "Inner"] sampleInner :=
    Reaches.nested (T := sampleOuter) (List.mem_singleton.2 rfl) (Reaches.top sampleInner)
  have hthm := initTypeNameToDesc_entries [sampleFile] sampleFile sampleOuter
    ["Outer", "Inner"] sampleInner hf hT hr
  have hk : qualifiedName sampleFile.GetPackage ["Outer", "Inner"] = ".pkg.Outer.Inner" := by
    decide
  rw [hk] at hthm
  refine ⟨hf, hT, hr, hthm.2.1 ?_, hthm.2.2⟩
  intro t1 h1
  have h2 := (registered_iff_mem_buildOrder _ _ _).1 h1
  have h3 : buildOrder [sampleFile] =
      [(".pkg.Outer", sampleOuter), (".pkg.Outer.Inner", sampleInner)] := rfl
  rw [h3] at h2
  rcases List.mem_cons.1 h2 with h4 | h4
  · exact absurd (Prod.mk.inj h4).1 (by decide)
  · rcases List.mem_cons.1 h4 with h5 | h5
    · exact (Prod.mk.inj h5).2
    · cases h5

theorem initTypeNameToDesc_last_write_wins_witness :
    buildOrder [sampleFile, sampleFileDup] =
      [(".pkg.Outer", sampleOuter), (".pkg.Outer.Inner", sampleInner)] ++
        (".pkg.Outer", .mk "Outer"
          [⟨"id", FieldLabel.LABEL_OPTIONAL, FieldType.TYPE_INT32, "", none⟩] [] none) :: [] ∧
    initTypeNameToDesc [sampleFile, sampleFileDup] ".pkg.Outer" =
      some (.mk "Outer" [⟨"id", FieldLabel.LABEL_OPTIONAL, FieldType.TYPE_INT32, "", none⟩] []
        none) :=
  ⟨rfl, initTypeNameToDesc_last_write_wins [sampleFile, sampleFileDup] _ [] _ _ rfl
    (fun _ h => nomatch h)⟩

/-! ## The field loop accumulates -/

/-- The composite part by cases: on the index entry, on its `map_entry` option and on its
second field. -/
theorem compositePart_eq (camelCase : String → String) (idx : TypeIndex)
    (field : FieldDescriptorProto) (st : Acc) :
    compositePart camelCase idx field st =
      if field.Type_ = FieldType.TYPE_MESSAGE ∧ isGoogleWKT field = false then
        match idx field.TypeName with
        | some desc =>
          if GetMapEntry desc.GetOptions = true then
            match desc.Field[1]? with
            | none => .error Fault.indexOutOfRange
            | some value =>
              if value.Type_ ≠ FieldType.TYPE_MESSAGE then .ok st
              else .ok (st.1, st.2 ++ [⟨camelCase field.Name, false, true⟩])
          else
            .ok (st.1, st.2 ++
              [⟨camelCase field.Name, decide (field.Label = FieldLabel.LABEL_REPEATED), false⟩])
        | none =>
          .ok (st.1, st.2 ++
            [⟨camelCase field.Name, decide (field.Label = FieldLabel.LABEL_REPEATED), false⟩])
      else .ok st := by
  unfold compositePart
  by_cases hc : field.Type_ = FieldType.TYPE_MESSAGE ∧ isGoogleWKT field = false
  · rw [if_pos hc, if_pos hc]
    cases hd : idx field.TypeName with
    | none => simp
    | some desc =>
      cases hm : GetMapEntry desc.GetOptions with
      | false => simp [hm]
      | true => simp [hm]
  · rw [if_neg hc, if_neg hc]


theorem Acc.append_nil (st : Acc) : Acc.append st ([], []) = st := by
  simp [Acc.append]

theorem Acc.nil_append (st : Acc) : Acc.append ([], []) st = st := by
  simp [Acc.append]

theorem Acc.append_assoc (a b c : Acc) :
    Acc.append (Acc.append a b) c = Acc.append a (Acc.append b c) := by
  simp [Acc.append]

theorem compositePart_acc (camelCase : String → String) (idx : TypeIndex)
    (field : FieldDescriptorProto) (st : Acc) :
    compositePart camelCase idx field st =
      andThen (compositePart camelCase idx field ([], [])) (fun d => .ok (Acc.append st d)) := by
  rw [compositePart_eq camelCase idx field st, compositePart_eq camelCase idx field ([], [])]
  split
  · split
    · split
      · split
        · rfl
        · split <;> simp [andThen, Acc.append]
      · simp [andThen, Acc.append]
    · simp [andThen, Acc.append]
  · simp [andThen, Acc.append]

theorem fieldBody_acc (camelCase : String → String) (idx : TypeIndex) (msgName : String)
    (field : FieldDescriptorProto) (st : Acc) :
    fieldBody camelCase idx msgName st field =
      andThen (fieldBody camelCase idx msgName ([], []) field)
        (fun d => .ok (Acc.append st d)) := by
  unfold fieldBody
  split
  · split
    · simp [andThen, Acc.append]
    · split
      · rfl
      · rw [compositePart_acc camelCase idx field (st.1 ++ _, st.2),
          compositePart_acc camelCase idx field ([] ++ _, [])]
        cases compositePart camelCase idx field ([], []) <;> simp [andThen, Acc.append]
  · exact compositePart_acc camelCase idx field st

theorem fieldLoop_acc (camelCase : String → String) (idx : TypeIndex) (msgName : String)
    (fields : List FieldDescriptorProto) (st : Acc) :
    fieldLoop camelCase idx msgName st fields =
      andThen (fieldLoop camelCase idx msgName ([], []) fields)
        (fun d => .ok (Acc.append st d)) := by
  induction fields generalizing st with
  | nil => simp [fieldLoop, andThen, Acc.append]
  | cons f rest ih =>
    rw [fieldLoop, fieldLoop, fieldBody_acc camelCase idx msgName f st]
    cases h : fieldBody camelCase idx msgName ([], []) f with
    | error e => simp [andThen]
    | ok d =>
      simp only [andThen]
      rw [ih (Acc.append st d), ih d]
      cases fieldLoop camelCase idx msgName ([], []) rest with
      | error e => rfl
      | ok d2 => simp [andThen, Acc.append_assoc]

theorem fieldLoop_append (camelCase : String → String) (idx : TypeIndex) (msgName : String)
    (l1 l2 : List FieldDescriptorProto) (st : Acc) :
    fieldLoop camelCase idx msgName st (l1 ++ l2) =
      andThen (fieldLoop camelCase idx msgName st l1)
        (fun s => fieldLoop camelCase idx msgName s l2) := by
  induction l1 generalizing st with
  | nil => simp [fieldLoop, andThen]
  | cons f rest ih =>
    rw [List.cons_append, fieldLoop, fieldLoop]
    cases fieldBody camelCase idx msgName st f with
    | error e => simp [andThen]
    | ok s => exact ih s

/-- The field loop over `pre ++ field :: post` succeeds exactly when the loop over `pre`,
the body on `field` and the loop over `post` succeed, each from empty lists; its lists are
then the three results appended. -/
theorem fieldLoop_split (camelCase : String → String) (idx : TypeIndex) (msgName : String)
    (pre post : List FieldDescriptorProto) (field : FieldDescriptorProto) (st : Acc) :
    fieldLoop camelCase idx msgName ([], []) (pre ++ field :: post) = .ok st ↔
      ∃ s1 d s2, fieldLoop camelCase idx msgName ([], []) pre = .ok s1 ∧
        fieldBody camelCase idx msgName ([], []) field = .ok d ∧
        fieldLoop camelCase idx msgName ([], []) post = .ok s2 ∧
        st = Acc.append (Acc.append s1 d) s2 := by
  rw [fieldLoop_append]
  cases h1 : fieldLoop camelCase idx msgName ([], []) pre with
  | error e => simp [andThen]
  | ok s1 =>
    simp only [andThen]
    rw [fieldLoop, fieldBody_acc camelCase idx msgName field s1]
    cases h2 : fieldBody camelCase idx msgName ([], []) field with
    | error e => simp [andThen]
    | ok d =>
      simp only [andThen]
      rw [fieldLoop_acc camelCase idx msgName post (Acc.append s1 d)]
      cases h3 : fieldLoop camelCase idx msgName ([], []) post with
      | error e => simp [andThen]
      | ok s2 =>
        simp only [andThen, Except.ok.injEq]
        constructor
        · intro h
          exact ⟨s1, d, s2, rfl, rfl, rfl, h.symm⟩
        · rintro ⟨a, b, c, ha, hb, hc, rfl⟩
          rw [ha, hb, hc]

/-! ## The output buffer is only appended to -/

mutual
theorem emitMessageType_acc (camelCase : String → String) (idx : TypeIndex)
    (code : List Emitted) (pfx : String) :
    ∀ msg : DescriptorProto, emitMessageType camelCase idx code pfx msg =
      andThen (emitMessageType camelCase idx [] pfx msg) (fun o => .ok (code ++ o))
  | .mk name fields nested opts => by
    rw [emitMessageType, emitMessageType]
    by_cases hmap : GetMapEntry opts = true
    · simp [hmap, andThen]
    · simp only [hmap, if_false]
      rw [emitNested_acc camelCase idx code _ nested]
      cases emitNested camelCase idx [] ((pfx ++ name) ++ "_") nested with
      | error e => simp [andThen]
      | ok o =>
        simp only [andThen]
        cases fieldLoop camelCase idx name ([], []) fields with
        | error e => simp
        | ok st => simp
theorem emitNested_acc (camelCase : String → String) (idx : TypeIndex)
    (code : List Emitted) (pfx : String) :
    ∀ l : List DescriptorProto, emitNested camelCase idx code pfx l =
      andThen (emitNested camelCase idx [] pfx l) (fun o => .ok (code ++ o))
  | [] => by
    rw [emitNested, emitNested]
    simp [andThen]
  | n :: rest => by
    rw [emitNested, emitNested, emitMessageType_acc camelCase idx code pfx n]
    cases emitMessageType camelCase idx [] pfx n with
    | error e => simp [andThen]
    | ok o =>
      simp only [andThen]
      rw [emitNested_acc camelCase idx (code ++ o) pfx rest,
        emitNested_acc camelCase idx o pfx rest]
      cases emitNested camelCase idx [] pfx rest with
      | error e => simp [andThen]
      | ok o2 => simp [andThen]
end

theorem emitNested_ok_iff (camelCase : String → String) (idx : TypeIndex) (pfx : String)
    (l : List DescriptorProto) (out : List Emitted) :
    emitNested camelCase idx [] pfx l = .ok out ↔
      ∃ outs, List.Forall₂ (fun n o => emitMessageType camelCase idx [] pfx n = .ok o) l outs ∧
        out = outs.flatten := by
  induction l generalizing out with
  | nil =>
    rw [emitNested]
    constructor
    · intro h
      refine ⟨[], List.Forall₂.nil, ?_⟩
      simpa using (Except.ok.inj h).symm
    · rintro ⟨outs, h1, rfl⟩
      cases h1
      rfl
  | cons n rest ih =>
    rw [emitNested]
    cases hn : emitMessageType camelCase idx [] pfx n with
    | error e =>
      constructor
      · intro h
        cases h
      · rintro ⟨outs, h1, _⟩
        cases h1 with
        | cons h2 _ => rw [hn] at h2; cases h2
    | ok o =>
      simp only
      rw [emitNested_acc camelCase idx o pfx rest]
      cases hr : emitNested camelCase idx [] pfx rest with
      | error e =>
        constructor
        · intro h
          cases h
        · rintro ⟨outs, h1, _⟩
          cases h1 with
          | cons h2 h3 =>
            have := (ih _).2 ⟨_, h3, rfl⟩
            rw [hr] at this
            cases this
      | ok o2 =>
        obtain ⟨outs, h1, h2⟩ := (ih o2).1 hr
        simp only [andThen]
        constructor
        · intro h
          refine ⟨o :: outs, List.Forall₂.cons hn h1, ?_⟩
          rw [← Except.ok.inj h, h2]
          simp
        · rintro ⟨outs2, h3, rfl⟩
          cases h3 with
          | cons h4 h5 =>
            rw [hn] at h4
            have h6 := (ih _).2 ⟨_, h5, rfl⟩
            rw [hr] at h6
            rw [← Except.ok.inj h4, Except.ok.inj h6]
            simp

/-- C10: for a message type that is not a map entry, `emitMessageType` returns exactly when
it returns for every nested type (started on an empty buffer, under the name of the type
followed by `_`) and the field loop succeeds, and what it has then written after the
incoming buffer is the concatenation of the outputs of the nested types, in declaration
order, followed by the plan of the type itself: its extract, translate and get-keys
operations, in that order. The plan of a nested type so precedes the plan of the type
enclosing it. -/
theorem emitMessageType_output (camelCase : String → String) (idx : TypeIndex)
    (code : List Emitted) (pfx : String) (msg : DescriptorProto)
    (hmap : GetMapEntry msg.GetOptions = false) (out : List Emitted) :
    emitMessageType camelCase idx code pfx msg = .ok out ↔
      ∃ outs st,
        List.Forall₂
          (fun n o => emitMessageType camelCase idx [] ((pfx ++ msg.Name) ++ "_") n = .ok o)
          msg.NestedType outs ∧
        fieldLoop camelCase idx msg.Name ([], []) msg.Field = .ok st ∧
        out = code ++ outs.flatten ++
          [Emitted.extractTranslations ⟨pfx ++ msg.Name, st.1, st.2⟩,
           Emitted.translate ⟨pfx ++ msg.Name, st.1, st.2⟩,
           Emitted.getTranslationKeys ⟨pfx ++ msg.Name, st.1, st.2⟩] := by
  have hplan : ∀ m : Message,
      [Emitted.extractTranslations m, Emitted.translate m, Emitted.getTranslationKeys m] =
        plan m := fun _ => rfl
  simp only [hplan]
  cases msg with
  | mk name fields nested opts =>
    have hmap1 : GetMapEntry opts = false := hmap
    simp only [DescriptorProto.Name, DescriptorProto.NestedType, DescriptorProto.Field]
    rw [emitMessageType]
    simp only [hmap1, Bool.false_eq_true, if_false]
    rw [emitNested_acc camelCase idx code _ nested]
    cases hn : emitNested camelCase idx [] ((pfx ++ name) ++ "_") nested with
    | error e =>
      simp only [andThen]
      constructor
      · intro h
        cases h
      · rintro ⟨outs, st, h1, _, _⟩
        have := (emitNested_ok_iff camelCase idx _ nested _).2 ⟨outs, h1, rfl⟩
        rw [hn] at this
        cases this
    | ok o =>
      obtain ⟨outs, h1, h2⟩ := (emitNested_ok_iff camelCase idx _ nested o).1 hn
      simp only [andThen]
      cases hl : fieldLoop camelCase idx name ([], []) fields with
      | error e =>
        constructor
        · intro h
          cases h
        · rintro ⟨_, st, _, h3, _⟩
          cases h3
      | ok st =>
        simp only [Except.ok.injEq]
        constructor
        · intro h
          exact ⟨outs, st, h1, rfl, by rw [← h, h2]⟩
        · rintro ⟨outs2, st2, h3, h4, rfl⟩
          have h5 := (emitNested_ok_iff camelCase idx _ nested _).2 ⟨outs2, h3, rfl⟩
          rw [hn] at h5
          rw [Except.ok.inj h5, h4]

theorem emitMessageType_output_witness :
    GetMapEntry sampleMessage.GetOptions = false ∧
    emitMessageType id sampleIndex [] "" sampleMessage =
      .ok [Emitted.extractTranslations
            ⟨"TestMessage1_NestedMessage", [⟨"name", false, false⟩], []⟩,
          Emitted.translate ⟨"TestMessage1_NestedMessage", [⟨"name", false, false⟩], []⟩,
          Emitted.getTranslationKeys
            ⟨"TestMessage1_NestedMessage", [⟨"name", false, false⟩], []⟩,
          Emitted.extractTranslations sampleMessagePlan,
          Emitted.translate sampleMessagePlan,
          Emitted.getTranslationKeys sampleMessagePlan] :=
  ⟨rfl, (emitMessageType_output id sampleIndex [] "" sampleMessage rfl _).2
    ⟨[[Emitted.extractTranslations
          ⟨"TestMessage1_NestedMessage", [⟨"name", false, false⟩], []⟩,
        Emitted.translate ⟨"TestMessage1_NestedMessage", [⟨"name", false, false⟩], []⟩,
        Emitted.getTranslationKeys
          ⟨"TestMessage1_NestedMessage", [⟨"name", false, false⟩], []⟩], [], []], _,
      List.Forall₂.cons rfl (List.Forall₂.cons rfl (List.Forall₂.cons rfl List.Forall₂.nil)),
      rfl, rfl⟩⟩

/-- The last three entries written by `emitMessageType` on a type that is not a map entry
are the plan built from the result of the field loop. -/
theorem emitMessageType_ok_plan (camelCase : String → String) (idx : TypeIndex)
    (code : List Emitted) (pfx : String) (msg : DescriptorProto)
    (hmap : GetMapEntry msg.GetOptions = false) (out : List Emitted)
    (h : emitMessageType camelCase idx code pfx msg = .ok out) :
    ∃ code1 st, fieldLoop camelCase idx msg.Name ([], []) msg.Field = .ok st ∧
      out = code1 ++ plan ⟨pfx ++ msg.Name, st.1, st.2⟩ := by
  cases msg with
  | mk name fields nested opts =>
    have hmap1 : GetMapEntry opts = false := hmap
    simp only [DescriptorProto.Name, DescriptorProto.Field]
    rw [emitMessageType] at h
    simp only [hmap1, Bool.false_eq_true, if_false] at h
    cases hn : emitNested camelCase idx code ((pfx ++ name) ++ "_") nested with
    | error e => rw [hn] at h; cases h
    | ok code1 =>
      rw [hn] at h
      cases hl : fieldLoop camelCase idx name ([], []) fields with
      | error e => rw [hl] at h; cases h
      | ok st =>
        rw [hl] at h
        exact ⟨code1, st, rfl, (Except.ok.inj h).symm⟩

/-- The plan written for a type whose fields are `pre ++ field :: post` is built from the
results of the loop on `pre`, of the body on `field` and of the loop on `post`. -/
theorem emitMessageType_field_split (camelCase : String → String) (idx : TypeIndex)
    (code : List Emitted) (pfx : String) (msg : DescriptorProto)
    (hmap : GetMapEntry msg.GetOptions = false) (out : List Emitted)
    (pre post : List FieldDescriptorProto) (field : FieldDescriptorProto)
    (hfields : msg.Field = pre ++ field :: post)
    (h : emitMessageType camelCase idx code pfx msg = .ok out) :
    ∃ code1 s1 d s2, fieldLoop camelCase idx msg.Name ([], []) pre = .ok s1 ∧
      fieldBody camelCase idx msg.Name ([], []) field = .ok d ∧
      fieldLoop camelCase idx msg.Name ([], []) post = .ok s2 ∧
      out = code1 ++ plan ⟨pfx ++ msg.Name, s1.1 ++ d.1 ++ s2.1, s1.2 ++ d.2 ++ s2.2⟩ := by
  obtain ⟨code1, st, hl, hout⟩ := emitMessageType_ok_plan camelCase idx code pfx msg hmap out h
  rw [hfields] at hl
  obtain ⟨s1, d, s2, h1, h2, h3, rfl⟩ := (fieldLoop_split camelCase idx _ pre post field st).1 hl
  exact ⟨code1, s1, d, s2, h1, h2, h3, hout⟩

/-! ## Map-entry types are skipped -/

/-- C7: on a message type whose `map_entry` option is true, `emitMessageType` returns
without a fault and leaves the buffer as it found it: it writes no operation, hence no
translated list and no composite list, whatever the fields, annotations and nested types
of the type are. -/
theorem emitMessageType_mapEntry (camelCase : String → String) (idx : TypeIndex)
    (code : List Emitted) (pfx : String) (msg : DescriptorProto)
    (hmap : GetMapEntry msg.GetOptions = true) :
    emitMessageType camelCase idx code pfx msg = .ok code := by
  cases msg with
  | mk name fields nested opts =>
    have hmap1 : GetMapEntry opts = true := hmap
    rw [emitMessageType]
    simp [hmap1]

/-! ## What one field contributes -/

theorem isGoogleWKT_iff (field : FieldDescriptorProto) :
    isGoogleWKT field = true ↔ BeginsWithGoogleProtobuf field.TypeName := by
  unfold isGoogleWKT HasPrefix BeginsWithGoogleProtobuf
  rw [List.isPrefixOf_iff_prefix]
  constructor
  · rintro ⟨t, ht⟩
    refine ⟨⟨t⟩, String.ext ?_⟩
    rw [String.data_append, ← ht]
  · rintro ⟨rest, hrest⟩
    refine ⟨rest.data, ?_⟩
    rw [hrest, String.data_append]

theorem isGoogleWKT_eq_false_iff (field : FieldDescriptorProto) :
    isGoogleWKT field = false ↔ ¬ BeginsWithGoogleProtobuf field.TypeName := by
  rw [← isGoogleWKT_iff]
  simp

theorem compositePart_fst (camelCase : String → String) (idx : TypeIndex)
    (field : FieldDescriptorProto) (st s : Acc)
    (h : compositePart camelCase idx field st = .ok s) : s.1 = st.1 := by
  rw [compositePart_eq] at h
  split at h
  · split at h
    · split at h
      · split at h
        · cases h
        · split at h <;> (cases h; rfl)
      · cases h; rfl
    · cases h; rfl
  · cases h; rfl

/-- The composite list after the composite part is the list before it, or that list with
one entry named after the field, and then the field is message-typed and not well-known. -/
theorem compositePart_snd (camelCase : String → String) (idx : TypeIndex)
    (field : FieldDescriptorProto) (st s : Acc)
    (h : compositePart camelCase idx field st = .ok s) :
    s.2 = st.2 ∨ (field.Type_ = FieldType.TYPE_MESSAGE ∧ isGoogleWKT field = false ∧
      ∃ a m, s.2 = st.2 ++ [⟨camelCase field.Name, a, m⟩]) := by
  rw [compositePart_eq] at h
  split at h
  next hc =>
    split at h
    · split at h
      · split at h
        · cases h
        · split at h
          · cases h; exact Or.inl rfl
          · cases h; exact Or.inr ⟨hc.1, hc.2, _, _, rfl⟩
      · cases h; exact Or.inr ⟨hc.1, hc.2, _, _, rfl⟩
    · cases h; exact Or.inr ⟨hc.1, hc.2, _, _, rfl⟩
  · cases h; exact Or.inl rfl

theorem compositePart_of_not_composite (camelCase : String → String) (idx : TypeIndex)
    (field : FieldDescriptorProto) (st : Acc)
    (h : ¬ (field.Type_ = FieldType.TYPE_MESSAGE ∧ isGoogleWKT field = false)) :
    compositePart camelCase idx field st = .ok st := by
  rw [compositePart_eq]
  rw [if_neg h]

/-- The entry of the translated list for a field. -/
theorem fieldBody_fst (camelCase : String → String) (idx : TypeIndex) (msgName : String)
    (field : FieldDescriptorProto) (st s : Acc)
    (h : fieldBody camelCase idx msgName st field = .ok s) :
    s.1 = st.1 ++ (if GetExtension field.Options = some true then
      [⟨camelCase field.Name, decide (field.Label = FieldLabel.LABEL_REPEATED), false⟩]
      else []) := by
  unfold fieldBody at h
  split at h
  next ext hext =>
    split at h
    next hne =>
      have : ext = false := by simpa using hne
      subst this
      cases h
      simp [hext]
    next hne =>
      have : ext = true := by simpa using hne
      subst this
      split at h
      · cases h
      · rw [compositePart_fst camelCase idx field _ s h]
        simp [hext]
  next hext =>
    rw [compositePart_fst camelCase idx field _ s h]
    simp [hext]

theorem fieldBody_snd (camelCase : String → String) (idx : TypeIndex) (msgName : String)
    (field : FieldDescriptorProto) (st s : Acc)
    (h : fieldBody camelCase idx msgName st field = .ok s) :
    s.2 = st.2 ∨ (field.Type_ = FieldType.TYPE_MESSAGE ∧ isGoogleWKT field = false ∧
      ∃ a m, s.2 = st.2 ++ [⟨camelCase field.Name, a, m⟩]) := by
  unfold fieldBody at h
  split at h
  · split at h
    · cases h; exact Or.inl rfl
    · split at h
      · cases h
      · exact compositePart_snd camelCase idx field (st.1 ++ _, st.2) s h
  · exact compositePart_snd camelCase idx field _ s h

theorem fieldLoop_fst (camelCase : String → String) (idx : TypeIndex) (msgName : String)
    (fields : List FieldDescriptorProto) (st s : Acc)
    (h : fieldLoop camelCase idx msgName st fields = .ok s) :
    s.1 = st.1 ++
      (fields.filter (fun f => decide (GetExtension f.Options = some true))).map
        (fun f => ⟨camelCase f.Name, decide (f.Label = FieldLabel.LABEL_REPEATED), false⟩) := by
  induction fields generalizing st with
  | nil =>
    rw [fieldLoop] at h
    cases h
    simp
  | cons f rest ih =>
    rw [fieldLoop] at h
    cases hb : fieldBody camelCase idx msgName st f with
    | error e => rw [hb] at h; cases h
    | ok s1 =>
      rw [hb] at h
      rw [ih s1 h, fieldBody_fst camelCase idx msgName f st s1 hb]
      by_cases hx : GetExtension f.Options = some true
      · simp [hx, List.filter_cons]
      · simp [hx, List.filter_cons]

theorem fieldLoop_snd (camelCase : String → String) (idx : TypeIndex) (msgName : String)
    (fields : List FieldDescriptorProto) (st s : Acc)
    (h : fieldLoop camelCase idx msgName st fields = .ok s) :
    ∃ sub : List FieldDescriptorProto, sub.Sublist fields ∧
      (∀ g ∈ sub, g.Type_ = FieldType.TYPE_MESSAGE ∧ isGoogleWKT g = false) ∧
      s.2.map (fun e => e.Name) = st.2.map (fun e => e.Name) ++
        sub.map (fun g => camelCase g.Name) := by
  induction fields generalizing st with
  | nil =>
    rw [fieldLoop] at h
    cases h
    exact ⟨[], List.Sublist.slnil, by simp, by simp⟩
  | cons f rest ih =>
    rw [fieldLoop] at h
    cases hb : fieldBody camelCase idx msgName st f with
    | error e => rw [hb] at h; cases h
    | ok s1 =>
      rw [hb] at h
      obtain ⟨sub, hsub, hall, hnames⟩ := ih s1 h
      rcases fieldBody_snd camelCase idx msgName f st s1 hb with h1 | ⟨ht, hw, a, m, h1⟩
      · exact ⟨sub, List.Sublist.cons f hsub, hall, by rw [hnames, h1]⟩
      · refine ⟨f :: sub, List.Sublist.cons₂ f hsub, ?_, ?_⟩
        · intro g hg
          rcases List.mem_cons.1 hg with rfl | hg1
          · exact ⟨ht, hw⟩
          · exact hall g hg1
        · rw [hnames, h1]
          simp

/-! ## Claims on the classification of fields -/

/-- C3: for a message type that is not a map entry, when the field loop does not fail the
translated-field list it builds is exactly the sequence of the fields whose translated
annotation is present and true, in declaration order, each entry named
`camelCase(field name)` and flagged `IsArray` exactly when the label of the field is
repeated; and that list is the `TranslatedFields` of the plan `emitMessageType` writes. -/
theorem emitMessageType_translatedFields (camelCase : String → String) (idx : TypeIndex)
    (msg : DescriptorProto) (hmap : GetMapEntry msg.GetOptions = false) :
    (∀ st, fieldLoop camelCase idx msg.Name ([], []) msg.Field = .ok st →
      st.1 = (msg.Field.filter (fun f => decide (GetExtension f.Options = some true))).map
        (fun f => ⟨camelCase f.Name, decide (f.Label = FieldLabel.LABEL_REPEATED), false⟩)) ∧
    (∀ code pfx out, emitMessageType camelCase idx code pfx msg = .ok out →
      ∃ code1 cf, out = code1 ++ plan ⟨pfx ++ msg.Name,
        (msg.Field.filter (fun f => decide (GetExtension f.Options = some true))).map
          (fun f => ⟨camelCase f.Name, decide (f.Label = FieldLabel.LABEL_REPEATED), false⟩),
        cf⟩) := by
  have h1 : ∀ st, fieldLoop camelCase idx msg.Name ([], []) msg.Field = .ok st →
      st.1 = (msg.Field.filter (fun f => decide (GetExtension f.Options = some true))).map
        (fun f => ⟨camelCase f.Name, decide (f.Label = FieldLabel.LABEL_REPEATED), false⟩) := by
    intro st h
    have := fieldLoop_fst camelCase idx msg.Name msg.Field ([], []) st h
    simpa using this
  refine ⟨h1, ?_⟩
  intro code pfx out h
  obtain ⟨code1, st, hl, hout⟩ := emitMessageType_ok_plan camelCase idx code pfx msg hmap out h
  refine ⟨code1, st.2, ?_⟩
  rw [hout, h1 st hl]

/-- C5: a field without translated annotation, message-typed, not a well-known type, whose
type name resolves in the index to a type that is not a map entry, adds exactly one entry
to the composite list, with `IsMap` false and `IsArray` true exactly when the label of
the field is repeated, and adds nothing to the translated list; in the plan written for a
type with that field, the entry stands between the entries of the fields before it and
those of the fields after it. -/
theorem emitMessageType_composite_message (camelCase : String → String) (idx : TypeIndex)
    (field : FieldDescriptorProto) (desc : DescriptorProto)
    (hext : GetExtension field.Options = none)
    (htype : field.Type_ = FieldType.TYPE_MESSAGE)
    (hwkt : isGoogleWKT field = false)
    (hidx : idx field.TypeName = some desc)
    (hdesc : GetMapEntry desc.GetOptions = false) :
    (∀ name st, fieldBody camelCase idx name st field =
      .ok (st.1, st.2 ++
        [⟨camelCase field.Name, decide (field.Label = FieldLabel.LABEL_REPEATED), false⟩])) ∧
    (∀ msg, GetMapEntry msg.GetOptions = false →
      ∀ pre post, msg.Field = pre ++ field :: post →
      ∀ code pfx out, emitMessageType camelCase idx code pfx msg = .ok out →
      ∃ code1 s1 s2, fieldLoop camelCase idx msg.Name ([], []) pre = .ok s1 ∧
        fieldLoop camelCase idx msg.Name ([], []) post = .ok s2 ∧
        out = code1 ++ plan ⟨pfx ++ msg.Name, s1.1 ++ s2.1,
          s1.2 ++ [⟨camelCase field.Name, decide (field.Label = FieldLabel.LABEL_REPEATED),
            false⟩] ++ s2.2⟩) := by
  have h1 : ∀ name st, fieldBody camelCase idx name st field =
      .ok (st.1, st.2 ++
        [⟨camelCase field.Name, decide (field.Label = FieldLabel.LABEL_REPEATED), false⟩]) := by
    intro name st
    unfold fieldBody
    rw [hext]
    simp only
    rw [compositePart_eq]
    rw [if_pos ⟨htype, hwkt⟩, hidx]
    simp [hdesc]
  refine ⟨h1, ?_⟩
  intro msg hmap pre post hfields code pfx out h
  obtain ⟨code1, s1, d, s2, hpre, hd, hpost, hout⟩ :=
    emitMessageType_field_split camelCase idx code pfx msg hmap out pre post field hfields h
  rw [h1] at hd
  cases hd
  exact ⟨code1, s1, s2, hpre, hpost, by simpa using hout⟩

/-- C4: a field without translated annotation, message-typed, not a well-known type, whose
type name resolves in the index to a map-entry type with second field `value`: when
`value` is not message-typed the field adds no entry to the composite list; otherwise it
adds exactly one entry, with `IsMap` true and `IsArray` false, whatever the label of the
field is. It adds nothing to the translated list, and in the plan written for a type with
that field the entry (if any) stands between the entries of the fields before it and
those of the fields after it. -/
theorem emitMessageType_composite_map (camelCase : String → String) (idx : TypeIndex)
    (field : FieldDescriptorProto) (desc : DescriptorProto) (value : FieldDescriptorProto)
    (hext : GetExtension field.Options = none)
    (htype : field.Type_ = FieldType.TYPE_MESSAGE)
    (hwkt : isGoogleWKT field = false)
    (hidx : idx field.TypeName = some desc)
    (hdesc : GetMapEntry desc.GetOptions = true)
    (hvalue : desc.Field[1]? = some value) :
    (∀ name st, fieldBody camelCase idx name st field =
      .ok (st.1, st.2 ++
        (if value.Type_ = FieldType.TYPE_MESSAGE then [⟨camelCase field.Name, false, true⟩]
          else []))) ∧
    (∀ msg, GetMapEntry msg.GetOptions = false →
      ∀ pre post, msg.Field = pre ++ field :: post →
      ∀ code pfx out, emitMessageType camelCase idx code pfx msg = .ok out →
      ∃ code1 s1 s2, fieldLoop camelCase idx msg.Name ([], []) pre = .ok s1 ∧
        fieldLoop camelCase idx msg.Name ([], []) post = .ok s2 ∧
        out = code1 ++ plan ⟨pfx ++ msg.Name, s1.1 ++ s2.1,
          s1.2 ++ (if value.Type_ = FieldType.TYPE_MESSAGE then
            [⟨camelCase field.Name, false, true⟩] else []) ++ s2.2⟩) := by
  have h1 : ∀ name st, fieldBody camelCase idx name st field =
      .ok (st.1, st.2 ++
        (if value.Type_ = FieldType.TYPE_MESSAGE then [⟨camelCase field.Name, false, true⟩]
          else [])) := by
    intro name st
    unfold fieldBody
    rw [hext]
    simp only
    rw [compositePart_eq]
    rw [if_pos ⟨htype, hwkt⟩, hidx]
    simp only [hdesc, if_true, hvalue]
    by_cases hv : value.Type_ = FieldType.TYPE_MESSAGE
    · simp [hv]
    · simp [hv]
  refine ⟨h1, ?_⟩
  intro msg hmap pre post hfields code pfx out h
  obtain ⟨code1, s1, d, s2, hpre, hd, hpost, hout⟩ :=
    emitMessageType_field_split camelCase idx code pfx msg hmap out pre post field hfields h
  rw [h1] at hd
  cases hd
  exact ⟨code1, s1, s2, hpre, hpost, by simpa using hout⟩

/-- C6: a message-typed field whose type name begins with `.google.protobuf` never adds an
entry to the composite list, whatever its label and whatever the index holds: the loop
body leaves both lists as they are (or, when the field is annotated translated, ends in
the fatal error), and the composite list of a plan holds nothing between the entries of
the fields before it and those of the fields after it. And the entries of the composite
list of every plan come, in order, from fields that are message-typed and whose type name
does not begin with `.google.protobuf`. -/
theorem emitMessageType_wellKnown (camelCase : String → String) (idx : TypeIndex) :
    (∀ field : FieldDescriptorProto, field.Type_ = FieldType.TYPE_MESSAGE →
      BeginsWithGoogleProtobuf field.TypeName →
      (∀ name st, fieldBody camelCase idx name st field =
        if GetExtension field.Options = some true then .error (Fault.fatal name field.Name)
        else .ok st) ∧
      (∀ msg, GetMapEntry msg.GetOptions = false →
        ∀ pre post, msg.Field = pre ++ field :: post →
        ∀ code pfx out, emitMessageType camelCase idx code pfx msg = .ok out →
        ∃ code1 s1 s2, fieldLoop camelCase idx msg.Name ([], []) pre = .ok s1 ∧
          fieldLoop camelCase idx msg.Name ([], []) post = .ok s2 ∧
          out = code1 ++ plan ⟨pfx ++ msg.Name, s1.1 ++ s2.1, s1.2 ++ s2.2⟩)) ∧
    (∀ msg, GetMapEntry msg.GetOptions = false →
      ∀ code pfx out, emitMessageType camelCase idx code pfx msg = .ok out →
      ∃ code1 tf cf, out = code1 ++ plan ⟨pfx ++ msg.Name, tf, cf⟩ ∧
        ∃ sub : List FieldDescriptorProto, sub.Sublist msg.Field ∧
          (∀ g ∈ sub, g.Type_ = FieldType.TYPE_MESSAGE ∧
            ¬ BeginsWithGoogleProtobuf g.TypeName) ∧
          cf.map (fun e => e.Name) = sub.map (fun g => camelCase g.Name)) := by
  constructor
  · intro field htype hbegins
    have hwkt : isGoogleWKT field = true := (isGoogleWKT_iff field).2 hbegins
    have hc : ∀ st, compositePart camelCase idx field st = .ok st := by
      intro st
      apply compositePart_of_not_composite
      rintro ⟨_, h2⟩
      rw [hwkt] at h2
      cases h2
    have h1 : ∀ name st, fieldBody camelCase idx name st field =
        if GetExtension field.Options = some true then .error (Fault.fatal name field.Name)
        else .ok st := by
      intro name st
      unfold fieldBody
      split
      next ext hext =>
        cases ext with
        | false => simp [hext]
        | true => simp [htype, hext]
      next hext => simp [hc, hext]
    refine ⟨h1, ?_⟩
    intro msg hmap pre post hfields code pfx out h
    obtain ⟨code1, s1, d, s2, hpre, hd, hpost, hout⟩ :=
      emitMessageType_field_split camelCase idx code pfx msg hmap out pre post field hfields h
    rw [h1] at hd
    split at hd
    · cases hd
    · cases hd
      exact ⟨code1, s1, s2, hpre, hpost, by simpa using hout⟩
  · intro msg hmap code pfx out h
    obtain ⟨code1, st, hl, hout⟩ := emitMessageType_ok_plan camelCase idx code pfx msg hmap out h
    obtain ⟨sub, hsub, hall, hnames⟩ := fieldLoop_snd camelCase idx msg.Name msg.Field _ st hl
    refine ⟨code1, st.1, st.2, hout, sub, hsub, ?_, by simpa using hnames⟩
    intro g hg
    exact ⟨(hall g hg).1, (isGoogleWKT_eq_false_iff g).1 (hall g hg).2⟩

theorem emitMessageType_mapEntry_witness :
    GetMapEntry sampleMap1Entry.GetOptions = true ∧
    emitMessageType id sampleIndex [] "TestMessage1_" sampleMap1Entry = .ok [] :=
  ⟨rfl, emitMessageType_mapEntry id sampleIndex [] "TestMessage1_" sampleMap1Entry rfl⟩

theorem emitMessageType_translatedFields_witness :
    GetMapEntry sampleMessage.GetOptions = false ∧
    ∃ code1 cf,
      plan ⟨"TestMessage1_NestedMessage", [⟨"name", false, false⟩], []⟩ ++
        plan ⟨"TestMessage1", [⟨"name1", false, false⟩, ⟨"array1", true, false⟩],
          [⟨"nested", false, false⟩, ⟨"nested_array", true, false⟩, ⟨"map1", false, true⟩]⟩ =
      code1 ++ plan ⟨"TestMessage1", [⟨"name1", false, false⟩, ⟨"array1", true, false⟩], cf⟩ :=
  ⟨rfl, (emitMessageType_translatedFields id sampleIndex sampleMessage rfl).2 [] "" _ rfl⟩

theorem emitMessageType_composite_message_witness :
    GetExtension sampleFieldNestedArray.Options = none ∧
    sampleFieldNestedArray.Type_ = FieldType.TYPE_MESSAGE ∧
    isGoogleWKT sampleFieldNestedArray = false ∧
    sampleIndex sampleFieldNestedArray.TypeName = some sampleNested ∧
    GetMapEntry sampleNested.GetOptions = false ∧
    fieldBody id sampleIndex "TestMessage1" ([], []) sampleFieldNestedArray =
      .ok ([], [⟨"nested_array", true, false⟩]) :=
  ⟨rfl, rfl, rfl, rfl, rfl,
    (emitMessageType_composite_message id sampleIndex sampleFieldNestedArray sampleNested
      rfl rfl rfl rfl rfl).1 "TestMessage1" ([], [])⟩

theorem emitMessageType_composite_map_witness :
    GetExtension sampleFieldMap1.Options = none ∧
    sampleFieldMap1.Type_ = FieldType.TYPE_MESSAGE ∧
    isGoogleWKT sampleFieldMap1 = false ∧
    sampleIndex sampleFieldMap1.TypeName = some sampleMap1Entry ∧
    GetMapEntry sampleMap1Entry.GetOptions = true ∧
    sampleMap1Entry.Field[1]? = some ⟨"value", FieldLabel.LABEL_OPTIONAL,
      FieldType.TYPE_MESSAGE, ".test.TestMessage1.NestedMessage", none⟩ ∧
    fieldBody id sampleIndex "TestMessage1" ([], []) sampleFieldMap1 =
      .ok ([], [⟨"map1", false, true⟩]) ∧
    fieldBody id sampleIndex "TestMessage1" ([], []) sampleFieldLabels = .ok ([], []) :=
  ⟨rfl, rfl, rfl, rfl, rfl, rfl,
    (emitMessageType_composite_map id sampleIndex sampleFieldMap1 sampleMap1Entry _
      rfl rfl rfl rfl rfl rfl).1 "TestMessage1" ([], []),
    (emitMessageType_composite_map id sampleIndex sampleFieldLabels sampleLabelsEntry
      ⟨"value", FieldLabel.LABEL_OPTIONAL, FieldType.TYPE_STRING, "", none⟩
      rfl rfl rfl rfl rfl rfl).1 "TestMessage1" ([], [])⟩

theorem emitMessageType_wellKnown_witness :
    sampleFieldCreated.Type_ = FieldType.TYPE_MESSAGE ∧
    BeginsWithGoogleProtobuf sampleFieldCreated.TypeName ∧
    fieldBody id sampleIndex "TestMessage1" ([], []) sampleFieldCreated = .ok ([], []) ∧
    ∃ code1 tf cf,
      plan ⟨"TestMessage1_NestedMessage", [⟨"name", false, false⟩], []⟩ ++
        plan ⟨"TestMessage1", [⟨"name1", false, false⟩, ⟨"array1", true, false⟩],
          [⟨"nested", false, false⟩, ⟨"nested_array", true, false⟩, ⟨"map1", false, true⟩]⟩ =
      code1 ++ plan ⟨"TestMessage1", tf, cf⟩ ∧
      ∃ sub : List FieldDescriptorProto, sub.Sublist sampleMessage.Field ∧
        (∀ g ∈ sub, g.Type_ = FieldType.TYPE_MESSAGE ∧
          ¬ BeginsWithGoogleProtobuf g.TypeName) ∧
        cf.map (fun e => e.Name) = sub.map (fun g => id g.Name) :=
  ⟨rfl, ⟨".Timestamp", by decide⟩,
    ((emitMessageType_wellKnown id sampleIndex).1 sampleFieldCreated rfl
      ⟨".Timestamp", by decide⟩).1 "TestMessage1" ([], []),
    (emitMessageType_wellKnown id sampleIndex).2 sampleMessage rfl [] "" _ rfl⟩

/-! ## The fatal schema error -/

theorem compositePart_error (camelCase : String → String) (idx : TypeIndex)
    (field : FieldDescriptorProto) (st : Acc) (e : Fault)
    (h : compositePart camelCase idx field st = .error e) : e = Fault.indexOutOfRange := by
  rw [compositePart_eq] at h
  split at h
  · split at h
    · split at h
      · split at h
        · cases h; rfl
        · split at h <;> cases h
      · cases h
    · cases h
  · cases h

theorem compositePart_ok_of_mapEntriesHaveValue (camelCase : String → String)
    (idx : TypeIndex) (hidx : MapEntriesHaveValue idx) (field : FieldDescriptorProto)
    (st : Acc) : ∃ s, compositePart camelCase idx field st = .ok s := by
  rw [compositePart_eq]
  split
  · split
    next desc hdesc =>
      split
      next hmap =>
        have hlen := hidx _ desc hdesc hmap
        split
        next hnone =>
          rw [List.getElem?_eq_none_iff] at hnone
          omega
        · split <;> exact ⟨_, rfl⟩
      · exact ⟨_, rfl⟩
    · exact ⟨_, rfl⟩
  · exact ⟨_, rfl⟩

theorem fieldBody_of_offending (camelCase : String → String) (idx : TypeIndex)
    (msgName : String) (st : Acc) (field : FieldDescriptorProto)
    (hext : GetExtension field.Options = some true)
    (htype : field.Type_ ≠ FieldType.TYPE_STRING) :
    fieldBody camelCase idx msgName st field = .error (Fault.fatal msgName field.Name) := by
  unfold fieldBody
  rw [hext]
  simp [htype]

theorem fieldBody_fatal (camelCase : String → String) (idx : TypeIndex)
    (msgName : String) (st : Acc) (field : FieldDescriptorProto) (m g : String)
    (h : fieldBody camelCase idx msgName st field = .error (Fault.fatal m g)) :
    GetExtension field.Options = some true ∧ field.Type_ ≠ FieldType.TYPE_STRING := by
  unfold fieldBody at h
  split at h
  next ext hext =>
    split at h
    · cases h
    next hne =>
      have : ext = true := by simpa using hne
      subst this
      split at h
      next htype => exact ⟨hext, htype⟩
      · cases compositePart_error camelCase idx field _ _ h
  · cases compositePart_error camelCase idx field _ _ h

theorem fieldBody_ok_of_mapEntriesHaveValue (camelCase : String → String)
    (idx : TypeIndex) (hidx : MapEntriesHaveValue idx) (msgName : String) (st : Acc)
    (field : FieldDescriptorProto)
    (hno : ¬ (GetExtension field.Options = some true ∧ field.Type_ ≠ FieldType.TYPE_STRING)) :
    ∃ s, fieldBody camelCase idx msgName st field = .ok s := by
  unfold fieldBody
  split
  next ext hext =>
    split
    · exact ⟨_, rfl⟩
    next hne =>
      have : ext = true := by simpa using hne
      subst this
      split
      next htype => exact absurd ⟨hext, htype⟩ hno
      · exact compositePart_ok_of_mapEntriesHaveValue camelCase idx hidx field _
  · exact compositePart_ok_of_mapEntriesHaveValue camelCase idx hidx field _

theorem fieldLoop_fatal (camelCase : String → String) (idx : TypeIndex) (msgName : String)
    (fields : List FieldDescriptorProto) (st : Acc) (m g : String)
    (h : fieldLoop camelCase idx msgName st fields = .error (Fault.fatal m g)) :
    ∃ f ∈ fields, GetExtension f.Options = some true ∧ f.Type_ ≠ FieldType.TYPE_STRING := by
  induction fields generalizing st with
  | nil =>
    rw [fieldLoop] at h
    cases h
  | cons f rest ih =>
    rw [fieldLoop] at h
    cases hb : fieldBody camelCase idx msgName st f with
    | error e =>
      rw [hb] at h
      cases h
      exact ⟨f, List.mem_cons_self _ _, fieldBody_fatal camelCase idx msgName st f m g hb⟩
    | ok s =>
      rw [hb] at h
      obtain ⟨f1, hf1, hoff⟩ := ih s h
      exact ⟨f1, List.mem_cons_of_mem _ hf1, hoff⟩

/-- With an index whose map-entry types have a value field, the field loop returns when no
field is offending and ends in the fatal error otherwise. -/
theorem fieldLoop_ok_or_fatal (camelCase : String → String) (idx : TypeIndex)
    (hidx : MapEntriesHaveValue idx) (msgName : String)
    (fields : List FieldDescriptorProto) (st : Acc) :
    ((∃ s, fieldLoop camelCase idx msgName st fields = .ok s) ∧
      ∀ f ∈ fields,
        ¬ (GetExtension f.Options = some true ∧ f.Type_ ≠ FieldType.TYPE_STRING)) ∨
    ((∃ g, fieldLoop camelCase idx msgName st fields = .error (Fault.fatal msgName g)) ∧
      ∃ f ∈ fields, GetExtension f.Options = some true ∧ f.Type_ ≠ FieldType.TYPE_STRING) := by
  induction fields generalizing st with
  | nil =>
    left
    exact ⟨⟨st, rfl⟩, fun f hf => nomatch hf⟩
  | cons f rest ih =>
    rw [fieldLoop]
    by_cases hoff : GetExtension f.Options = some true ∧ f.Type_ ≠ FieldType.TYPE_STRING
    · right
      rw [fieldBody_of_offending camelCase idx msgName st f hoff.1 hoff.2]
      exact ⟨⟨_, rfl⟩, f, List.mem_cons_self _ _, hoff⟩
    · obtain ⟨s, hs⟩ := fieldBody_ok_of_mapEntriesHaveValue camelCase idx hidx msgName st f hoff
      rw [hs]
      rcases ih s with ⟨hok, hall⟩ | ⟨herr, f1, hf1, hoff1⟩
      · left
        refine ⟨hok, ?_⟩
        intro f1 hf1
        rcases List.mem_cons.1 hf1 with rfl | h1
        · exact hoff
        · exact hall f1 h1
      · right
        exact ⟨herr, f1, List.mem_cons_of_mem _ hf1, hoff1⟩

theorem not_hasOffendingField_of_mapEntry (msg : DescriptorProto)
    (hmap : GetMapEntry msg.GetOptions = true) : ¬ HasOffendingField msg := by
  intro h
  cases h with
  | own h1 _ _ _ => rw [hmap] at h1; cases h1
  | inNested h1 _ _ => rw [hmap] at h1; cases h1

mutual
theorem emitMessageType_fatal (camelCase : String → String) (idx : TypeIndex) :
    ∀ (msg : DescriptorProto) (code : List Emitted) (pfx m g : String),
      emitMessageType camelCase idx code pfx msg = .error (Fault.fatal m g) →
      HasOffendingField msg
  | .mk name fields nested opts, code, pfx, m, g => by
    intro h
    rw [emitMessageType] at h
    by_cases hmap : GetMapEntry opts = true
    · simp [hmap] at h
    · have hmap1 : GetMapEntry (DescriptorProto.mk name fields nested opts).GetOptions = false := by
        simpa [DescriptorProto.GetOptions] using hmap
      simp only [hmap, if_false] at h
      cases hn : emitNested camelCase idx code ((pfx ++ name) ++ "_") nested with
      | error e =>
        rw [hn] at h
        cases h
        obtain ⟨n, hmem, hoff⟩ := emitNested_fatal camelCase idx nested code _ m g hn
        exact HasOffendingField.inNested hmap1 hmem hoff
      | ok code1 =>
        rw [hn] at h
        cases hl : fieldLoop camelCase idx name ([], []) fields with
        | error e =>
          rw [hl] at h
          cases h
          obtain ⟨f, hf, hx, ht⟩ := fieldLoop_fatal camelCase idx name fields _ m g hl
          exact HasOffendingField.own hmap1 hf hx ht
        | ok st =>
          rw [hl] at h
          cases h
theorem emitNested_fatal (camelCase : String → String) (idx : TypeIndex) :
    ∀ (l : List DescriptorProto) (code : List Emitted) (pfx m g : String),
      emitNested camelCase idx code pfx l = .error (Fault.fatal m g) →
      ∃ n ∈ l, HasOffendingField n
  | [], code, pfx, m, g => by
    intro h
    rw [emitNested] at h
    cases h
  | n :: rest, code, pfx, m, g => by
    intro h
    rw [emitNested] at h
    cases hn : emitMessageType camelCase idx code pfx n with
    | error e =>
      rw [hn] at h
      cases h
      exact ⟨n, List.mem_cons_self _ _, emitMessageType_fatal camelCase idx n code pfx m g hn⟩
    | ok code1 =>
      rw [hn] at h
      obtain ⟨n1, hmem, hoff⟩ := emitNested_fatal camelCase idx rest code1 pfx m g h
      exact ⟨n1, List.mem_cons_of_mem _ hmem, hoff⟩
end

mutual
theorem emitMessageType_ok_or_fatal (camelCase : String → String) (idx : TypeIndex)
    (hidx : MapEntriesHaveValue idx) :
    ∀ (msg : DescriptorProto) (code : List Emitted) (pfx : String),
      ((∃ out, emitMessageType camelCase idx code pfx msg = .ok out) ∧
        ¬ HasOffendingField msg) ∨
      ((∃ m g, emitMessageType camelCase idx code pfx msg = .error (Fault.fatal m g)) ∧
        HasOffendingField msg)
  | .mk name fields nested opts, code, pfx => by
    rw [emitMessageType]
    by_cases hmap : GetMapEntry opts = true
    · left
      simp only [hmap, if_true]
      exact ⟨⟨code, rfl⟩, not_hasOffendingField_of_mapEntry _ hmap⟩
    · have hmap1 : GetMapEntry (DescriptorProto.mk name fields nested opts).GetOptions = false := by
        simpa [DescriptorProto.GetOptions] using hmap
      simp only [hmap, if_false]
      rcases emitNested_ok_or_fatal camelCase idx hidx nested code ((pfx ++ name) ++ "_") with
        ⟨⟨code1, hn⟩, hnone⟩ | ⟨⟨m, g, hn⟩, n, hmem, hoff⟩
      · rw [hn]
        rcases fieldLoop_ok_or_fatal camelCase idx hidx name fields ([], []) with
          ⟨⟨st, hl⟩, hall⟩ | ⟨⟨g, hl⟩, f, hf, hx, ht⟩
        · left
          rw [hl]
          refine ⟨⟨_, rfl⟩, ?_⟩
          intro h
          cases h with
          | own _ hf hx ht => exact hall _ hf ⟨hx, ht⟩
          | inNested _ hmem hoff => exact hnone _ hmem hoff
        · right
          rw [hl]
          exact ⟨⟨_, _, rfl⟩, HasOffendingField.own hmap1 hf hx ht⟩
      · right
        rw [hn]
        exact ⟨⟨m, g, rfl⟩, HasOffendingField.inNested hmap1 hmem hoff⟩
theorem emitNested_ok_or_fatal (camelCase : String → String) (idx : TypeIndex)
    (hidx : MapEntriesHaveValue idx) :
    ∀ (l : List DescriptorProto) (code : List Emitted) (pfx : String),
      ((∃ out, emitNested camelCase idx code pfx l = .ok out) ∧
        ∀ n ∈ l, ¬ HasOffendingField n) ∨
      ((∃ m g, emitNested camelCase idx code pfx l = .error (Fault.fatal m g)) ∧
        ∃ n ∈ l, HasOffendingField n)
  | [], code, pfx => by
    left
    rw [emitNested]
    exact ⟨⟨code, rfl⟩, fun n hn => nomatch hn⟩
  | n :: rest, code, pfx => by
    rw [emitNested]
    rcases emitMessageType_ok_or_fatal camelCase idx hidx n code pfx with
      ⟨⟨code1, hn⟩, hnone⟩ | ⟨⟨m, g, hn⟩, hoff⟩
    · rw [hn]
      rcases emitNested_ok_or_fatal camelCase idx hidx rest code1 pfx with
        ⟨hok, hall⟩ | ⟨herr, n1, hmem, hoff⟩
      · left
        refine ⟨hok, ?_⟩
        intro n1 hn1
        rcases List.mem_cons.1 hn1 with rfl | h1
        · exact hnone
        · exact hall n1 h1
      · right
        exact ⟨herr, n1, List.mem_cons_of_mem _ hmem, hoff⟩
    · right
      rw [hn]
      exact ⟨⟨m, g, rfl⟩, n, List.mem_cons_self _ _, hoff⟩
end

/-- C2 (amended): whatever the index holds, `emitMessageType` ends in the fatal schema
error only when some type of the nesting tree, with no map-entry type from the root down
to it, has a field whose translated annotation is present and true and whose kind is not
string; and when every map-entry type registered in the index has at least two fields, it
ends in the fatal schema error exactly then. A field annotated false, and a field that
sits in or below a map-entry type, is no such field and never causes the error. -/
theorem emitMessageType_fatal_iff (camelCase : String → String) (idx : TypeIndex)
    (code : List Emitted) (pfx : String) (msg : DescriptorProto) :
    ((∃ m g, emitMessageType camelCase idx code pfx msg = .error (Fault.fatal m g)) →
      HasOffendingField msg) ∧
    (MapEntriesHaveValue idx →
      ((∃ m g, emitMessageType camelCase idx code pfx msg = .error (Fault.fatal m g)) ↔
        HasOffendingField msg)) := by
  have h1 : (∃ m g, emitMessageType camelCase idx code pfx msg = .error (Fault.fatal m g)) →
      HasOffendingField msg := by
    rintro ⟨m, g, h⟩
    exact emitMessageType_fatal camelCase idx msg code pfx m g h
  refine ⟨h1, fun hidx => ⟨h1, ?_⟩⟩
  intro hoff
  rcases emitMessageType_ok_or_fatal camelCase idx hidx msg code pfx with ⟨_, hno⟩ | ⟨herr, _⟩
  · exact absurd hoff hno
  · exact herr

/-- C2 (as stated) fails: `Bad` has an int32 field annotated `translated = true`, but its
first field refers to a map-entry type without fields, and the run ends in the
out-of-range panic of `desc.Field[1]` before it reaches `log.Fatalf`. -/
theorem emitMessageType_fatal_iff_counterexample :
    HasOffendingField sampleBadMessage ∧
    emitMessageType id (initTypeNameToDesc [sampleBadFile]) [] "" sampleBadMessage =
      .error Fault.indexOutOfRange ∧
    ¬ ((∃ m g, emitMessageType id (initTypeNameToDesc [sampleBadFile]) [] "" sampleBadMessage =
        .error (Fault.fatal m g)) ↔ HasOffendingField sampleBadMessage) := by
  have hoff : HasOffendingField sampleBadMessage :=
    @HasOffendingField.own sampleBadMessage
      ⟨"count", FieldLabel.LABEL_OPTIONAL, FieldType.TYPE_INT32, "", some ⟨some true⟩⟩
      rfl (List.mem_cons_of_mem _ (List.mem_cons_self _ _)) rfl (by decide)
  have hrun : emitMessageType id (initTypeNameToDesc [sampleBadFile]) [] "" sampleBadMessage =
      .error Fault.indexOutOfRange := rfl
  refine ⟨hoff, hrun, ?_⟩
  intro hiff
  obtain ⟨m, g, h⟩ := hiff.2 hoff
  rw [hrun] at h
  cases h

theorem mapEntriesHaveValue_sampleIndex : MapEntriesHaveValue sampleIndex := by
  intro k d hk hm
  have h1 : sampleIndex = replay (fun _ => none) (buildOrder [sampleTestFile]) :=
    initTypeNameToDesc_eq_replay _
  rw [h1] at hk
  rcases replay_some _ _ _ _ hk with h2 | h2
  · cases h2
  · have h3 : buildOrder [sampleTestFile] =
        [(".test.TestMessage1", sampleMessage),
         (".test.TestMessage1.NestedMessage", sampleNested),
         (".test.TestMessage1.Map1Entry", sampleMap1Entry),
         (".test.TestMessage1.LabelsEntry", sampleLabelsEntry)] := rfl
    rw [h3] at h2
    simp only [List.mem_cons, Prod.mk.injEq, List.mem_nil_iff, or_false] at h2
    rcases h2 with ⟨_, rfl⟩ | ⟨_, rfl⟩ | ⟨_, rfl⟩ | ⟨_, rfl⟩
    · exact absurd hm (by decide)
    · exact absurd hm (by decide)
    · decide
    · decide

theorem emitMessageType_fatal_iff_witness :
    MapEntriesHaveValue sampleIndex ∧ HasOffendingField sampleOffending ∧
    emitMessageType id sampleIndex [] "" sampleOffending =
      .error (Fault.fatal "Part" "count") ∧
    ((∃ m g, emitMessageType id sampleIndex [] "" sampleOffending =
        .error (Fault.fatal m g)) ↔ HasOffendingField sampleOffending) ∧
    ((∃ m g, emitMessageType id sampleIndex [] "" sampleMessage =
        .error (Fault.fatal m g)) ↔ HasOffendingField sampleMessage) := by
  have hrun : emitMessageType id sampleIndex [] "" sampleOffending =
      .error (Fault.fatal "Part" "count") := rfl
  have hiff := (emitMessageType_fatal_iff id sampleIndex [] "" sampleOffending).2
    mapEntriesHaveValue_sampleIndex
  exact ⟨mapEntriesHaveValue_sampleIndex, hiff.1 ⟨_, _, hrun⟩, hrun, hiff,
    (emitMessageType_fatal_iff id sampleIndex [] "" sampleMessage).2
      mapEntriesHaveValue_sampleIndex⟩

/-! ## A field annotated `translated = false` -/

/-- C8 (the code at the failing input): with the sample index, the message-typed field
`nested` annotated `translated = false` is given no classification, while the same field
without annotation is classified as a singular composite; the plans `emitMessageType`
writes for a type with the one or the other field differ accordingly. -/
theorem emitMessageType_annotated_false_not_composite :
    fieldBody id sampleIndex "M" ([], []) sampleFieldNestedFalse = .ok ([], []) ∧
    fieldBody id sampleIndex "M" ([], []) sampleFieldNested =
      .ok ([], [⟨"nested", false, false⟩]) ∧
    emitMessageType id sampleIndex [] "" (.mk "M" [sampleFieldNestedFalse] [] none) =
      .ok (plan ⟨"M", [], []⟩) ∧
    emitMessageType id sampleIndex [] "" (.mk "M" [sampleFieldNested] [] none) =
      .ok (plan ⟨"M", [], [⟨"nested", false, false⟩]⟩) :=
  ⟨rfl, rfl, rfl, rfl⟩

/-! ## Each field contributes at most one entry -/

theorem fieldBody_ok_translated (camelCase : String → String) (idx : TypeIndex)
    (msgName : String) (st s : Acc) (field : FieldDescriptorProto)
    (hext : GetExtension field.Options = some true)
    (h : fieldBody camelCase idx msgName st field = .ok s) :
    field.Type_ = FieldType.TYPE_STRING := by
  by_contra htype
  rw [fieldBody_of_offending camelCase idx msgName st field hext htype] at h
  cases h

/-- What the loop body adds to the two lists: at most one entry in all, and none for a
field that is neither annotated true nor message-typed. -/
theorem fieldBody_contribution (camelCase : String → String) (idx : TypeIndex)
    (msgName : String) (st s : Acc) (field : FieldDescriptorProto)
    (h : fieldBody camelCase idx msgName st field = .ok s) :
    ∃ d : Acc, s = Acc.append st d ∧ d.1.length + d.2.length ≤ 1 ∧
      (GetExtension field.Options ≠ some true → field.Type_ ≠ FieldType.TYPE_MESSAGE →
        d = ([], [])) := by
  rw [fieldBody_acc] at h
  cases hd : fieldBody camelCase idx msgName ([], []) field with
  | error e => rw [hd] at h; cases h
  | ok d =>
    rw [hd] at h
    simp only [andThen, Except.ok.injEq] at h
    have h1 := fieldBody_fst camelCase idx msgName field ([], []) d hd
    have h2 := fieldBody_snd camelCase idx msgName field ([], []) d hd
    simp only [List.nil_append] at h1 h2
    refine ⟨d, h.symm, ?_, ?_⟩
    · by_cases hext : GetExtension field.Options = some true
      · have hstr := fieldBody_ok_translated camelCase idx msgName _ d field hext hd
        rcases h2 with h2 | ⟨hm, _⟩
        · rw [h1, h2]
          simp [hext]
        · rw [hstr] at hm
          cases hm
      · rw [h1]
        rcases h2 with h2 | ⟨_, _, a, m, h2⟩
        · rw [h2]
          simp [hext]
        · rw [h2]
          simp [hext]
    · intro hext htype
      rcases h2 with h2 | ⟨hm, _⟩
      · apply Prod.ext
        · rw [h1]
          simp [hext]
        · exact h2
      · exact absurd hm htype

theorem fieldLoop_length (camelCase : String → String) (idx : TypeIndex) (msgName : String)
    (fields : List FieldDescriptorProto) (st s : Acc)
    (h : fieldLoop camelCase idx msgName st fields = .ok s) :
    s.1.length + s.2.length ≤ st.1.length + st.2.length + fields.length := by
  induction fields generalizing st with
  | nil =>
    rw [fieldLoop] at h
    cases h
    simp
  | cons f rest ih =>
    rw [fieldLoop] at h
    cases hb : fieldBody camelCase idx msgName st f with
    | error e => rw [hb] at h; cases h
    | ok s1 =>
      rw [hb] at h
      obtain ⟨d, hs1, hlen, _⟩ := fieldBody_contribution camelCase idx msgName st s1 f hb
      have h3 := ih s1 h
      rw [hs1] at h3
      simp only [Acc.append, List.length_append, List.length_cons] at h3 ⊢
      omega

/-- C19: for a message type that is not a map entry, when the field loop does not fail,
each field adds at most one entry to the translated list and the composite list taken
together (whatever the lists held before it), a field that is neither annotated true nor
message-typed adds none, and so the two lists of the plan together have at most as many
entries as the type has fields. -/
theorem emitMessageType_at_most_one_entry_per_field (camelCase : String → String)
    (idx : TypeIndex) (msg : DescriptorProto) (hmap : GetMapEntry msg.GetOptions = false) :
    (∀ field ∈ msg.Field, ∀ st s, fieldBody camelCase idx msg.Name st field = .ok s →
      ∃ d : Acc, s = Acc.append st d ∧ d.1.length + d.2.length ≤ 1 ∧
        (GetExtension field.Options ≠ some true → field.Type_ ≠ FieldType.TYPE_MESSAGE →
          d = ([], []))) ∧
    (∀ st, fieldLoop camelCase idx msg.Name ([], []) msg.Field = .ok st →
      st.1.length + st.2.length ≤ msg.Field.length) ∧
    (∀ code pfx out, emitMessageType camelCase idx code pfx msg = .ok out →
      ∃ code1 tf cf, out = code1 ++ plan ⟨pfx ++ msg.Name, tf, cf⟩ ∧
        tf.length + cf.length ≤ msg.Field.length) := by
  have h2 : ∀ st, fieldLoop camelCase idx msg.Name ([], []) msg.Field = .ok st →
      st.1.length + st.2.length ≤ msg.Field.length := by
    intro st h
    have := fieldLoop_length camelCase idx msg.Name msg.Field ([], []) st h
    simpa using this
  refine ⟨?_, h2, ?_⟩
  · intro field _ st s h
    exact fieldBody_contribution camelCase idx msg.Name st s field h
  · intro code pfx out h
    obtain ⟨code1, st, hl, hout⟩ := emitMessageType_ok_plan camelCase idx code pfx msg hmap out h
    exact ⟨code1, st.1, st.2, hout, h2 st hl⟩

theorem emitMessageType_at_most_one_entry_per_field_witness :
    GetMapEntry sampleMessage.GetOptions = false ∧
    ∃ code1 tf cf,
      plan ⟨"TestMessage1_NestedMessage", [⟨"name", false, false⟩], []⟩ ++
        plan ⟨"TestMessage1", [⟨"name1", false, false⟩, ⟨"array1", true, false⟩],
          [⟨"nested", false, false⟩, ⟨"nested_array", true, false⟩, ⟨"map1", false, true⟩]⟩ =
      code1 ++ plan ⟨"TestMessage1", tf, cf⟩ ∧ tf.length + cf.length ≤ 9 :=
  ⟨rfl, (emitMessageType_at_most_one_entry_per_field id sampleIndex sampleMessage rfl).2.2
    [] "" _ rfl⟩

/-! ## The read of the value field of a map entry -/

/-- With an index whose map-entry types have at least two fields, no run of
`emitMessageType` ends in the out-of-range panic. -/
theorem emitMessageType_indexInRange (camelCase : String → String) (idx : TypeIndex)
    (hidx : MapEntriesHaveValue idx) (code : List Emitted) (pfx : String)
    (msg : DescriptorProto) :
    emitMessageType camelCase idx code pfx msg ≠ .error Fault.indexOutOfRange := by
  intro h
  rcases emitMessageType_ok_or_fatal camelCase idx hidx msg code pfx with
    ⟨⟨out, hout⟩, _⟩ | ⟨⟨m, g, herr⟩, _⟩
  · rw [hout] at h
    cases h
  · rw [herr] at h
    cases h

/-- A message-typed field that is not well-known, carries no translated annotation and
resolves to a map-entry type with fewer than two fields ends the loop body in the
out-of-range panic. -/
theorem fieldBody_indexOutOfRange (camelCase : String → String) (idx : TypeIndex)
    (msgName : String) (st : Acc) (field : FieldDescriptorProto) (desc : DescriptorProto)
    (hext : GetExtension field.Options = none)
    (htype : field.Type_ = FieldType.TYPE_MESSAGE)
    (hwkt : isGoogleWKT field = false)
    (hidx : idx field.TypeName = some desc)
    (hdesc : GetMapEntry desc.GetOptions = true)
    (hlen : desc.Field.length < 2) :
    fieldBody camelCase idx msgName st field = .error Fault.indexOutOfRange := by
  unfold fieldBody
  rw [hext]
  simp only
  rw [compositePart_eq, if_pos ⟨htype, hwkt⟩, hidx]
  have hnone : desc.Field[1]? = none := by
    rw [List.getElem?_eq_none_iff]
    omega
  simp [hdesc, hnone]

/-- C20 (amended): when every map-entry type registered in the index has at least two
fields, the read of `desc.Field[1]` is never out of range: no loop body and no run of
`emitMessageType` ends in the out-of-range panic, for every message type and every field.
Without that precondition, a message-typed field that is not well-known, is not annotated
`translated = false` and resolves to a map-entry type with fewer than two fields makes
the classification fail: the loop body ends in the out-of-range panic when the field has
no annotation and in the fatal error when it is annotated true, the field loop over any
fields that contain it does not return, and neither does `emitMessageType` on a type that
is not a map entry and has the field. -/
theorem emitMessageType_value_field_read (camelCase : String → String) (idx : TypeIndex) :
    (MapEntriesHaveValue idx →
      (∀ msgName st field,
        fieldBody camelCase idx msgName st field ≠ .error Fault.indexOutOfRange) ∧
      (∀ code pfx msg,
        emitMessageType camelCase idx code pfx msg ≠ .error Fault.indexOutOfRange)) ∧
    (∀ (field : FieldDescriptorProto) (desc : DescriptorProto),
      field.Type_ = FieldType.TYPE_MESSAGE → isGoogleWKT field = false →
      idx field.TypeName = some desc → GetMapEntry desc.GetOptions = true →
      desc.Field.length < 2 → GetExtension field.Options ≠ some false →
      (∀ msgName st, fieldBody camelCase idx msgName st field =
        .error (if GetExtension field.Options = none then Fault.indexOutOfRange
          else Fault.fatal msgName field.Name)) ∧
      (∀ msgName st pre post,
        ¬ ∃ s, fieldLoop camelCase idx msgName st (pre ++ field :: post) = .ok s) ∧
      (∀ code pfx msg, field ∈ msg.Field → GetMapEntry msg.GetOptions = false →
        ¬ ∃ out, emitMessageType camelCase idx code pfx msg = .ok out)) := by
  constructor
  · intro hidx
    refine ⟨?_, fun code pfx msg => emitMessageType_indexInRange camelCase idx hidx code pfx msg⟩
    intro msgName st field h
    by_cases hoff : GetExtension field.Options = some true ∧ field.Type_ ≠ FieldType.TYPE_STRING
    · rw [fieldBody_of_offending camelCase idx msgName st field hoff.1 hoff.2] at h
      cases h
    · obtain ⟨s, hs⟩ :=
        fieldBody_ok_of_mapEntriesHaveValue camelCase idx hidx msgName st field hoff
      rw [hs] at h
      cases h
  · intro field desc htype hwkt hdesc hmap hlen hext
    have hbody : ∀ msgName st, fieldBody camelCase idx msgName st field =
        .error (if GetExtension field.Options = none then Fault.indexOutOfRange
          else Fault.fatal msgName field.Name) := by
      intro msgName st
      cases hx : GetExtension field.Options with
      | none =>
        rw [if_pos rfl]
        exact fieldBody_indexOutOfRange camelCase idx msgName st field desc hx htype hwkt hdesc
          hmap hlen
      | some b =>
        cases b with
        | false => exact absurd hx hext
        | true =>
          rw [if_neg (by simp)]
          apply fieldBody_of_offending camelCase idx msgName st field hx
          rw [htype]
          decide
    have hloop : ∀ msgName st pre post,
        ¬ ∃ s, fieldLoop camelCase idx msgName st (pre ++ field :: post) = .ok s := by
      rintro msgName st pre post ⟨s, hs⟩
      rw [fieldLoop_append] at hs
      cases h1 : fieldLoop camelCase idx msgName st pre with
      | error e =>
        rw [h1] at hs
        cases hs
      | ok s1 =>
        rw [h1] at hs
        simp only [andThen] at hs
        rw [fieldLoop, hbody] at hs
        cases hs
    refine ⟨hbody, hloop, ?_⟩
    rintro code pfx msg hmem hnot ⟨out, hout⟩
    obtain ⟨code1, st, hl, _⟩ := emitMessageType_ok_plan camelCase idx code pfx msg hnot out hout
    obtain ⟨pre, post, hsplit⟩ := List.append_of_mem hmem
    rw [hsplit] at hl
    exact hloop _ _ pre post ⟨st, hl⟩

theorem emitMessageType_value_field_read_witness :
    MapEntriesHaveValue sampleIndex ∧
    emitMessageType id sampleIndex [] "" sampleMessage ≠ .error Fault.indexOutOfRange ∧
    sampleFieldBad.Type_ = FieldType.TYPE_MESSAGE ∧ isGoogleWKT sampleFieldBad = false ∧
    initTypeNameToDesc [sampleBadFile] sampleFieldBad.TypeName = some sampleBadEntry ∧
    GetMapEntry sampleBadEntry.GetOptions = true ∧ sampleBadEntry.Field.length < 2 ∧
    GetExtension sampleFieldBad.Options ≠ some false ∧
    fieldBody id (initTypeNameToDesc [sampleBadFile]) "Bad" ([], []) sampleFieldBad =
      .error Fault.indexOutOfRange ∧
    ¬ ∃ out, emitMessageType id (initTypeNameToDesc [sampleBadFile]) [] "" sampleBadMessage =
      .ok out :=
  ⟨mapEntriesHaveValue_sampleIndex,
    ((emitMessageType_value_field_read id sampleIndex).1 mapEntriesHaveValue_sampleIndex).2
      [] "" sampleMessage,
    rfl, rfl, rfl, rfl, by decide, by decide,
    ((emitMessageType_value_field_read id (initTypeNameToDesc [sampleBadFile])).2
      sampleFieldBad sampleBadEntry rfl rfl rfl rfl (by decide) (by decide)).1 "Bad" ([], []),
    ((emitMessageType_value_field_read id (initTypeNameToDesc [sampleBadFile])).2
      sampleFieldBad sampleBadEntry rfl rfl rfl rfl (by decide) (by decide)).2.2
      [] "" sampleBadMessage (List.mem_cons_self _ _) rfl⟩

/-- C20 (as stated) fails: the field `entries` refers to the map-entry type `BadEntry`,
which has no fields. Without annotation the loop body ends in the out-of-range panic; but
annotated `translated = false` the same message-typed field is skipped before the read,
and the loop body and `emitMessageType` return without a fault. -/
theorem emitMessageType_annotated_false_skips_read :
    sampleFieldBadFalse.Type_ = FieldType.TYPE_MESSAGE ∧
    isGoogleWKT sampleFieldBadFalse = false ∧
    initTypeNameToDesc [sampleBadFile] sampleFieldBadFalse.TypeName = some sampleBadEntry ∧
    GetMapEntry sampleBadEntry.GetOptions = true ∧ sampleBadEntry.Field.length = 0 ∧
    fieldBody id (initTypeNameToDesc [sampleBadFile]) "Bad" ([], []) sampleFieldBad =
      .error Fault.indexOutOfRange ∧
    fieldBody id (initTypeNameToDesc [sampleBadFile]) "Bad" ([], []) sampleFieldBadFalse =
      .ok ([], []) ∧
    emitMessageType id (initTypeNameToDesc [sampleBadFile]) [] ""
        (.mk "Bad" [sampleFieldBadFalse] [] none) =
      .ok [Emitted.extractTranslations ⟨"Bad", [], []⟩, Emitted.translate ⟨"Bad", [], []⟩,
        Emitted.getTranslationKeys ⟨"Bad", [], []⟩] :=
  ⟨rfl, rfl, rfl, rfl, rfl, rfl, rfl, rfl⟩

/-! ## The key policies of the tests -/

/-- C16: for every old key and text, `japaneseKeyGetter.GetKey` returns the old key when
it is not empty, and what `englishKeyGetter.GetKey` returns for the text (with any old
key) when it is empty; `englishKeyGetter.GetKey` does not depend on its old key. -/
theorem keyGetters_behaviour (newSHA1 : String → String) (oldKey oldKey1 text : String) :
    (oldKey ≠ "" → japaneseKeyGetter.GetKey newSHA1 oldKey text = oldKey) ∧
    (oldKey = "" → japaneseKeyGetter.GetKey newSHA1 oldKey text =
      englishKeyGetter.GetKey newSHA1 oldKey1 text) ∧
    englishKeyGetter.GetKey newSHA1 oldKey text =
      englishKeyGetter.GetKey newSHA1 oldKey1 text := by
  refine ⟨?_, ?_, rfl⟩
  · intro h
    unfold japaneseKeyGetter.GetKey
    rw [if_pos h]
  · intro h
    unfold japaneseKeyGetter.GetKey englishKeyGetter.GetKey
    rw [if_neg (not_not.2 h)]

theorem keyGetters_behaviour_witness :
    japaneseKeyGetter.GetKey sampleSHA1 "k1" "hon" = "k1" ∧
    japaneseKeyGetter.GetKey sampleSHA1 "" "hon" = englishKeyGetter.GetKey sampleSHA1 "k1" "hon" ∧
    englishKeyGetter.GetKey sampleSHA1 "" "book" = englishKeyGetter.GetKey sampleSHA1 "k1" "book" :=
  ⟨(keyGetters_behaviour sampleSHA1 "k1" "" "hon").1 (by decide),
    (keyGetters_behaviour sampleSHA1 "" "k1" "hon").2.1 rfl,
    (keyGetters_behaviour sampleSHA1 "" "k1" "book").2.2⟩

/-! ## Lemmas on `strings.Contains` and `strings.TrimSuffix` -/

theorem containsChars_iff (s sub : List Char) : containsChars s sub = true ↔ sub <:+: s := by
  induction s with
  | nil =>
    rw [containsChars, List.isPrefixOf_iff_prefix]
    simp
  | cons c s ih =>
    rw [containsChars, Bool.or_eq_true, List.isPrefixOf_iff_prefix, ih, List.infix_cons_iff]

theorem Contains_iff (s sub : String) : Contains s sub = true ↔ IsSubstring sub s := by
  unfold Contains IsSubstring
  rw [containsChars_iff]
  constructor
  · rintro ⟨a, b, h⟩
    refine ⟨⟨a⟩, ⟨b⟩, String.ext ?_⟩
    rw [String.data_append, String.data_append, ← h]
  · rintro ⟨a, b, h⟩
    refine ⟨a.data, b.data, ?_⟩
    rw [h, String.data_append, String.data_append]

theorem TrimSuffix_append (s suffix : String) : TrimSuffix (s ++ suffix) suffix = s := by
  unfold TrimSuffix HasSuffix
  have h1 : suffix.data.isSuffixOf (s ++ suffix).data = true := by
    rw [List.isSuffixOf_iff_suffix, String.data_append]
    exact List.suffix_append _ _
  rw [if_pos h1]
  apply String.ext
  simp [String.data_append]

/-! ## The files `main` emits -/

/-- The files the loop of `main` adds, one for each file that is not excluded, in order,
each named by `outputFilename` and holding what `emitNested` wrote after the header. -/
theorem mainLoop_ok (camelCase : String → String) (idx : TypeIndex)
    (protoFile : List FileDescriptorProto) (files out : List CodeGeneratorResponse_File)
    (h : mainLoop camelCase idx files protoFile = .ok out) :
    ∃ added, out = files ++ added ∧
      List.Forall₂
        (fun f o => o.Name = outputFilename f ∧ ∃ pkg, f.Package = some pkg ∧
          emitNested camelCase idx [Emitted.fileHeader ⟨f.Name, pkg⟩] "" f.MessageType =
            .ok o.Content)
        (protoFile.filter (fun f => !excluded f)) added := by
  induction protoFile generalizing files with
  | nil =>
    rw [mainLoop] at h
    cases h
    exact ⟨[], by simp, by simp⟩
  | cons f rest ih =>
    rw [mainLoop] at h
    by_cases hex : excluded f = true
    · rw [if_pos hex] at h
      obtain ⟨added, hout, hall⟩ := ih files h
      exact ⟨added, hout, by simpa [List.filter_cons, hex] using hall⟩
    · rw [if_neg hex] at h
      cases hp : f.Package with
      | none => rw [hp] at h; cases h
      | some pkg =>
        rw [hp] at h
        simp only at h
        cases he : emitNested camelCase idx [Emitted.fileHeader ⟨f.Name, pkg⟩] ""
            f.MessageType with
        | error e => rw [he] at h; cases h
        | ok code =>
          rw [he] at h
          simp only at h
          obtain ⟨added, hout, hall⟩ := ih _ h
          refine ⟨⟨outputFilename f, code⟩ :: added, by simp [hout], ?_⟩
          have hex1 : excluded f = false := by simpa using hex
          simp only [List.filter_cons, hex1, Bool.not_false, if_true]
          exact List.Forall₂.cons ⟨rfl, pkg, hp, he⟩ hall

/-- The loop of `main` returns when every file that is not excluded has its package set
and `emitNested` returns on its top-level types. -/
theorem mainLoop_returns (camelCase : String → String) (idx : TypeIndex)
    (protoFile : List FileDescriptorProto) (files : List CodeGeneratorResponse_File)
    (h : ∀ f ∈ protoFile, excluded f = false → ∃ pkg code, f.Package = some pkg ∧
      emitNested camelCase idx [Emitted.fileHeader ⟨f.Name, pkg⟩] "" f.MessageType =
        .ok code) :
    ∃ out, mainLoop camelCase idx files protoFile = .ok out := by
  induction protoFile generalizing files with
  | nil => exact ⟨files, rfl⟩
  | cons f rest ih =>
    rw [mainLoop]
    by_cases hex : excluded f = true
    · rw [if_pos hex]
      exact ih files (fun g hg => h g (List.mem_cons_of_mem _ hg))
    · rw [if_neg hex]
      obtain ⟨pkg, code, hp, he⟩ := h f (List.mem_cons_self _ _) (by simpa using hex)
      rw [hp]
      simp only
      rw [he]
      exact ih _ (fun g hg => h g (List.mem_cons_of_mem _ hg))

/-- C15: when `main` returns, the names of the files it emits are, in input order, the
names of the input files that are not excluded, each with `.proto` trimmed from its end
and `_trans.pb.go` appended; for an input name `s + ".proto"` that is
`s + "_trans.pb.go"`. -/
theorem main_output_names (camelCase : String → String)
    (protoFile : List FileDescriptorProto) (out : List CodeGeneratorResponse_File)
    (h : main camelCase protoFile = .ok out) :
    out.map (fun o => o.Name) =
      (protoFile.filter (fun f => !excluded f)).map
        (fun f => TrimSuffix f.Name ".proto" ++ "_trans.pb.go") ∧
    ∀ s : String, TrimSuffix (s ++ ".proto") ".proto" ++ "_trans.pb.go" = s ++ "_trans.pb.go" := by
  constructor
  · obtain ⟨added, hout, hall⟩ := mainLoop_ok camelCase _ protoFile [] out h
    rw [hout, List.nil_append]
    clear hout h
    generalize protoFile.filter (fun f => !excluded f) = l at hall
    induction hall with
    | nil => rfl
    | cons hhead _ ih =>
      rw [List.map_cons, List.map_cons, ih, hhead.1]
      rfl
  · intro s
    rw [TrimSuffix_append]

theorem main_output_names_witness :
    main id [sampleTimestampFile, sampleTestFile] =
      .ok [⟨"test_trans.pb.go",
        [Emitted.fileHeader ⟨"test.proto", "test"⟩] ++
          plan ⟨"TestMessage1_NestedMessage", [⟨"name", false, false⟩], []⟩ ++
          plan ⟨"TestMessage1", [⟨"name1", false, false⟩, ⟨"array1", true, false⟩],
            [⟨"nested", false, false⟩, ⟨"nested_array", true, false⟩,
              ⟨"map1", false, true⟩]⟩⟩] ∧
    ["test_trans.pb.go"] =
      ([sampleTimestampFile, sampleTestFile].filter (fun f => !excluded f)).map
        (fun f => TrimSuffix f.Name ".proto" ++ "_trans.pb.go") :=
  ⟨rfl, (main_output_names id [sampleTimestampFile, sampleTestFile] _ rfl).1⟩

theorem excluded_iff (f : FileDescriptorProto) :
    excluded f = true ↔
      (IsSubstring "google/protobuf" f.Name ∨ IsSubstring "extensions.proto" f.Name) := by
  unfold excluded
  rw [Bool.or_eq_true, Contains_iff, Contains_iff]

/-- C18 (amended): whenever `main` returns, it has emitted exactly one output file for each
input file whose name contains neither `google/protobuf` nor `extensions.proto`, in input
order, and none for any other input file; the content of each is what `emitMessageType`
writes for the top-level types of the file after the header, with the index built from
all input files. It returns when every file that is not excluded has its package set and
`emitMessageType` returns on its top-level types. The types of all input files, the
excluded ones included, are registered in that index. -/
theorem main_emits_one_file_per_included_input (camelCase : String → String)
    (protoFile : List FileDescriptorProto) :
    (∀ out, main camelCase protoFile = .ok out →
      List.Forall₂
        (fun f o => o.Name = outputFilename f ∧ ∃ pkg, f.Package = some pkg ∧
          emitNested camelCase (initTypeNameToDesc protoFile)
            [Emitted.fileHeader ⟨f.Name, pkg⟩] "" f.MessageType = .ok o.Content)
        (protoFile.filter (fun f => !excluded f)) out) ∧
    ((∀ f ∈ protoFile, excluded f = false → ∃ pkg code, f.Package = some pkg ∧
        emitNested camelCase (initTypeNameToDesc protoFile)
          [Emitted.fileHeader ⟨f.Name, pkg⟩] "" f.MessageType = .ok code) →
      ∃ out, main camelCase protoFile = .ok out) ∧
    (∀ f : FileDescriptorProto, excluded f = true ↔
      (IsSubstring "google/protobuf" f.Name ∨ IsSubstring "extensions.proto" f.Name)) ∧
    (∀ k t, Registered protoFile k t → ∃ d, initTypeNameToDesc protoFile k = some d) := by
  refine ⟨?_, ?_, excluded_iff, ?_⟩
  · intro out h
    obtain ⟨added, hout, hall⟩ := mainLoop_ok camelCase _ protoFile [] out h
    rw [hout, List.nil_append]
    exact hall
  · intro h
    exact mainLoop_returns camelCase _ protoFile [] h
  · intro k t hreg
    rw [initTypeNameToDesc_eq_replay]
    exact replay_isSome _ _ _ (Or.inr ⟨t, (registered_iff_mem_buildOrder protoFile k t).1 hreg⟩)

/-- C18 (as stated) fails: neither input file is excluded, but the second misuses the
translated annotation, the run ends in the fatal schema error, and no output file is
emitted for either. -/
theorem main_emits_one_file_per_included_input_counterexample :
    excluded sampleTestFile = false ∧ excluded sampleOffendingFile = false ∧
    main id [sampleTestFile, sampleOffendingFile] =
      .error (MainFault.emit (Fault.fatal "Part" "count")) ∧
    ¬ ∃ out, main id [sampleTestFile, sampleOffendingFile] = .ok out := by
  have hrun : main id [sampleTestFile, sampleOffendingFile] =
      .error (MainFault.emit (Fault.fatal "Part" "count")) := rfl
  refine ⟨rfl, rfl, hrun, ?_⟩
  rintro ⟨out, h⟩
  rw [hrun] at h
  cases h

theorem main_emits_one_file_per_included_input_witness :
    (∃ out, main id [sampleTimestampFile, sampleTestFile] = .ok out) ∧
    (excluded sampleTimestampFile = true ↔
      (IsSubstring "google/protobuf" sampleTimestampFile.Name ∨
        IsSubstring "extensions.proto" sampleTimestampFile.Name)) ∧
    ∃ d, initTypeNameToDesc [sampleTimestampFile, sampleTestFile]
      ".google.protobuf.Timestamp" = some d := by
  have hthm := main_emits_one_file_per_included_input id [sampleTimestampFile, sampleTestFile]
  refine ⟨hthm.2.1 ?_, hthm.2.2.1 sampleTimestampFile, hthm.2.2.2 _ (.mk "Timestamp" [] [] none) ?_⟩
  · intro f hf hex
    rcases List.mem_cons.1 hf with rfl | hf1
    · exact absurd hex (by decide)
    · rcases List.mem_cons.1 hf1 with rfl | hf2
      · exact ⟨"test", _, rfl, rfl⟩
      · cases hf2
  · exact ⟨sampleTimestampFile, List.mem_cons_self _ _, .mk "Timestamp" [] [] none,
      List.mem_singleton.2 rfl, ["Timestamp"], Reaches.top _, by decide⟩

/-! ## The plans written, by nesting path -/

theorem intercalate_singleton_sep (sep n : String) : sep.intercalate [n] = n := by
  simp [String.intercalate, String.intercalate.go]

theorem intercalate_cons_cons_sep (sep pfx n x : String) (xs : List String) :
    pfx ++ sep.intercalate (n :: x :: xs) = (pfx ++ n ++ sep) ++ sep.intercalate (x :: xs) := by
  simp only [String.intercalate, String.intercalate.go]
  rw [← intercalate_go_append, ← intercalate_go_append]
  simp [String.append_assoc]

theorem namesAt_eq_cons (T : DescriptorProto) (p : List Nat) :
    ∃ tl, namesAt T p = T.Name :: tl := by
  cases p with
  | nil => exact ⟨[], rfl⟩
  | cons i q => exact ⟨_, rfl⟩

theorem not_openPath_of_mapEntry (T : DescriptorProto) (p : List Nat)
    (hmap : GetMapEntry T.GetOptions = true) : ¬ OpenPath T p := by
  intro h
  cases p with
  | nil =>
    rw [OpenPath, hmap] at h
    cases h
  | cons i q =>
    rw [OpenPath, hmap] at h
    cases h.1

theorem PlanOf_nested (camelCase : String → String) (idx : TypeIndex) (pfx : String)
    (T n : DescriptorProto) (i : Nat) (q : List Nat) (m : Message)
    (hn : T.NestedType[i]? = some n)
    (h : PlanOf camelCase idx ((pfx ++ T.Name) ++ "_") n q m) :
    PlanOf camelCase idx pfx T (i :: q) m := by
  obtain ⟨t, st, ht, hl, hm⟩ := h
  refine ⟨t, st, ?_, hl, ?_⟩
  · rw [typeAt, hn]
    exact ht
  · have hnames : namesAt T (i :: q) = T.Name :: namesAt n q := by
      rw [namesAt, hn]
    obtain ⟨tl, htl⟩ := namesAt_eq_cons n q
    rw [hm, hnames, htl, intercalate_cons_cons_sep]

mutual
/-- The output of `emitMessageType`, as the plans of the open paths below the type: one
plan for each, each path once. -/
theorem emitMessageType_plans (camelCase : String → String) (idx : TypeIndex) :
    ∀ (T : DescriptorProto) (code : List Emitted) (pfx : String) (out : List Emitted),
      emitMessageType camelCase idx code pfx T = .ok out →
      ∃ ps : List (List Nat × Message),
        out = code ++ ps.flatMap (fun e => plan e.2) ∧
        (ps.map Prod.fst).Nodup ∧
        (∀ p, p ∈ ps.map Prod.fst ↔ OpenPath T p) ∧
        ∀ e ∈ ps, PlanOf camelCase idx pfx T e.1 e.2
  | .mk name fields nested opts, code, pfx, out => by
    intro h
    rw [emitMessageType] at h
    by_cases hmap : GetMapEntry opts = true
    · rw [if_pos hmap] at h
      cases h
      refine ⟨[], by simp, List.nodup_nil, ?_, by simp⟩
      intro p
      constructor
      · intro hp
        cases hp
      · intro hp
        exact absurd hp (not_openPath_of_mapEntry _ p hmap)
    · have hmap1 : GetMapEntry (DescriptorProto.mk name fields nested opts).GetOptions = false := by
        simpa [DescriptorProto.GetOptions] using hmap
      rw [if_neg hmap] at h
      cases hn : emitNested camelCase idx code ((pfx ++ name) ++ "_") nested with
      | error e => rw [hn] at h; cases h
      | ok code1 =>
        rw [hn] at h
        cases hl : fieldLoop camelCase idx name ([], []) fields with
        | error e => rw [hl] at h; cases h
        | ok st =>
          rw [hl] at h
          simp only [Except.ok.injEq] at h
          obtain ⟨ps, hcode1, hnodup, hmem, hplans⟩ :=
            emitNested_plans camelCase idx nested 0 code _ code1 hn
          refine ⟨ps ++ [([], ⟨pfx ++ name, st.1, st.2⟩)], ?_, ?_, ?_, ?_⟩
          · rw [← h, hcode1]
            simp [List.flatMap_append]
          · rw [List.map_append, List.nodup_append]
            refine ⟨hnodup, by simp, ?_⟩
            intro p hp1 hp2
            obtain ⟨i, q, n, hpq, _, _⟩ := (hmem p).1 hp1
            rw [hpq] at hp2
            simp at hp2
          · intro p
            rw [List.map_append, List.mem_append, hmem p]
            constructor
            · rintro (⟨i, q, n, rfl, hi, hopen⟩ | hp)
              · rw [Nat.zero_add]
                exact ⟨hmap1, n, hi, hopen⟩
              · have : p = [] := by simpa using hp
                rw [this]
                exact hmap1
            · intro hp
              cases p with
              | nil =>
                right
                simp
              | cons i q =>
                left
                obtain ⟨_, n, hi, hopen⟩ := hp
                exact ⟨i, q, n, by rw [Nat.zero_add], hi, hopen⟩
          · intro e he
            rcases List.mem_append.1 he with he1 | he2
            · obtain ⟨i, q, n, hpq, hi, hplan⟩ := hplans e he1
              rw [hpq, Nat.zero_add]
              exact PlanOf_nested camelCase idx pfx (.mk name fields nested opts) n i q e.2 hi
                hplan
            · have he3 : e = ([], ⟨pfx ++ name, st.1, st.2⟩) := by simpa using he2
              rw [he3]
              refine ⟨.mk name fields nested opts, st, rfl, hl, ?_⟩
              have hnames : namesAt (.mk name fields nested opts) [] = [name] := rfl
              rw [hnames, intercalate_singleton_sep]
/-- The output of the loop over sibling types, as the plans of the open paths below them;
a path starts with the position of the sibling, counted from `k`. -/
theorem emitNested_plans (camelCase : String → String) (idx : TypeIndex) :
    ∀ (l : List DescriptorProto) (k : Nat) (code : List Emitted) (pfx : String)
      (out : List Emitted),
      emitNested camelCase idx code pfx l = .ok out →
      ∃ ps : List (List Nat × Message),
        out = code ++ ps.flatMap (fun e => plan e.2) ∧
        (ps.map Prod.fst).Nodup ∧
        (∀ p, p ∈ ps.map Prod.fst ↔
          ∃ i q n, p = (k + i) :: q ∧ l[i]? = some n ∧ OpenPath n q) ∧
        ∀ e ∈ ps, ∃ i q n, e.1 = (k + i) :: q ∧ l[i]? = some n ∧
          PlanOf camelCase idx pfx n q e.2
  | [], k, code, pfx, out => by
    intro h
    rw [emitNested] at h
    cases h
    refine ⟨[], by simp, List.nodup_nil, ?_, by simp⟩
    intro p
    constructor
    · intro hp
      cases hp
    · rintro ⟨i, q, n, _, hi, _⟩
      simp at hi
  | T :: rest, k, code, pfx, out => by
    intro h
    rw [emitNested] at h
    cases hT : emitMessageType camelCase idx code pfx T with
    | error e => rw [hT] at h; cases h
    | ok code1 =>
      rw [hT] at h
      simp only at h
      obtain ⟨ps1, hcode1, hnodup1, hmem1, hplans1⟩ :=
        emitMessageType_plans camelCase idx T code pfx code1 hT
      obtain ⟨ps2, hout, hnodup2, hmem2, hplans2⟩ :=
        emitNested_plans camelCase idx rest (k + 1) code1 pfx out h
      refine ⟨ps1.map (fun e => (k :: e.1, e.2)) ++ ps2, ?_, ?_, ?_, ?_⟩
      · rw [hout, hcode1, List.flatMap_append, List.append_assoc]
        congr 2
        simp [List.flatMap_map]
      · rw [List.map_append, List.nodup_append]
        refine ⟨?_, hnodup2, ?_⟩
        · rw [List.map_map]
          have hfun : (Prod.fst ∘ fun e : List Nat × Message => (k :: e.1, e.2)) =
              (fun q => k :: q) ∘ Prod.fst := rfl
          rw [hfun, ← List.map_map]
          exact List.Nodup.map (fun a b hab => List.cons_injective hab) hnodup1
        · intro p hp1 hp2
          obtain ⟨i, q, n, hpq, _, _⟩ := (hmem2 p).1 hp2
          rw [List.map_map] at hp1
          obtain ⟨e, _, he⟩ := List.mem_map.1 hp1
          rw [hpq] at he
          simp only [Function.comp_apply, List.cons.injEq] at he
          omega
      · intro p
        rw [List.map_append, List.mem_append, hmem2 p]
        constructor
        · rintro (hp | ⟨i, q, n, rfl, hi, hopen⟩)
          · rw [List.map_map] at hp
            obtain ⟨e, he, rfl⟩ := List.mem_map.1 hp
            have he1 : e.1 ∈ ps1.map Prod.fst := List.mem_map.2 ⟨e, he, rfl⟩
            exact ⟨0, e.1, T, rfl, List.getElem?_cons_zero, (hmem1 e.1).1 he1⟩
          · exact ⟨i + 1, q, n, by rw [Nat.add_assoc, Nat.add_comm 1 i], by simpa using hi,
              hopen⟩
        · rintro ⟨i, q, n, rfl, hi, hopen⟩
          cases i with
          | zero =>
            left
            have hn : T = n := by simpa using hi
            subst hn
            obtain ⟨e, he, heq⟩ := List.mem_map.1 ((hmem1 q).2 hopen)
            rw [List.map_map]
            exact List.mem_map.2 ⟨e, he, by simp [heq]⟩
          | succ j =>
            right
            exact ⟨j, q, n, by rw [Nat.add_assoc, Nat.add_comm 1 j], by simpa using hi, hopen⟩
      · intro e he
        rcases List.mem_append.1 he with he1 | he2
        · obtain ⟨e1, he1m, rfl⟩ := List.mem_map.1 he1
          exact ⟨0, e1.1, T, rfl, List.getElem?_cons_zero, hplans1 e1 he1m⟩
        · obtain ⟨i, q, n, hpq, hi, hplan⟩ := hplans2 e he2
          exact ⟨i + 1, q, n, by rw [hpq, Nat.add_assoc, Nat.add_comm 1 i], by simpa using hi,
            hplan⟩
end

theorem openPath_typeAt (p : List Nat) :
    ∀ T : DescriptorProto, OpenPath T p →
      ∃ t, typeAt T p = some t ∧ GetMapEntry t.GetOptions = false := by
  induction p with
  | nil =>
    intro T h
    exact ⟨T, rfl, h⟩
  | cons i q ih =>
    intro T h
    obtain ⟨_, n, hn, hopen⟩ := h
    obtain ⟨t, ht, hmap⟩ := ih n hopen
    refine ⟨t, ?_, hmap⟩
    rw [typeAt, hn]
    exact ht

/-- C11 (amended): when the plan pass over the top-level types returns, what it has
written after the incoming buffer is, for each entry of a list `ps` of paths with
template data, the three operations extract, translate and get-keys on that data; the
paths of `ps` are exactly the paths from a top-level type that pass through no map-entry
type (the type reached included), each once, and the data of a path holds the lists of
the field loop for the type reached. So exactly one plan is emitted for every type reached
through types that are not map entries, and none for a type that is a map entry or lies
below one. -/
theorem planPass_one_plan_per_open_type (camelCase : String → String) (idx : TypeIndex)
    (code : List Emitted) (topLevel : List DescriptorProto) (out : List Emitted)
    (h : emitNested camelCase idx code "" topLevel = .ok out) :
    ∃ ps : List (List Nat × Message),
      out = code ++ ps.flatMap (fun e =>
        [Emitted.extractTranslations e.2, Emitted.translate e.2,
          Emitted.getTranslationKeys e.2]) ∧
      (ps.map Prod.fst).Nodup ∧
      (∀ p, p ∈ ps.map Prod.fst ↔ OpenPathFrom topLevel p) ∧
      (∀ e ∈ ps, ∃ t st, typeAtFrom topLevel e.1 = some t ∧
        GetMapEntry t.GetOptions = false ∧
        fieldLoop camelCase idx t.Name ([], []) t.Field = .ok st ∧
        e.2.TranslatedFields = st.1 ∧ e.2.CompositeFields = st.2) ∧
      (∀ p t, typeAtFrom topLevel p = some t → GetMapEntry t.GetOptions = true →
        p ∉ ps.map Prod.fst) := by
  obtain ⟨ps, hout, hnodup, hmem, hplans⟩ :=
    emitNested_plans camelCase idx topLevel 0 code "" out h
  have hops : (fun e : List Nat × Message =>
      [Emitted.extractTranslations e.2, Emitted.translate e.2,
        Emitted.getTranslationKeys e.2]) = (fun e => plan e.2) := rfl
  have hmem1 : ∀ p, p ∈ ps.map Prod.fst ↔ OpenPathFrom topLevel p := by
    intro p
    rw [hmem p]
    constructor
    · rintro ⟨i, q, n, rfl, hi, hopen⟩
      rw [Nat.zero_add]
      exact ⟨n, hi, hopen⟩
    · intro hp
      cases p with
      | nil => cases hp
      | cons i q =>
        obtain ⟨n, hi, hopen⟩ := hp
        exact ⟨i, q, n, by rw [Nat.zero_add], hi, hopen⟩
  refine ⟨ps, by rw [hops]; exact hout, hnodup, hmem1, ?_, ?_⟩
  · intro e he
    obtain ⟨i, q, n, hpq, hi, t, st, ht, hl, hm⟩ := hplans e he
    have hopen : OpenPathFrom topLevel e.1 := (hmem1 e.1).1 (List.mem_map.2 ⟨e, he, rfl⟩)
    rw [hpq, Nat.zero_add] at hopen
    obtain ⟨n1, hi1, hopen1⟩ := hopen
    rw [hi] at hi1
    cases hi1
    obtain ⟨t1, ht1, hmap⟩ := openPath_typeAt q n hopen1
    rw [ht] at ht1
    cases ht1
    refine ⟨t, st, ?_, hmap, hl, by rw [hm], by rw [hm]⟩
    rw [hpq, Nat.zero_add, typeAtFrom, hi]
    exact ht
  · intro p t ht hmap hp
    have hopen := (hmem1 p).1 hp
    cases p with
    | nil => cases hopen
    | cons i q =>
      obtain ⟨n, hi, hopen1⟩ := hopen
      rw [typeAtFrom, hi] at ht
      obtain ⟨t1, ht1, hmap1⟩ := openPath_typeAt q n hopen1
      have ht2 : typeAt n q = some t := ht
      rw [ht2] at ht1
      cases ht1
      rw [hmap] at hmap1
      cases hmap1

/-- C11 (as stated) fails: `Hidden` is reached from the top-level type `Holder` through
the map-entry type `HolderEntry` and is not a map-entry type itself, but the plan pass
returns having written the three operations of `Holder` only. -/
theorem planPass_one_plan_per_open_type_counterexample :
    Reaches sampleHolder ["Holder", "HolderEntry", "Hidden"] sampleHidden ∧
    typeAtFrom [sampleHolder] [0, 0, 0] = some sampleHidden ∧
    GetMapEntry sampleHidden.GetOptions = false ∧
    emitNested id (initTypeNameToDesc [sampleHolderFile]) [] "" [sampleHolder] =
      .ok [Emitted.extractTranslations ⟨"Holder", [], []⟩,
        Emitted.translate ⟨"Holder", [], []⟩,
        Emitted.getTranslationKeys ⟨"Holder", [], []⟩] :=
  ⟨Reaches.nested (T := sampleHolder) (List.mem_singleton.2 rfl)
      (Reaches.nested (T := sampleHolderEntry) (List.mem_singleton.2 rfl)
        (Reaches.top sampleHidden)),
    rfl, rfl, rfl⟩

theorem planPass_one_plan_per_open_type_witness :
    ∃ ps : List (List Nat × Message),
      [Emitted.extractTranslations
          ⟨"TestMessage1_NestedMessage", [⟨"name", false, false⟩], []⟩,
        Emitted.translate ⟨"TestMessage1_NestedMessage", [⟨"name", false, false⟩], []⟩,
        Emitted.getTranslationKeys
          ⟨"TestMessage1_NestedMessage", [⟨"name", false, false⟩], []⟩,
        Emitted.extractTranslations sampleMessagePlan,
        Emitted.translate sampleMessagePlan,
        Emitted.getTranslationKeys sampleMessagePlan] =
        [] ++ ps.flatMap (fun e =>
          [Emitted.extractTranslations e.2, Emitted.translate e.2,
            Emitted.getTranslationKeys e.2]) ∧
      (ps.map Prod.fst).Nodup ∧
      (∀ p, p ∈ ps.map Prod.fst ↔ OpenPathFrom [sampleMessage] p) ∧
      (∀ e ∈ ps, ∃ t st, typeAtFrom [sampleMessage] e.1 = some t ∧
        GetMapEntry t.GetOptions = false ∧
        fieldLoop id sampleIndex t.Name ([], []) t.Field = .ok st ∧
        e.2.TranslatedFields = st.1 ∧ e.2.CompositeFields = st.2) ∧
      (∀ p t, typeAtFrom [sampleMessage] p = some t → GetMapEntry t.GetOptions = true →
        p ∉ ps.map Prod.fst) :=
  planPass_one_plan_per_open_type id sampleIndex [] [sampleMessage] _ rfl

/-- C17: when `emitMessageType` returns on a top-level type (empty name prefix), what it
has written after the incoming buffer is, entry by entry of a list `ps`, the three
operations extract, translate and get-keys on the data of the entry; every path from the
type that passes through no map-entry type has an entry, and every entry belongs to such a
path and its data carries the name `N1_N2_..._Nk` of the names on the path (the name of
the top-level type itself for `k = 1`, and no package name) with the lists of the field
loop for the type reached. -/
theorem emitMessageType_plan_name (camelCase : String → String) (idx : TypeIndex)
    (code : List Emitted) (T : DescriptorProto) (out : List Emitted)
    (h : emitMessageType camelCase idx code "" T = .ok out) :
    ∃ ps : List (List Nat × Message),
      out = code ++ ps.flatMap (fun e =>
        [Emitted.extractTranslations e.2, Emitted.translate e.2,
          Emitted.getTranslationKeys e.2]) ∧
      (∀ p, OpenPath T p → ∃ m, (p, m) ∈ ps) ∧
      ∀ e ∈ ps, OpenPath T e.1 ∧ ∃ t st, typeAt T e.1 = some t ∧
        fieldLoop camelCase idx t.Name ([], []) t.Field = .ok st ∧
        e.2 = ⟨"_".intercalate (namesAt T e.1), st.1, st.2⟩ := by
  obtain ⟨ps, hout, _, hmem, hplans⟩ := emitMessageType_plans camelCase idx T code "" out h
  have hops : (fun e : List Nat × Message =>
      [Emitted.extractTranslations e.2, Emitted.translate e.2,
        Emitted.getTranslationKeys e.2]) = (fun e => plan e.2) := rfl
  refine ⟨ps, by rw [hops]; exact hout, ?_, ?_⟩
  · intro p hopen
    obtain ⟨e, he, hep⟩ := List.mem_map.1 ((hmem p).2 hopen)
    refine ⟨e.2, ?_⟩
    rw [← hep]
    exact he
  · intro e he
    obtain ⟨t, st, ht, hl, hm⟩ := hplans e he
    refine ⟨(hmem e.1).1 (List.mem_map.2 ⟨e, he, rfl⟩), t, st, ht, hl, ?_⟩
    rw [hm, String.empty_append]

theorem emitMessageType_plan_name_witness :
    ∃ ps : List (List Nat × Message),
      [Emitted.extractTranslations
          ⟨"TestMessage1_NestedMessage", [⟨"name", false, false⟩], []⟩,
        Emitted.translate ⟨"TestMessage1_NestedMessage", [⟨"name", false, false⟩], []⟩,
        Emitted.getTranslationKeys
          ⟨"TestMessage1_NestedMessage", [⟨"name", false, false⟩], []⟩,
        Emitted.extractTranslations sampleMessagePlan,
        Emitted.translate sampleMessagePlan,
        Emitted.getTranslationKeys sampleMessagePlan] =
        [] ++ ps.flatMap (fun e =>
          [Emitted.extractTranslations e.2, Emitted.translate e.2,
            Emitted.getTranslationKeys e.2]) ∧
      (∀ p, OpenPath sampleMessage p → ∃ m, (p, m) ∈ ps) ∧
      ∀ e ∈ ps, OpenPath sampleMessage e.1 ∧ ∃ t st, typeAt sampleMessage e.1 = some t ∧
        fieldLoop id sampleIndex t.Name ([], []) t.Field = .ok st ∧
        e.2 = ⟨"_".intercalate (namesAt sampleMessage e.1), st.1, st.2⟩ :=
  emitMessageType_plan_name id sampleIndex [] sampleMessage _ rfl

/-! ## Instance trees of the same shape -/

theorem forall₂_flip_imp {R S : TransField → TransField → Prop}
    (hRS : ∀ a b, R a b → S b a) {l1 l2 : List TransField} (h : List.Forall₂ R l1 l2) :
    List.Forall₂ S l2 l1 := by
  induction h with
  | nil => exact List.Forall₂.nil
  | cons hab _ ih => exact List.Forall₂.cons (hRS _ _ hab) ih

theorem forall₂_comp_imp {R S T : TransField → TransField → Prop}
    (hRST : ∀ a b c, R a b → S b c → T a c) {l1 l2 l3 : List TransField}
    (h1 : List.Forall₂ R l1 l2) (h2 : List.Forall₂ S l2 l3) : List.Forall₂ T l1 l3 := by
  induction h1 generalizing l3 with
  | nil =>
    cases h2
    exact List.Forall₂.nil
  | cons hab _ ih =>
    cases h2 with
    | cons hbc hrest => exact List.Forall₂.cons (hRST _ _ _ hab hbc) (ih hrest)

mutual
theorem relNode_flip (R S : TransField → TransField → Prop) (hRS : ∀ a b, R a b → S b a) :
    ∀ A B : MessageNode, relNode R A B → relNode S B A
  | .mk fs cs, B => by
    intro h
    rw [relNode] at h
    obtain ⟨gs, ds, rfl, hf, hc⟩ := h
    rw [relNode]
    exact ⟨fs, cs, rfl, forall₂_flip_imp hRS hf, relChildren_flip R S hRS cs ds hc⟩
theorem relChildren_flip (R S : TransField → TransField → Prop) (hRS : ∀ a b, R a b → S b a) :
    ∀ cs ds : List Child, relChildren R cs ds → relChildren S ds cs
  | [], ds => by
    intro h
    rw [relChildren] at h
    subst h
    rw [relChildren]
  | c :: cs, ds => by
    intro h
    rw [relChildren] at h
    obtain ⟨d, ds1, rfl, hc, hcs⟩ := h
    rw [relChildren]
    exact ⟨c, cs, rfl, relChild_flip R S hRS c d hc, relChildren_flip R S hRS cs ds1 hcs⟩
theorem relChild_flip (R S : TransField → TransField → Prop) (hRS : ∀ a b, R a b → S b a) :
    ∀ c d : Child, relChild R c d → relChild S d c
  | .absent, d => by
    intro h
    rw [relChild] at h
    subst h
    rw [relChild]
  | .single n, d => by
    intro h
    rw [relChild] at h
    obtain ⟨m, rfl, hn⟩ := h
    rw [relChild]
    exact ⟨n, rfl, relNode_flip R S hRS n m hn⟩
  | .array ns, d => by
    intro h
    rw [relChild] at h
    obtain ⟨ms, rfl, hn⟩ := h
    rw [relChild]
    exact ⟨ns, rfl, relNodes_flip R S hRS ns ms hn⟩
  | .map es, d => by
    intro h
    rw [relChild] at h
    obtain ⟨fs, rfl, hn⟩ := h
    rw [relChild]
    exact ⟨es, rfl, relEntries_flip R S hRS es fs hn⟩
theorem relNodes_flip (R S : TransField → TransField → Prop) (hRS : ∀ a b, R a b → S b a) :
    ∀ ns ms : List MessageNode, relNodes R ns ms → relNodes S ms ns
  | [], ms => by
    intro h
    rw [relNodes] at h
    subst h
    rw [relNodes]
  | n :: ns, ms => by
    intro h
    rw [relNodes] at h
    obtain ⟨m, ms1, rfl, hn, hns⟩ := h
    rw [relNodes]
    exact ⟨n, ns, rfl, relNode_flip R S hRS n m hn, relNodes_flip R S hRS ns ms1 hns⟩
theorem relEntries_flip (R S : TransField → TransField → Prop) (hRS : ∀ a b, R a b → S b a) :
    ∀ es fs : List (String × MessageNode), relEntries R es fs → relEntries S fs es
  | [], fs => by
    intro h
    rw [relEntries] at h
    subst h
    rw [relEntries]
  | (k, n) :: es, fs => by
    intro h
    rw [relEntries] at h
    obtain ⟨m, fs1, rfl, hn, hes⟩ := h
    rw [relEntries]
    exact ⟨n, es, rfl, relNode_flip R S hRS n m hn, relEntries_flip R S hRS es fs1 hes⟩
end

mutual
theorem relNode_comp (R S T : TransField → TransField → Prop)
    (hRST : ∀ a b c, R a b → S b c → T a c) :
    ∀ A B C : MessageNode, relNode R A B → relNode S B C → relNode T A C
  | .mk fs cs, B, C => by
    intro h1 h2
    rw [relNode] at h1
    obtain ⟨gs, ds, rfl, hf, hc⟩ := h1
    rw [relNode] at h2
    obtain ⟨hs, es, rfl, hf2, hc2⟩ := h2
    rw [relNode]
    exact ⟨hs, es, rfl, forall₂_comp_imp hRST hf hf2, relChildren_comp R S T hRST cs ds es hc hc2⟩
theorem relChildren_comp (R S T : TransField → TransField → Prop)
    (hRST : ∀ a b c, R a b → S b c → T a c) :
    ∀ cs ds es : List Child, relChildren R cs ds → relChildren S ds es → relChildren T cs es
  | [], ds, es => by
    intro h1 h2
    rw [relChildren] at h1
    subst h1
    rw [relChildren] at h2
    subst h2
    rw [relChildren]
  | c :: cs, ds, es => by
    intro h1 h2
    rw [relChildren] at h1
    obtain ⟨d, ds1, rfl, hc, hcs⟩ := h1
    rw [relChildren] at h2
    obtain ⟨e, es1, rfl, hd, hds⟩ := h2
    rw [relChildren]
    exact ⟨e, es1, rfl, relChild_comp R S T hRST c d e hc hd,
      relChildren_comp R S T hRST cs ds1 es1 hcs hds⟩
theorem relChild_comp (R S T : TransField → TransField → Prop)
    (hRST : ∀ a b c, R a b → S b c → T a c) :
    ∀ c d e : Child, relChild R c d → relChild S d e → relChild T c e
  | .absent, d, e => by
    intro h1 h2
    rw [relChild] at h1
    subst h1
    rw [relChild] at h2
    subst h2
    rw [relChild]
  | .single n, d, e => by
    intro h1 h2
    rw [relChild] at h1
    obtain ⟨m, rfl, hn⟩ := h1
    rw [relChild] at h2
    obtain ⟨o, rfl, hm⟩ := h2
    rw [relChild]
    exact ⟨o, rfl, relNode_comp R S T hRST n m o hn hm⟩
  | .array ns, d, e => by
    intro h1 h2
    rw [relChild] at h1
    obtain ⟨ms, rfl, hn⟩ := h1
    rw [relChild] at h2
    obtain ⟨os, rfl, hm⟩ := h2
    rw [relChild]
    exact ⟨os, rfl, relNodes_comp R S T hRST ns ms os hn hm⟩
  | .map es, d, e => by
    intro h1 h2
    rw [relChild] at h1
    obtain ⟨fs, rfl, hn⟩ := h1
    rw [relChild] at h2
    obtain ⟨gs, rfl, hm⟩ := h2
    rw [relChild]
    exact ⟨gs, rfl, relEntries_comp R S T hRST es fs gs hn hm⟩
theorem relNodes_comp (R S T : TransField → TransField → Prop)
    (hRST : ∀ a b c, R a b → S b c → T a c) :
    ∀ ns ms os : List MessageNode, relNodes R ns ms → relNodes S ms os → relNodes T ns os
  | [], ms, os => by
    intro h1 h2
    rw [relNodes] at h1
    subst h1
    rw [relNodes] at h2
    subst h2
    rw [relNodes]
  | n :: ns, ms, os => by
    intro h1 h2
    rw [relNodes] at h1
    obtain ⟨m, ms1, rfl, hn, hns⟩ := h1
    rw [relNodes] at h2
    obtain ⟨o, os1, rfl, hm, hms⟩ := h2
    rw [relNodes]
    exact ⟨o, os1, rfl, relNode_comp R S T hRST n m o hn hm,
      relNodes_comp R S T hRST ns ms1 os1 hns hms⟩
theorem relEntries_comp (R S T : TransField → TransField → Prop)
    (hRST : ∀ a b c, R a b → S b c → T a c) :
    ∀ es fs gs : List (String × MessageNode),
      relEntries R es fs → relEntries S fs gs → relEntries T es gs
  | [], fs, gs => by
    intro h1 h2
    rw [relEntries] at h1
    subst h1
    rw [relEntries] at h2
    subst h2
    rw [relEntries]
  | (k, n) :: es, fs, gs => by
    intro h1 h2
    rw [relEntries] at h1
    obtain ⟨m, fs1, rfl, hn, hes⟩ := h1
    rw [relEntries] at h2
    obtain ⟨o, gs1, rfl, hm, hfs⟩ := h2
    rw [relEntries]
    exact ⟨o, gs1, rfl, relNode_comp R S T hRST n m o hn hm,
      relEntries_comp R S T hRST es fs1 gs1 hes hfs⟩
end

theorem relNode_imp (R S : TransField → TransField → Prop) (hRS : ∀ a b, R a b → S a b)
    (A B : MessageNode) (h : relNode R A B) : relNode S A B :=
  relNode_flip (fun a b => R b a) S (fun a b hab => hRS b a hab) B A
    (relNode_flip R (fun a b => R b a) (fun _ _ hab => hab) A B h)

theorem relEntries_keys (R : TransField → TransField → Prop) :
    ∀ es fs : List (String × MessageNode), relEntries R es fs →
      es.map Prod.fst = fs.map Prod.fst
  | [], fs => by
    intro h
    rw [relEntries] at h
    subst h
    rfl
  | (k, n) :: es, fs => by
    intro h
    rw [relEntries] at h
    obtain ⟨m, fs1, rfl, _, hes⟩ := h
    simp only [List.map_cons]
    rw [relEntries_keys R es fs1 hes]

theorem lookup_of_nodup_keys (l : List (String × MessageNode))
    (hnodup : (l.map Prod.fst).Nodup) (e : String × MessageNode) (he : e ∈ l) :
    l.lookup e.1 = some e.2 := by
  induction l with
  | nil => cases he
  | cons x rest ih =>
    rw [List.map_cons, List.nodup_cons] at hnodup
    rcases List.mem_cons.1 he with rfl | he1
    · obtain ⟨k, n⟩ := e
      simp [List.lookup]
    · have hne : e.1 ≠ x.1 := by
        intro heq
        exact hnodup.1 (heq ▸ List.mem_map.2 ⟨e, he1, rfl⟩)
      obtain ⟨k, n⟩ := x
      have hbeq : (e.1 == k) = false := by simpa using hne
      rw [List.lookup, hbeq]
      exact ih hnodup.2 he1

/-! ## Extraction under a policy that reuses old keys -/

theorem extractFields_sameKeys {σ : Type} (keyGetter : KeyGetter σ)
    (hreuse : ReusesOldKey keyGetter) (fs ps : List TransField)
    (hiso : List.Forall₂ (fun a b => a.fieldName = b.fieldName) fs ps)
    (hkeys : ∀ p ∈ ps, p.currentKey ≠ "") :
    ∀ s : σ,
      List.Forall₂ (fun a b => a.fieldName = b.fieldName ∧ a.currentKey = b.currentKey)
        (extractFields keyGetter s fs ps).stamped ps := by
  induction hiso with
  | nil =>
    intro s
    exact List.Forall₂.nil
  | @cons f p fs1 ps1 hname _ ih =>
    intro s
    have hp : p.currentKey ≠ "" := hkeys p (List.mem_cons_self _ _)
    have htail := ih (fun q hq => hkeys q (List.mem_cons_of_mem _ hq))
      (keyGetter s p.currentKey f.text).2
    show List.Forall₂ _
      (⟨f.fieldName, (keyGetter s p.currentKey f.text).1, f.text⟩ ::
        (extractFields keyGetter (keyGetter s p.currentKey f.text).2 fs1 ps1).stamped)
      (p :: ps1)
    exact List.Forall₂.cons ⟨hname, hreuse _ _ _ hp⟩ htail

mutual
theorem extractNode_sameKeys {σ : Type} (keyGetter : KeyGetter σ)
    (hreuse : ReusesOldKey keyGetter) :
    ∀ current previous : MessageNode, Isomorphic current previous →
      (∀ k ∈ getTranslationKeys previous, k ≠ "") → DistinctMapKeys current →
      ∀ s : σ, SameKeys (extractNode keyGetter current (some previous) s).stamped previous
  | .mk fs cs, previous => by
    intro hiso hkeys hwf s
    unfold Isomorphic at hiso
    rw [relNode] at hiso
    obtain ⟨gs, ds, rfl, hf, hc⟩ := hiso
    rw [getTranslationKeys] at hkeys
    rw [DistinctMapKeys] at hwf
    show relNode _ (.mk (extractFields keyGetter s fs gs).stamped
      (extractChildren keyGetter cs ds (extractFields keyGetter s fs gs).state).stamped) _
    rw [relNode]
    refine ⟨gs, ds, rfl, ?_, ?_⟩
    · apply extractFields_sameKeys keyGetter hreuse fs gs hf
      intro p hp
      exact hkeys _ (List.mem_append_left _ (List.mem_map.2 ⟨p, hp, rfl⟩))
    · exact extractChildren_sameKeys keyGetter hreuse cs ds hc
        (fun k hk => hkeys k (List.mem_append_right _ hk)) hwf _
theorem extractChildren_sameKeys {σ : Type} (keyGetter : KeyGetter σ)
    (hreuse : ReusesOldKey keyGetter) :
    ∀ cs ds : List Child, relChildren (fun a b => a.fieldName = b.fieldName) cs ds →
      (∀ k ∈ getTranslationKeysChildren ds, k ≠ "") → distinctMapKeysChildren cs →
      ∀ s : σ,
        relChildren (fun a b => a.fieldName = b.fieldName ∧ a.currentKey = b.currentKey)
          (extractChildren keyGetter cs ds s).stamped ds
  | [], ds => by
    intro hiso _ _ s
    rw [relChildren] at hiso
    subst hiso
    show relChildren _ [] []
    rw [relChildren]
  | c :: cs, ds => by
    intro hiso hkeys hwf s
    rw [relChildren] at hiso
    obtain ⟨d, ds1, rfl, hc, hcs⟩ := hiso
    rw [getTranslationKeysChildren] at hkeys
    rw [distinctMapKeysChildren] at hwf
    show relChildren _
      ((extractChild keyGetter c (some d) s).stamped ::
        (extractChildren keyGetter cs ds1 (extractChild keyGetter c (some d) s).state).stamped) _
    rw [relChildren]
    exact ⟨d, ds1, rfl,
      extractChild_sameKeys keyGetter hreuse c d hc
        (fun k hk => hkeys k (List.mem_append_left _ hk)) hwf.1 _,
      extractChildren_sameKeys keyGetter hreuse cs ds1 hcs
        (fun k hk => hkeys k (List.mem_append_right _ hk)) hwf.2 _⟩
theorem extractChild_sameKeys {σ : Type} (keyGetter : KeyGetter σ)
    (hreuse : ReusesOldKey keyGetter) :
    ∀ c d : Child, relChild (fun a b => a.fieldName = b.fieldName) c d →
      (∀ k ∈ getTranslationKeysChild d, k ≠ "") → distinctMapKeysChild c →
      ∀ s : σ,
        relChild (fun a b => a.fieldName = b.fieldName ∧ a.currentKey = b.currentKey)
          (extractChild keyGetter c (some d) s).stamped d
  | .absent, d => by
    intro hiso _ _ s
    rw [relChild] at hiso
    subst hiso
    show relChild _ Child.absent Child.absent
    rw [relChild]
  | .single n, d => by
    intro hiso hkeys hwf s
    rw [relChild] at hiso
    obtain ⟨m, rfl, hn⟩ := hiso
    rw [getTranslationKeysChild] at hkeys
    rw [distinctMapKeysChild] at hwf
    show relChild _ (Child.single (extractNode keyGetter n (some m) s).stamped) _
    rw [relChild]
    exact ⟨m, rfl, extractNode_sameKeys keyGetter hreuse n m hn hkeys hwf s⟩
  | .array ns, d => by
    intro hiso hkeys hwf s
    rw [relChild] at hiso
    obtain ⟨ms, rfl, hn⟩ := hiso
    rw [getTranslationKeysChild] at hkeys
    rw [distinctMapKeysChild] at hwf
    show relChild _ (Child.array (extractNodes keyGetter ns ms s).stamped) _
    rw [relChild]
    exact ⟨ms, rfl, extractNodes_sameKeys keyGetter hreuse ns ms hn hkeys hwf s⟩
  | .map es, d => by
    intro hiso hkeys hwf s
    rw [relChild] at hiso
    obtain ⟨fs, rfl, hn⟩ := hiso
    rw [getTranslationKeysChild] at hkeys
    rw [distinctMapKeysChild] at hwf
    show relChild _ (Child.map (extractEntries keyGetter es fs s).stamped) _
    rw [relChild]
    refine ⟨fs, rfl, extractEntries_sameKeys keyGetter hreuse fs es fs hn hkeys hwf.2 ?_ s⟩
    have hnodup : (fs.map Prod.fst).Nodup := by
      rw [← relEntries_keys _ es fs hn]
      exact hwf.1
    exact fun e he => lookup_of_nodup_keys fs hnodup e he
theorem extractNodes_sameKeys {σ : Type} (keyGetter : KeyGetter σ)
    (hreuse : ReusesOldKey keyGetter) :
    ∀ ns ms : List MessageNode, relNodes (fun a b => a.fieldName = b.fieldName) ns ms →
      (∀ k ∈ getTranslationKeysNodes ms, k ≠ "") → distinctMapKeysNodes ns →
      ∀ s : σ,
        relNodes (fun a b => a.fieldName = b.fieldName ∧ a.currentKey = b.currentKey)
          (extractNodes keyGetter ns ms s).stamped ms
  | [], ms => by
    intro hiso _ _ s
    rw [relNodes] at hiso
    subst hiso
    show relNodes _ [] []
    rw [relNodes]
  | n :: ns, ms => by
    intro hiso hkeys hwf s
    rw [relNodes] at hiso
    obtain ⟨m, ms1, rfl, hn, hns⟩ := hiso
    rw [getTranslationKeysNodes] at hkeys
    rw [distinctMapKeysNodes] at hwf
    show relNodes _
      ((extractNode keyGetter n (some m) s).stamped ::
        (extractNodes keyGetter ns ms1 (extractNode keyGetter n (some m) s).state).stamped) _
    rw [relNodes]
    exact ⟨m, ms1, rfl,
      extractNode_sameKeys keyGetter hreuse n m hn
        (fun k hk => hkeys k (List.mem_append_left _ hk)) hwf.1 _,
      extractNodes_sameKeys keyGetter hreuse ns ms1 hns
        (fun k hk => hkeys k (List.mem_append_right _ hk)) hwf.2 _⟩
theorem extractEntries_sameKeys {σ : Type} (keyGetter : KeyGetter σ)
    (hreuse : ReusesOldKey keyGetter) (all : List (String × MessageNode)) :
    ∀ es fs : List (String × MessageNode),
      relEntries (fun a b => a.fieldName = b.fieldName) es fs →
      (∀ k ∈ getTranslationKeysEntries fs, k ≠ "") → distinctMapKeysEntries es →
      (∀ e ∈ fs, all.lookup e.1 = some e.2) →
      ∀ s : σ,
        relEntries (fun a b => a.fieldName = b.fieldName ∧ a.currentKey = b.currentKey)
          (extractEntries keyGetter es all s).stamped fs
  | [], fs => by
    intro hiso _ _ _ s
    rw [relEntries] at hiso
    subst hiso
    show relEntries _ [] []
    rw [relEntries]
  | (k, n) :: es, fs => by
    intro hiso hkeys hwf hall s
    rw [relEntries] at hiso
    obtain ⟨m, fs1, rfl, hn, hes⟩ := hiso
    rw [getTranslationKeysEntries] at hkeys
    rw [distinctMapKeysEntries] at hwf
    have hlook : all.lookup k = some m := hall (k, m) (List.mem_cons_self _ _)
    show relEntries _
      ((k, (extractNode keyGetter n (all.lookup k) s).stamped) ::
        (extractEntries keyGetter es all
          (extractNode keyGetter n (all.lookup k) s).state).stamped) _
    rw [relEntries, hlook]
    exact ⟨m, fs1, rfl,
      extractNode_sameKeys keyGetter hreuse n m hn
        (fun k hk => hkeys k (List.mem_append_left _ hk)) hwf.1 _,
      extractEntries_sameKeys keyGetter hreuse all es fs1 hes
        (fun k hk => hkeys k (List.mem_append_right _ hk)) hwf.2
        (fun e he => hall e (List.mem_cons_of_mem _ he)) _⟩
end

theorem forall₂_keys {R : TransField → TransField → Prop}
    (hR : ∀ a b, R a b → a.currentKey = b.currentKey) {fs gs : List TransField}
    (h : List.Forall₂ R fs gs) :
    fs.map (fun f => f.currentKey) = gs.map (fun f => f.currentKey) := by
  induction h with
  | nil => rfl
  | cons hab _ ih => rw [List.map_cons, List.map_cons, hR _ _ hab, ih]

mutual
theorem getTranslationKeys_rel (R : TransField → TransField → Prop)
    (hR : ∀ a b, R a b → a.currentKey = b.currentKey) :
    ∀ A B : MessageNode, relNode R A B → getTranslationKeys A = getTranslationKeys B
  | .mk fs cs, B => by
    intro h
    rw [relNode] at h
    obtain ⟨gs, ds, rfl, hf, hc⟩ := h
    rw [getTranslationKeys, getTranslationKeys, forall₂_keys hR hf,
      getTranslationKeysChildren_rel R hR cs ds hc]
theorem getTranslationKeysChildren_rel (R : TransField → TransField → Prop)
    (hR : ∀ a b, R a b → a.currentKey = b.currentKey) :
    ∀ cs ds : List Child, relChildren R cs ds →
      getTranslationKeysChildren cs = getTranslationKeysChildren ds
  | [], ds => by
    intro h
    rw [relChildren] at h
    subst h
    rfl
  | c :: cs, ds => by
    intro h
    rw [relChildren] at h
    obtain ⟨d, ds1, rfl, hc, hcs⟩ := h
    rw [getTranslationKeysChildren, getTranslationKeysChildren,
      getTranslationKeysChild_rel R hR c d hc, getTranslationKeysChildren_rel R hR cs ds1 hcs]
theorem getTranslationKeysChild_rel (R : TransField → TransField → Prop)
    (hR : ∀ a b, R a b → a.currentKey = b.currentKey) :
    ∀ c d : Child, relChild R c d → getTranslationKeysChild c = getTranslationKeysChild d
  | .absent, d => by
    intro h
    rw [relChild] at h
    subst h
    rfl
  | .single n, d => by
    intro h
    rw [relChild] at h
    obtain ⟨m, rfl, hn⟩ := h
    rw [getTranslationKeysChild, getTranslationKeysChild, getTranslationKeys_rel R hR n m hn]
  | .array ns, d => by
    intro h
    rw [relChild] at h
    obtain ⟨ms, rfl, hn⟩ := h
    rw [getTranslationKeysChild, getTranslationKeysChild,
      getTranslationKeysNodes_rel R hR ns ms hn]
  | .map es, d => by
    intro h
    rw [relChild] at h
    obtain ⟨fs, rfl, hn⟩ := h
    rw [getTranslationKeysChild, getTranslationKeysChild,
      getTranslationKeysEntries_rel R hR es fs hn]
theorem getTranslationKeysNodes_rel (R : TransField → TransField → Prop)
    (hR : ∀ a b, R a b → a.currentKey = b.currentKey) :
    ∀ ns ms : List MessageNode, relNodes R ns ms →
      getTranslationKeysNodes ns = getTranslationKeysNodes ms
  | [], ms => by
    intro h
    rw [relNodes] at h
    subst h
    rfl
  | n :: ns, ms => by
    intro h
    rw [relNodes] at h
    obtain ⟨m, ms1, rfl, hn, hns⟩ := h
    rw [getTranslationKeysNodes, getTranslationKeysNodes, getTranslationKeys_rel R hR n m hn,
      getTranslationKeysNodes_rel R hR ns ms1 hns]
theorem getTranslationKeysEntries_rel (R : TransField → TransField → Prop)
    (hR : ∀ a b, R a b → a.currentKey = b.currentKey) :
    ∀ es fs : List (String × MessageNode), relEntries R es fs →
      getTranslationKeysEntries es = getTranslationKeysEntries fs
  | [], fs => by
    intro h
    rw [relEntries] at h
    subst h
    rfl
  | (k, n) :: es, fs => by
    intro h
    rw [relEntries] at h
    obtain ⟨m, fs1, rfl, hn, hes⟩ := h
    rw [getTranslationKeysEntries, getTranslationKeysEntries,
      getTranslationKeys_rel R hR n m hn, getTranslationKeysEntries_rel R hR es fs1 hes]
end

theorem japaneseKeyGetter_reusesOldKey (newSHA1 : String → String) :
    ReusesOldKey (statelessKeyGetter (japaneseKeyGetter.GetKey newSHA1)) := by
  intro s oldKey text h
  show japaneseKeyGetter.GetKey newSHA1 oldKey text = oldKey
  unfold japaneseKeyGetter.GetKey
  rw [if_pos h]

/-- C13: under a policy that returns the old key when it is not empty, whatever state the
policy holds, extracting a current instance against a previous instance of the same shape
whose fields all carry non-empty keys stamps every field of the current instance with the
key of the corresponding previous field, and `GetTranslationKeys` of the stamped current
instance equals `GetTranslationKeys` of the previous instance. -/
theorem extractTranslations_reuses_keys {σ : Type} (keyGetter : KeyGetter σ)
    (hreuse : ReusesOldKey keyGetter) (current previous : MessageNode)
    (hiso : Isomorphic current previous)
    (hkeys : ∀ k ∈ getTranslationKeys previous, k ≠ "")
    (hmaps : DistinctMapKeys current) (s : σ) :
    SameKeys (extractNode keyGetter current (some previous) s).stamped previous ∧
    getTranslationKeys (extractNode keyGetter current (some previous) s).stamped =
      getTranslationKeys previous := by
  have h := extractNode_sameKeys keyGetter hreuse current previous hiso hkeys hmaps s
  exact ⟨h, getTranslationKeys_rel _ (fun _ _ hab => hab.2) _ _ h⟩

/-! ## Building shape relations on given trees -/

theorem relNode_mk (R : TransField → TransField → Prop) {fs gs : List TransField}
    {cs ds : List Child} (hf : List.Forall₂ R fs gs) (hc : relChildren R cs ds) :
    relNode R (.mk fs cs) (.mk gs ds) := by
  rw [relNode]
  exact ⟨gs, ds, rfl, hf, hc⟩

theorem relChildren_nil (R : TransField → TransField → Prop) : relChildren R [] [] := by
  rw [relChildren]

theorem relChildren_cons (R : TransField → TransField → Prop) {c d : Child}
    {cs ds : List Child} (hc : relChild R c d) (hcs : relChildren R cs ds) :
    relChildren R (c :: cs) (d :: ds) := by
  rw [relChildren]
  exact ⟨d, ds, rfl, hc, hcs⟩

theorem relChild_absent (R : TransField → TransField → Prop) :
    relChild R Child.absent Child.absent := by
  rw [relChild]

theorem relChild_single (R : TransField → TransField → Prop) {n m : MessageNode}
    (h : relNode R n m) : relChild R (.single n) (.single m) := by
  rw [relChild]
  exact ⟨m, rfl, h⟩

theorem relChild_array (R : TransField → TransField → Prop) {ns ms : List MessageNode}
    (h : relNodes R ns ms) : relChild R (.array ns) (.array ms) := by
  rw [relChild]
  exact ⟨ms, rfl, h⟩

theorem relChild_map (R : TransField → TransField → Prop)
    {es fs : List (String × MessageNode)} (h : relEntries R es fs) :
    relChild R (.map es) (.map fs) := by
  rw [relChild]
  exact ⟨fs, rfl, h⟩

theorem relNodes_nil (R : TransField → TransField → Prop) : relNodes R [] [] := by
  rw [relNodes]

theorem relNodes_cons (R : TransField → TransField → Prop) {n m : MessageNode}
    {ns ms : List MessageNode} (hn : relNode R n m) (hns : relNodes R ns ms) :
    relNodes R (n :: ns) (m :: ms) := by
  rw [relNodes]
  exact ⟨m, ms, rfl, hn, hns⟩

theorem relEntries_nil (R : TransField → TransField → Prop) : relEntries R [] [] := by
  rw [relEntries]

theorem relEntries_cons (R : TransField → TransField → Prop) (k : String) {n m : MessageNode}
    {es fs : List (String × MessageNode)} (hn : relNode R n m) (hes : relEntries R es fs) :
    relEntries R ((k, n) :: es) ((k, m) :: fs) := by
  rw [relEntries]
  exact ⟨m, fs, rfl, hn, hes⟩

theorem relNode_leaf (R : TransField → TransField → Prop) {f g : TransField} (h : R f g) :
    relNode R (.mk [f] []) (.mk [g] []) :=
  relNode_mk R (List.Forall₂.cons h List.Forall₂.nil) (relChildren_nil R)

theorem sampleEnglishWithKeys_eq :
    sampleEnglishWithKeys =
      .mk [⟨"name1", "<book>", "book"⟩, ⟨"name3", "<person>", "person"⟩]
        [.single (.mk [⟨"name", "<inner>", "inner"⟩] []),
         .array [.mk [⟨"name", "<one>", "one"⟩] [], .mk [⟨"name", "<two>", "two"⟩] []],
         .map [("1", .mk [⟨"name", "<first>", "first"⟩] []),
           ("2", .mk [⟨"name", "<second>", "second"⟩] [])]] := rfl

theorem isomorphic_sampleJapanese_sampleEnglishWithKeys :
    Isomorphic sampleJapanese sampleEnglishWithKeys := by
  rw [sampleEnglishWithKeys_eq]
  exact relNode_mk _ (List.Forall₂.cons rfl (List.Forall₂.cons rfl List.Forall₂.nil))
    (relChildren_cons _ (relChild_single _ (relNode_leaf _ rfl))
      (relChildren_cons _
        (relChild_array _
          (relNodes_cons _ (relNode_leaf _ rfl)
            (relNodes_cons _ (relNode_leaf _ rfl) (relNodes_nil _))))
        (relChildren_cons _
          (relChild_map _
            (relEntries_cons _ "1" (relNode_leaf _ rfl)
              (relEntries_cons _ "2" (relNode_leaf _ rfl) (relEntries_nil _))))
          (relChildren_nil _))))

theorem distinctMapKeys_sampleJapanese : DistinctMapKeys sampleJapanese := by
  simp [DistinctMapKeys, distinctMapKeysChildren, distinctMapKeysChild, distinctMapKeysNodes,
    distinctMapKeysEntries, sampleJapanese]

theorem extractTranslations_reuses_keys_witness :
    ReusesOldKey (statelessKeyGetter (japaneseKeyGetter.GetKey sampleSHA1)) ∧
    Isomorphic sampleJapanese sampleEnglishWithKeys ∧
    (∀ k ∈ getTranslationKeys sampleEnglishWithKeys, k ≠ "") ∧
    DistinctMapKeys sampleJapanese ∧
    getTranslationKeys
        (extractNode (statelessKeyGetter (japaneseKeyGetter.GetKey sampleSHA1)) sampleJapanese
          (some sampleEnglishWithKeys) ()).stamped =
      ["<book>", "<person>", "<inner>", "<one>", "<two>", "<first>", "<second>"] :=
  ⟨japaneseKeyGetter_reusesOldKey sampleSHA1, isomorphic_sampleJapanese_sampleEnglishWithKeys,
    by decide, distinctMapKeys_sampleJapanese,
    (extractTranslations_reuses_keys (statelessKeyGetter (japaneseKeyGetter.GetKey sampleSHA1))
      (japaneseKeyGetter_reusesOldKey sampleSHA1) sampleJapanese sampleEnglishWithKeys
      isomorphic_sampleJapanese_sampleEnglishWithKeys (by decide)
      distinctMapKeys_sampleJapanese ()).2⟩

/-! ## Extraction keeps the texts and returns the stamped pairs -/

theorem extractFields_sameText {σ : Type} (keyGetter : KeyGetter σ) (fs : List TransField) :
    ∀ (s : σ) (ps : List TransField),
      List.Forall₂ (fun a b => a.fieldName = b.fieldName ∧ a.text = b.text)
        (extractFields keyGetter s fs ps).stamped fs := by
  induction fs with
  | nil =>
    intro s ps
    exact List.Forall₂.nil
  | cons f rest ih =>
    intro s ps
    exact List.Forall₂.cons ⟨rfl, rfl⟩ (ih _ ps.tail)

theorem extractFields_map {σ : Type} (keyGetter : KeyGetter σ) (fs : List TransField) :
    ∀ (s : σ) (ps : List TransField),
      (extractFields keyGetter s fs ps).translations =
        (extractFields keyGetter s fs ps).stamped.map (fun f => (f.currentKey, f.text)) := by
  induction fs with
  | nil =>
    intro s ps
    rfl
  | cons f rest ih =>
    intro s ps
    exact congrArg (List.cons _) (ih _ ps.tail)

mutual
theorem extractNode_sameText {σ : Type} (keyGetter : KeyGetter σ) :
    ∀ (current : MessageNode) (previous : Option MessageNode) (s : σ),
      SameText (extractNode keyGetter current previous s).stamped current
  | .mk fs cs, previous, s => by
    show relNode _ (.mk (extractFields keyGetter s fs (previousFields previous)).stamped
      (extractChildren keyGetter cs (previousChildren previous)
        (extractFields keyGetter s fs (previousFields previous)).state).stamped) _
    exact relNode_mk _ (extractFields_sameText keyGetter fs _ _)
      (extractChildren_sameText keyGetter cs _ _)
theorem extractChildren_sameText {σ : Type} (keyGetter : KeyGetter σ) :
    ∀ (cs previous : List Child) (s : σ),
      relChildren (fun a b => a.fieldName = b.fieldName ∧ a.text = b.text)
        (extractChildren keyGetter cs previous s).stamped cs
  | [], previous, s => relChildren_nil _
  | c :: cs, previous, s => by
    show relChildren _
      ((extractChild keyGetter c previous.head? s).stamped ::
        (extractChildren keyGetter cs previous.tail
          (extractChild keyGetter c previous.head? s).state).stamped) _
    exact relChildren_cons _ (extractChild_sameText keyGetter c _ _)
      (extractChildren_sameText keyGetter cs _ _)
theorem extractChild_sameText {σ : Type} (keyGetter : KeyGetter σ) :
    ∀ (c : Child) (previous : Option Child) (s : σ),
      relChild (fun a b => a.fieldName = b.fieldName ∧ a.text = b.text)
        (extractChild keyGetter c previous s).stamped c
  | .absent, previous, s => relChild_absent _
  | .single n, previous, s => by
    show relChild _ (Child.single (extractNode keyGetter n (previousSingle previous) s).stamped) _
    exact relChild_single _ (extractNode_sameText keyGetter n _ _)
  | .array ns, previous, s => by
    show relChild _ (Child.array (extractNodes keyGetter ns (previousArray previous) s).stamped) _
    exact relChild_array _ (extractNodes_sameText keyGetter ns _ _)
  | .map es, previous, s => by
    show relChild _ (Child.map (extractEntries keyGetter es (previousMap previous) s).stamped) _
    exact relChild_map _ (extractEntries_sameText keyGetter es _ _)
theorem extractNodes_sameText {σ : Type} (keyGetter : KeyGetter σ) :
    ∀ (ns previous : List MessageNode) (s : σ),
      relNodes (fun a b => a.fieldName = b.fieldName ∧ a.text = b.text)
        (extractNodes keyGetter ns previous s).stamped ns
  | [], previous, s => relNodes_nil _
  | n :: ns, previous, s => by
    show relNodes _
      ((extractNode keyGetter n previous.head? s).stamped ::
        (extractNodes keyGetter ns previous.tail
          (extractNode keyGetter n previous.head? s).state).stamped) _
    exact relNodes_cons _ (extractNode_sameText keyGetter n _ _)
      (extractNodes_sameText keyGetter ns _ _)
theorem extractEntries_sameText {σ : Type} (keyGetter : KeyGetter σ) :
    ∀ (es previous : List (String × MessageNode)) (s : σ),
      relEntries (fun a b => a.fieldName = b.fieldName ∧ a.text = b.text)
        (extractEntries keyGetter es previous s).stamped es
  | [], previous, s => relEntries_nil _
  | (k, n) :: es, previous, s => by
    show relEntries _
      ((k, (extractNode keyGetter n (previous.lookup k) s).stamped) ::
        (extractEntries keyGetter es previous
          (extractNode keyGetter n (previous.lookup k) s).state).stamped) _
    exact relEntries_cons _ k (extractNode_sameText keyGetter n _ _)
      (extractEntries_sameText keyGetter es _ _)
end

mutual
theorem extractNode_map {σ : Type} (keyGetter : KeyGetter σ) :
    ∀ (current : MessageNode) (previous : Option MessageNode) (s : σ),
      (extractNode keyGetter current previous s).translations =
        fieldEntries (extractNode keyGetter current previous s).stamped
  | .mk fs cs, previous, s => by
    show (extractFields keyGetter s fs (previousFields previous)).translations ++
        (extractChildren keyGetter cs (previousChildren previous)
          (extractFields keyGetter s fs (previousFields previous)).state).translations =
      fieldEntries (.mk (extractFields keyGetter s fs (previousFields previous)).stamped
        (extractChildren keyGetter cs (previousChildren previous)
          (extractFields keyGetter s fs (previousFields previous)).state).stamped)
    rw [fieldEntries, extractFields_map, extractChildren_map keyGetter cs _ _]
theorem extractChildren_map {σ : Type} (keyGetter : KeyGetter σ) :
    ∀ (cs previous : List Child) (s : σ),
      (extractChildren keyGetter cs previous s).translations =
        fieldEntriesChildren (extractChildren keyGetter cs previous s).stamped
  | [], previous, s => rfl
  | c :: cs, previous, s => by
    show (extractChild keyGetter c previous.head? s).translations ++
        (extractChildren keyGetter cs previous.tail
          (extractChild keyGetter c previous.head? s).state).translations =
      fieldEntriesChildren ((extractChild keyGetter c previous.head? s).stamped ::
        (extractChildren keyGetter cs previous.tail
          (extractChild keyGetter c previous.head? s).state).stamped)
    rw [fieldEntriesChildren, extractChild_map keyGetter c _ _,
      extractChildren_map keyGetter cs _ _]
theorem extractChild_map {σ : Type} (keyGetter : KeyGetter σ) :
    ∀ (c : Child) (previous : Option Child) (s : σ),
      (extractChild keyGetter c previous s).translations =
        fieldEntriesChild (extractChild keyGetter c previous s).stamped
  | .absent, previous, s => rfl
  | .single n, previous, s => by
    show (extractNode keyGetter n (previousSingle previous) s).translations =
      fieldEntriesChild
        (Child.single (extractNode keyGetter n (previousSingle previous) s).stamped)
    rw [fieldEntriesChild, extractNode_map keyGetter n _ _]
  | .array ns, previous, s => by
    show (extractNodes keyGetter ns (previousArray previous) s).translations =
      fieldEntriesChild
        (Child.array (extractNodes keyGetter ns (previousArray previous) s).stamped)
    rw [fieldEntriesChild, extractNodes_map keyGetter ns _ _]
  | .map es, previous, s => by
    show (extractEntries keyGetter es (previousMap previous) s).translations =
      fieldEntriesChild
        (Child.map (extractEntries keyGetter es (previousMap previous) s).stamped)
    rw [fieldEntriesChild, extractEntries_map keyGetter es _ _]
theorem extractNodes_map {σ : Type} (keyGetter : KeyGetter σ) :
    ∀ (ns previous : List MessageNode) (s : σ),
      (extractNodes keyGetter ns previous s).translations =
        fieldEntriesNodes (extractNodes keyGetter ns previous s).stamped
  | [], previous, s => rfl
  | n :: ns, previous, s => by
    show (extractNode keyGetter n previous.head? s).translations ++
        (extractNodes keyGetter ns previous.tail
          (extractNode keyGetter n previous.head? s).state).translations =
      fieldEntriesNodes ((extractNode keyGetter n previous.head? s).stamped ::
        (extractNodes keyGetter ns previous.tail
          (extractNode keyGetter n previous.head? s).state).stamped)
    rw [fieldEntriesNodes, extractNode_map keyGetter n _ _, extractNodes_map keyGetter ns _ _]
theorem extractEntries_map {σ : Type} (keyGetter : KeyGetter σ) :
    ∀ (es previous : List (String × MessageNode)) (s : σ),
      (extractEntries keyGetter es previous s).translations =
        fieldEntriesEntries (extractEntries keyGetter es previous s).stamped
  | [], previous, s => rfl
  | (k, n) :: es, previous, s => by
    show (extractNode keyGetter n (previous.lookup k) s).translations ++
        (extractEntries keyGetter es previous
          (extractNode keyGetter n (previous.lookup k) s).state).translations =
      fieldEntriesEntries ((k, (extractNode keyGetter n (previous.lookup k) s).stamped) ::
        (extractEntries keyGetter es previous
          (extractNode keyGetter n (previous.lookup k) s).state).stamped)
    rw [fieldEntriesEntries, extractNode_map keyGetter n _ _,
      extractEntries_map keyGetter es _ _]
end

mutual
theorem getTranslationKeys_eq_map (n : MessageNode) :
    getTranslationKeys n = (fieldEntries n).map Prod.fst :=
  match n with
  | .mk fs cs => by
    rw [getTranslationKeys, fieldEntries, List.map_append, List.map_map,
      getTranslationKeysChildren_eq_map cs]
    rfl
theorem getTranslationKeysChildren_eq_map (cs : List Child) :
    getTranslationKeysChildren cs = (fieldEntriesChildren cs).map Prod.fst :=
  match cs with
  | [] => rfl
  | c :: cs => by
    rw [getTranslationKeysChildren, fieldEntriesChildren, List.map_append,
      getTranslationKeysChild_eq_map c, getTranslationKeysChildren_eq_map cs]
theorem getTranslationKeysChild_eq_map (c : Child) :
    getTranslationKeysChild c = (fieldEntriesChild c).map Prod.fst :=
  match c with
  | .absent => rfl
  | .single n => by
    rw [getTranslationKeysChild, fieldEntriesChild, getTranslationKeys_eq_map n]
  | .array ns => by
    rw [getTranslationKeysChild, fieldEntriesChild, getTranslationKeysNodes_eq_map ns]
  | .map es => by
    rw [getTranslationKeysChild, fieldEntriesChild, getTranslationKeysEntries_eq_map es]
theorem getTranslationKeysNodes_eq_map (ns : List MessageNode) :
    getTranslationKeysNodes ns = (fieldEntriesNodes ns).map Prod.fst :=
  match ns with
  | [] => rfl
  | n :: ns => by
    rw [getTranslationKeysNodes, fieldEntriesNodes, List.map_append,
      getTranslationKeys_eq_map n, getTranslationKeysNodes_eq_map ns]
theorem getTranslationKeysEntries_eq_map (es : List (String × MessageNode)) :
    getTranslationKeysEntries es = (fieldEntriesEntries es).map Prod.fst :=
  match es with
  | [] => rfl
  | (k, n) :: es => by
    rw [getTranslationKeysEntries, fieldEntriesEntries, List.map_append,
      getTranslationKeys_eq_map n, getTranslationKeysEntries_eq_map es]
end

/-! ## Translation of a stamped tree -/

theorem TranslationMap.lookup_append_singleton (m : TranslationMap) (e : String × String)
    (key : String) :
    TranslationMap.lookup (m ++ [e]) key =
      if e.1 = key then e.2 else TranslationMap.lookup m key := by
  unfold TranslationMap.lookup
  rw [List.foldl_append]
  rfl

theorem TranslationMap.lookup_of_nodup (m : TranslationMap)
    (hnodup : (m.map Prod.fst).Nodup) (e : String × String) (he : e ∈ m) :
    TranslationMap.lookup m e.1 = e.2 := by
  induction m using List.reverseRecOn with
  | nil => cases he
  | append_singleton rest x ih =>
    rw [TranslationMap.lookup_append_singleton]
    rw [List.map_append, List.nodup_append] at hnodup
    rcases List.mem_append.1 he with he1 | he2
    · have hne : ¬ (x.1 = e.1) := by
        intro heq
        exact hnodup.2.2 (List.mem_map.2 ⟨e, he1, rfl⟩) (by simp [heq])
      rw [if_neg hne]
      exact ih hnodup.1 he1
    · have hx : e = x := by simpa using he2
      rw [hx, if_pos rfl]

theorem translateFields_sameText (lookup : String → String) (ys xs : List TransField)
    (hkeys : List.Forall₂
      (fun a b => a.fieldName = b.fieldName ∧ a.currentKey = b.currentKey) ys xs)
    (hlook : ∀ x ∈ xs, lookup x.currentKey = x.text) :
    List.Forall₂ (fun a b => a.fieldName = b.fieldName ∧ a.text = b.text)
      (ys.map (fun f => (⟨f.fieldName, f.currentKey, lookup f.currentKey⟩ : TransField))) xs := by
  induction hkeys with
  | nil => exact List.Forall₂.nil
  | @cons y x ys1 xs1 hyx _ ih =>
    rw [List.map_cons]
    refine List.Forall₂.cons ⟨hyx.1, ?_⟩ (ih (fun z hz => hlook z (List.mem_cons_of_mem _ hz)))
    show lookup y.currentKey = x.text
    rw [hyx.2]
    exact hlook x (List.mem_cons_self _ _)

mutual
theorem translateNode_sameText (lookup : String → String) :
    ∀ Y X : MessageNode, SameKeys Y X →
      (∀ e ∈ fieldEntries X, lookup e.1 = e.2) → SameText (translateNode lookup Y) X
  | .mk ys cs, X => by
    intro hkeys hlook
    unfold SameKeys at hkeys
    rw [relNode] at hkeys
    obtain ⟨xs, ds, rfl, hf, hc⟩ := hkeys
    rw [fieldEntries] at hlook
    rw [translateNode]
    refine relNode_mk _ (translateFields_sameText lookup ys xs hf ?_)
      (translateChildren_sameText lookup cs ds hc
        (fun e he => hlook e (List.mem_append_right _ he)))
    intro x hx
    exact hlook (x.currentKey, x.text) (List.mem_append_left _ (List.mem_map.2 ⟨x, hx, rfl⟩))
theorem translateChildren_sameText (lookup : String → String) :
    ∀ cs ds : List Child,
      relChildren (fun a b => a.fieldName = b.fieldName ∧ a.currentKey = b.currentKey) cs ds →
      (∀ e ∈ fieldEntriesChildren ds, lookup e.1 = e.2) →
      relChildren (fun a b => a.fieldName = b.fieldName ∧ a.text = b.text)
        (translateChildren lookup cs) ds
  | [], ds => by
    intro hkeys _
    rw [relChildren] at hkeys
    subst hkeys
    rw [translateChildren]
    exact relChildren_nil _
  | c :: cs, ds => by
    intro hkeys hlook
    rw [relChildren] at hkeys
    obtain ⟨d, ds1, rfl, hc, hcs⟩ := hkeys
    rw [fieldEntriesChildren] at hlook
    rw [translateChildren]
    exact relChildren_cons _
      (translateChild_sameText lookup c d hc (fun e he => hlook e (List.mem_append_left _ he)))
      (translateChildren_sameText lookup cs ds1 hcs
        (fun e he => hlook e (List.mem_append_right _ he)))
theorem translateChild_sameText (lookup : String → String) :
    ∀ c d : Child,
      relChild (fun a b => a.fieldName = b.fieldName ∧ a.currentKey = b.currentKey) c d →
      (∀ e ∈ fieldEntriesChild d, lookup e.1 = e.2) →
      relChild (fun a b => a.fieldName = b.fieldName ∧ a.text = b.text)
        (translateChild lookup c) d
  | .absent, d => by
    intro hkeys _
    rw [relChild] at hkeys
    subst hkeys
    rw [translateChild]
    exact relChild_absent _
  | .single n, d => by
    intro hkeys hlook
    rw [relChild] at hkeys
    obtain ⟨m, rfl, hn⟩ := hkeys
    rw [fieldEntriesChild] at hlook
    rw [translateChild]
    exact relChild_single _ (translateNode_sameText lookup n m hn hlook)
  | .array ns, d => by
    intro hkeys hlook
    rw [relChild] at hkeys
    obtain ⟨ms, rfl, hn⟩ := hkeys
    rw [fieldEntriesChild] at hlook
    rw [translateChild]
    exact relChild_array _ (translateNodes_sameText lookup ns ms hn hlook)
  | .map es, d => by
    intro hkeys hlook
    rw [relChild] at hkeys
    obtain ⟨fs, rfl, hn⟩ := hkeys
    rw [fieldEntriesChild] at hlook
    rw [translateChild]
    exact relChild_map _ (translateEntries_sameText lookup es fs hn hlook)
theorem translateNodes_sameText (lookup : String → String) :
    ∀ ns ms : List MessageNode,
      relNodes (fun a b => a.fieldName = b.fieldName ∧ a.currentKey = b.currentKey) ns ms →
      (∀ e ∈ fieldEntriesNodes ms, lookup e.1 = e.2) →
      relNodes (fun a b => a.fieldName = b.fieldName ∧ a.text = b.text)
        (translateNodes lookup ns) ms
  | [], ms => by
    intro hkeys _
    rw [relNodes] at hkeys
    subst hkeys
    rw [translateNodes]
    exact relNodes_nil _
  | n :: ns, ms => by
    intro hkeys hlook
    rw [relNodes] at hkeys
    obtain ⟨m, ms1, rfl, hn, hns⟩ := hkeys
    rw [fieldEntriesNodes] at hlook
    rw [translateNodes]
    exact relNodes_cons _
      (translateNode_sameText lookup n m hn (fun e he => hlook e (List.mem_append_left _ he)))
      (translateNodes_sameText lookup ns ms1 hns
        (fun e he => hlook e (List.mem_append_right _ he)))
theorem translateEntries_sameText (lookup : String → String) :
    ∀ es fs : List (String × MessageNode),
      relEntries (fun a b => a.fieldName = b.fieldName ∧ a.currentKey = b.currentKey) es fs →
      (∀ e ∈ fieldEntriesEntries fs, lookup e.1 = e.2) →
      relEntries (fun a b => a.fieldName = b.fieldName ∧ a.text = b.text)
        (translateEntries lookup es) fs
  | [], fs => by
    intro hkeys _
    rw [relEntries] at hkeys
    subst hkeys
    rw [translateEntries]
    exact relEntries_nil _
  | (k, n) :: es, fs => by
    intro hkeys hlook
    rw [relEntries] at hkeys
    obtain ⟨m, fs1, rfl, hn, hes⟩ := hkeys
    rw [fieldEntriesEntries] at hlook
    rw [translateEntries]
    exact relEntries_cons _ k
      (translateNode_sameText lookup n m hn (fun e he => hlook e (List.mem_append_left _ he)))
      (translateEntries_sameText lookup es fs1 hes
        (fun e he => hlook e (List.mem_append_right _ he)))
end

/-- Translating a tree that carries the keys of a stamped tree, with the map extracted
along with that stamped tree, gives the texts of the stamped tree, when its keys are
pairwise distinct. -/
theorem translate_with_extracted_map {σ : Type} (keyGetter : KeyGetter σ)
    (current : MessageNode) (previous : Option MessageNode) (s : σ) (Y : MessageNode)
    (hkeys : SameKeys Y (extractNode keyGetter current previous s).stamped)
    (hdistinct : (getTranslationKeys (extractNode keyGetter current previous s).stamped).Nodup) :
    SameText
      (translateNode
        (TranslationMap.lookup (extractNode keyGetter current previous s).translations) Y)
      current := by
  have h1 : SameText
      (translateNode
        (TranslationMap.lookup (extractNode keyGetter current previous s).translations) Y)
      (extractNode keyGetter current previous s).stamped := by
    apply translateNode_sameText _ _ _ hkeys
    intro e he
    rw [extractNode_map]
    apply TranslationMap.lookup_of_nodup _ _ e he
    rw [← getTranslationKeys_eq_map]
    exact hdistinct
  exact relNode_comp _ _ _ (fun a b c hab hbc => ⟨hab.1.trans hbc.1, hab.2.trans hbc.2⟩) _ _ _
    h1 (extractNode_sameText keyGetter current previous s)

/-- After extraction against a stamped tree of the same shape under a policy that reuses old
keys, the stamped tree of the first extraction and the stamped tree of the second carry the
same keys, the first tree translates to the texts of the second under the second map, and
the second to the texts of the first under the first map. -/
theorem translate_both_ways {σA σB : Type} (keyGetterA : KeyGetter σA)
    (keyGetterB : KeyGetter σB) (sA : σA) (sB : σB) (A B : MessageNode)
    (hiso : Isomorphic A B) (hmaps : DistinctMapKeys B)
    (hnonempty : ∀ k ∈ getTranslationKeys (extractNode keyGetterA A none sA).stamped, k ≠ "")
    (hdistinct : (getTranslationKeys (extractNode keyGetterA A none sA).stamped).Nodup)
    (hreuse : ReusesOldKey keyGetterB) :
    SameText
      (translateNode (TranslationMap.lookup (extractNode keyGetterA A none sA).translations)
        (extractNode keyGetterB B (some (extractNode keyGetterA A none sA).stamped) sB).stamped)
      A ∧
    SameText
      (translateNode
        (TranslationMap.lookup
          (extractNode keyGetterB B (some (extractNode keyGetterA A none sA).stamped)
            sB).translations)
        (extractNode keyGetterA A none sA).stamped) B ∧
    SameText
      (translateNode
        (TranslationMap.lookup
          (extractNode keyGetterB B (some (extractNode keyGetterA A none sA).stamped)
            sB).translations)
        (extractNode keyGetterB B (some (extractNode keyGetterA A none sA).stamped) sB).stamped)
      B := by
  have hA : SameText (extractNode keyGetterA A none sA).stamped A :=
    extractNode_sameText keyGetterA A none sA
  have hBA : Isomorphic B (extractNode keyGetterA A none sA).stamped := by
    have h1 : Isomorphic B A := relNode_flip _ _ (fun a b hab => hab.symm) A B hiso
    have h2 : relNode (fun a b => a.fieldName = b.fieldName) A
        (extractNode keyGetterA A none sA).stamped :=
      relNode_flip _ _ (fun a b hab => hab.1.symm) _ _ hA
    exact relNode_comp _ _ _ (fun a b c hab hbc => hab.trans hbc) _ _ _ h1 h2
  have hkeys : SameKeys
      (extractNode keyGetterB B (some (extractNode keyGetterA A none sA).stamped) sB).stamped
      (extractNode keyGetterA A none sA).stamped :=
    extractNode_sameKeys keyGetterB hreuse B _ hBA hnonempty hmaps sB
  have hflip : SameKeys (extractNode keyGetterA A none sA).stamped
      (extractNode keyGetterB B (some (extractNode keyGetterA A none sA).stamped) sB).stamped :=
    relNode_flip _ _ (fun a b hab => ⟨hab.1.symm, hab.2.symm⟩) _ _ hkeys
  have hdistinctB : (getTranslationKeys
      (extractNode keyGetterB B (some (extractNode keyGetterA A none sA).stamped)
        sB).stamped).Nodup := by
    rw [getTranslationKeys_rel _ (fun _ _ hab => hab.2) _ _ hkeys]
    exact hdistinct
  refine ⟨translate_with_extracted_map keyGetterA A none sA _ hkeys hdistinct,
    translate_with_extracted_map keyGetterB B _ sB _ hflip hdistinctB,
    translate_with_extracted_map keyGetterB B _ sB _ ?_ hdistinctB⟩
  exact relNode_comp _ _ _ (fun a b c hab hbc => ⟨hab.1.trans hbc.1, hab.2.trans hbc.2⟩) _ _ _
    hkeys hflip

/-! ## Claims on the reconciliation engine -/

/-- C12: let `A` and `B` be structurally isomorphic instance trees (every map holding each
key once); let `A1` and `mapA` be the stamped instance and the translation map of
extracting `A` against no previous under a policy, with or without state, whose assigned
keys are non-empty and pairwise distinct, and `B1` and `mapB` those of extracting `B`
against `A1` under a policy that returns the old key when it is not empty. Then translating
`B1` with the lookup of `mapA` gives the text content of `A`, and translating `A1` with the
lookup of `mapB` gives the text content of `B`. -/
theorem extract_translate_round_trip {σA σB : Type} (keyGetterA : KeyGetter σA)
    (keyGetterB : KeyGetter σB) (sA : σA) (sB : σB) (A B : MessageNode)
    (hiso : Isomorphic A B) (hmaps : DistinctMapKeys B)
    (hnonempty : ∀ k ∈ getTranslationKeys (extractNode keyGetterA A none sA).stamped, k ≠ "")
    (hdistinct : (getTranslationKeys (extractNode keyGetterA A none sA).stamped).Nodup)
    (hreuse : ReusesOldKey keyGetterB) :
    SameText
      (translateNode (TranslationMap.lookup (extractNode keyGetterA A none sA).translations)
        (extractNode keyGetterB B (some (extractNode keyGetterA A none sA).stamped) sB).stamped)
      A ∧
    SameText
      (translateNode
        (TranslationMap.lookup
          (extractNode keyGetterB B (some (extractNode keyGetterA A none sA).stamped)
            sB).translations)
        (extractNode keyGetterA A none sA).stamped) B := by
  have h := translate_both_ways keyGetterA keyGetterB sA sB A B hiso hmaps hnonempty hdistinct
    hreuse
  exact ⟨h.1, h.2.1⟩

theorem isomorphic_sampleSameTexts_sampleOtherTexts :
    Isomorphic sampleSameTexts sampleOtherTexts :=
  relNode_mk _ (List.Forall₂.cons rfl (List.Forall₂.cons rfl List.Forall₂.nil))
    (relChildren_cons _
      (relChild_array _
        (relNodes_cons _ (relNode_leaf _ rfl)
          (relNodes_cons _ (relNode_leaf _ rfl) (relNodes_nil _))))
      (relChildren_cons _
        (relChild_map _
          (relEntries_cons _ "1" (relNode_leaf _ rfl)
            (relEntries_cons _ "2" (relNode_leaf _ rfl) (relEntries_nil _))))
        (relChildren_nil _)))

theorem distinctMapKeys_sampleOtherTexts : DistinctMapKeys sampleOtherTexts := by
  simp [DistinctMapKeys, distinctMapKeysChildren, distinctMapKeysChild, distinctMapKeysNodes,
    distinctMapKeysEntries, sampleOtherTexts]

theorem extract_translate_round_trip_witness :
    Isomorphic sampleSameTexts sampleOtherTexts ∧ DistinctMapKeys sampleOtherTexts ∧
    (∀ k ∈ getTranslationKeys (extractNode mintingKeyGetter sampleSameTexts none 0).stamped,
      k ≠ "") ∧
    (getTranslationKeys (extractNode mintingKeyGetter sampleSameTexts none 0).stamped).Nodup ∧
    ReusesOldKey (statelessKeyGetter (japaneseKeyGetter.GetKey sampleSHA1)) ∧
    SameText
      (translateNode
        (TranslationMap.lookup (extractNode mintingKeyGetter sampleSameTexts none 0).translations)
        (extractNode (statelessKeyGetter (japaneseKeyGetter.GetKey sampleSHA1)) sampleOtherTexts
          (some (extractNode mintingKeyGetter sampleSameTexts none 0).stamped) ()).stamped)
      sampleSameTexts ∧
    SameText
      (translateNode
        (TranslationMap.lookup
          (extractNode (statelessKeyGetter (japaneseKeyGetter.GetKey sampleSHA1))
            sampleOtherTexts
            (some (extractNode mintingKeyGetter sampleSameTexts none 0).stamped)
            ()).translations)
        (extractNode mintingKeyGetter sampleSameTexts none 0).stamped)
      sampleOtherTexts :=
  ⟨isomorphic_sampleSameTexts_sampleOtherTexts, distinctMapKeys_sampleOtherTexts, by decide,
    by decide, japaneseKeyGetter_reusesOldKey sampleSHA1,
    extract_translate_round_trip mintingKeyGetter
      (statelessKeyGetter (japaneseKeyGetter.GetKey sampleSHA1)) 0 () sampleSameTexts
      sampleOtherTexts isomorphic_sampleSameTexts_sampleOtherTexts
      distinctMapKeys_sampleOtherTexts (by decide) (by decide)
      (japaneseKeyGetter_reusesOldKey sampleSHA1)⟩

/-- The modelled engine at the input of `TestEmptyStrings`, for every `newSHA1` whose key of
the empty text is not empty: the English policy stamps the three empty strings of the array
with that one key, the Japanese policy reuses it at every position, the translation map
holds one text under it, and `Translate` of the stamped second instance with that map gives
`ghi` at all three positions. -/
theorem emptyStrings_translate_collapses (newSHA1 : String → String)
    (hkey : newSHA1 "" ≠ "") :
    translateNode
        (TranslationMap.lookup
          (extractNode (statelessKeyGetter (japaneseKeyGetter.GetKey newSHA1))
            (arrayInstance ["abc", "def", "ghi"])
            (some (extractNode (statelessKeyGetter (englishKeyGetter.GetKey newSHA1))
              (arrayInstance ["", "", ""]) none ()).stamped) ()).translations)
        (extractNode (statelessKeyGetter (japaneseKeyGetter.GetKey newSHA1))
          (arrayInstance ["abc", "def", "ghi"])
          (some (extractNode (statelessKeyGetter (englishKeyGetter.GetKey newSHA1))
            (arrayInstance ["", "", ""]) none ()).stamped) ()).stamped =
      .mk [⟨"array1", newSHA1 "", "ghi"⟩, ⟨"array1", newSHA1 "", "ghi"⟩,
        ⟨"array1", newSHA1 "", "ghi"⟩] [] := by
  have hA : (extractNode (statelessKeyGetter (englishKeyGetter.GetKey newSHA1))
      (arrayInstance ["", "", ""]) none ()).stamped =
      .mk [⟨"array1", newSHA1 "", ""⟩, ⟨"array1", newSHA1 "", ""⟩,
        ⟨"array1", newSHA1 "", ""⟩] [] := rfl
  rw [hA]
  have hjp : ∀ text, japaneseKeyGetter.GetKey newSHA1 (newSHA1 "") text = newSHA1 "" :=
    fun text => japaneseKeyGetter_reusesOldKey newSHA1 () _ text hkey
  have hB : extractNode (statelessKeyGetter (japaneseKeyGetter.GetKey newSHA1))
      (arrayInstance ["abc", "def", "ghi"])
      (some (.mk [⟨"array1", newSHA1 "", ""⟩, ⟨"array1", newSHA1 "", ""⟩,
        ⟨"array1", newSHA1 "", ""⟩] [])) () =
      ⟨.mk [⟨"array1", newSHA1 "", "abc"⟩, ⟨"array1", newSHA1 "", "def"⟩,
          ⟨"array1", newSHA1 "", "ghi"⟩] [],
        [(newSHA1 "", "abc"), (newSHA1 "", "def"), (newSHA1 "", "ghi")], ()⟩ := by
    show (⟨MessageNode.mk
        [⟨"array1", japaneseKeyGetter.GetKey newSHA1 (newSHA1 "") "abc", "abc"⟩,
         ⟨"array1", japaneseKeyGetter.GetKey newSHA1 (newSHA1 "") "def", "def"⟩,
         ⟨"array1", japaneseKeyGetter.GetKey newSHA1 (newSHA1 "") "ghi", "ghi"⟩] [],
        [(japaneseKeyGetter.GetKey newSHA1 (newSHA1 "") "abc", "abc"),
         (japaneseKeyGetter.GetKey newSHA1 (newSHA1 "") "def", "def"),
         (japaneseKeyGetter.GetKey newSHA1 (newSHA1 "") "ghi", "ghi")], ()⟩ :
        Extraction Unit MessageNode) = _
    rw [hjp, hjp, hjp]
  rw [hB]
  have hlook : TranslationMap.lookup
      [(newSHA1 "", "abc"), (newSHA1 "", "def"), (newSHA1 "", "ghi")] (newSHA1 "") = "ghi" := by
    simp [TranslationMap.lookup]
  rw [translateNode, translateChildren]
  simp only [List.map_cons, List.map_nil, hlook]

theorem not_sameText_ghi (key : String) :
    ¬ SameText
      (.mk [⟨"array1", key, "ghi"⟩, ⟨"array1", key, "ghi"⟩, ⟨"array1", key, "ghi"⟩] [])
      (arrayInstance ["abc", "def", "ghi"]) := by
  intro h
  unfold SameText arrayInstance at h
  rw [relNode] at h
  obtain ⟨gs, ds, heq, hf, _⟩ := h
  cases heq
  cases hf with
  | cons h1 _ =>
    have h2 : "ghi" = "abc" := h1.2
    exact absurd h2 (by decide)

/-- C14 (as stated) fails at the input of `TestEmptyStrings`, n = 3 and the texts `abc`,
`def`, `ghi`: the English policy gives the three empty strings of `A` one key, the Japanese
policy reuses it at every position of `B`, and `Translate` of the stamped `B` with `mapB`
gives `ghi` at all three positions, which is not the array `abc`, `def`, `ghi`. -/
theorem translate_empty_strings_array_counterexample :
    translateNode
        (TranslationMap.lookup
          (extractNode (statelessKeyGetter (japaneseKeyGetter.GetKey sampleSHA1))
            (arrayInstance ["abc", "def", "ghi"])
            (some (extractNode (statelessKeyGetter (englishKeyGetter.GetKey sampleSHA1))
              (arrayInstance ["", "", ""]) none ()).stamped) ()).translations)
        (extractNode (statelessKeyGetter (japaneseKeyGetter.GetKey sampleSHA1))
          (arrayInstance ["abc", "def", "ghi"])
          (some (extractNode (statelessKeyGetter (englishKeyGetter.GetKey sampleSHA1))
            (arrayInstance ["", "", ""]) none ()).stamped) ()).stamped =
      .mk [⟨"array1", "<>", "ghi"⟩, ⟨"array1", "<>", "ghi"⟩, ⟨"array1", "<>", "ghi"⟩] [] ∧
    ¬ SameText
      (translateNode
        (TranslationMap.lookup
          (extractNode (statelessKeyGetter (japaneseKeyGetter.GetKey sampleSHA1))
            (arrayInstance ["abc", "def", "ghi"])
            (some (extractNode (statelessKeyGetter (englishKeyGetter.GetKey sampleSHA1))
              (arrayInstance ["", "", ""]) none ()).stamped) ()).translations)
        (extractNode (statelessKeyGetter (japaneseKeyGetter.GetKey sampleSHA1))
          (arrayInstance ["abc", "def", "ghi"])
          (some (extractNode (statelessKeyGetter (englishKeyGetter.GetKey sampleSHA1))
            (arrayInstance ["", "", ""]) none ()).stamped) ()).stamped)
      (arrayInstance ["abc", "def", "ghi"]) := by
  have h := emptyStrings_translate_collapses sampleSHA1 (by decide)
  refine ⟨h, ?_⟩
  rw [h]
  exact not_sameText_ghi _

theorem isomorphic_arrayInstance (previous : List String) :
    ∀ texts : List String, previous.length = texts.length →
      Isomorphic (arrayInstance previous) (arrayInstance texts) := by
  have hfields : ∀ (xs ys : List String), xs.length = ys.length →
      List.Forall₂ (fun a b : TransField => a.fieldName = b.fieldName)
        (xs.map (fun t => (⟨"array1", "", t⟩ : TransField)))
        (ys.map (fun t => (⟨"array1", "", t⟩ : TransField))) := by
    intro xs
    induction xs with
    | nil =>
      intro ys h
      cases ys with
      | nil => exact List.Forall₂.nil
      | cons y ys => cases h
    | cons x xs ih =>
      intro ys h
      cases ys with
      | nil => cases h
      | cons y ys => exact List.Forall₂.cons rfl (ih ys (Nat.succ.inj h))
  intro texts h
  exact relNode_mk _ (hfields previous texts h) (relChildren_nil _)

theorem distinctMapKeys_arrayInstance (texts : List String) :
    DistinctMapKeys (arrayInstance texts) := by
  unfold arrayInstance
  rw [DistinctMapKeys, distinctMapKeysChildren]
  trivial

/-- C14 (amended): for every n and every texts t1..tn, if instance `A` holds a translatable
array of n empty strings and is extracted against no previous under a policy, with or
without state, that stamps the n positions with non-empty, pairwise distinct keys, and
instance `B` holds the array of t1..tn and is extracted against the stamped `A` under a
policy that returns the old key when it is not empty (as `japaneseKeyGetter` does), giving
the stamped `B1` and `mapB`, then `Translate` of `B1` with the lookup of `mapB` gives the
array of t1..tn, each text at its position. -/
theorem translate_array_positions {σA σB : Type} (keyGetterA : KeyGetter σA)
    (keyGetterB : KeyGetter σB) (sA : σA) (sB : σB) (texts : List String)
    (hnonempty : ∀ k ∈ getTranslationKeys
      (extractNode keyGetterA (arrayInstance (List.replicate texts.length "")) none
        sA).stamped, k ≠ "")
    (hdistinct : (getTranslationKeys
      (extractNode keyGetterA (arrayInstance (List.replicate texts.length "")) none
        sA).stamped).Nodup)
    (hreuse : ReusesOldKey keyGetterB) :
    SameText
      (translateNode
        (TranslationMap.lookup
          (extractNode keyGetterB (arrayInstance texts)
            (some (extractNode keyGetterA (arrayInstance (List.replicate texts.length ""))
              none sA).stamped) sB).translations)
        (extractNode keyGetterB (arrayInstance texts)
          (some (extractNode keyGetterA (arrayInstance (List.replicate texts.length ""))
            none sA).stamped) sB).stamped)
      (arrayInstance texts) :=
  (translate_both_ways keyGetterA keyGetterB sA sB
    (arrayInstance (List.replicate texts.length "")) (arrayInstance texts)
    (isomorphic_arrayInstance _ texts (List.length_replicate _ _))
    (distinctMapKeys_arrayInstance texts) hnonempty hdistinct hreuse).2.2

theorem translate_array_positions_witness :
    (∀ k ∈ getTranslationKeys
      (extractNode mintingKeyGetter
        (arrayInstance (List.replicate ["abc", "def", "ghi"].length "")) none 0).stamped,
      k ≠ "") ∧
    (getTranslationKeys
      (extractNode mintingKeyGetter
        (arrayInstance (List.replicate ["abc", "def", "ghi"].length "")) none
        0).stamped).Nodup ∧
    ReusesOldKey (statelessKeyGetter (japaneseKeyGetter.GetKey sampleSHA1)) ∧
    SameText
      (translateNode
        (TranslationMap.lookup
          (extractNode (statelessKeyGetter (japaneseKeyGetter.GetKey sampleSHA1))
            (arrayInstance ["abc", "def", "ghi"])
            (some (extractNode mintingKeyGetter
              (arrayInstance (List.replicate ["abc", "def", "ghi"].length "")) none
              0).stamped) ()).translations)
        (extractNode (statelessKeyGetter (japaneseKeyGetter.GetKey sampleSHA1))
          (arrayInstance ["abc", "def", "ghi"])
          (some (extractNode mintingKeyGetter
            (arrayInstance (List.replicate ["abc", "def", "ghi"].length "")) none
            0).stamped) ()).stamped)
      (arrayInstance ["abc", "def", "ghi"]) :=
  ⟨by decide, by decide, japaneseKeyGetter_reusesOldKey sampleSHA1,
    translate_array_positions mintingKeyGetter
      (statelessKeyGetter (japaneseKeyGetter.GetKey sampleSHA1)) 0 ()
      ["abc", "def", "ghi"] (by decide) (by decide)
      (japaneseKeyGetter_reusesOldKey sampleSHA1)⟩

/-! ## A file without package -/

/-- The loop of `main` ends in the nil dereference of `*f.Package` on a file that is not
excluded and has no package set, whatever the rest of the input is; `initTypeNameToDesc`
reads the same field through `GetPackage`. -/
theorem mainLoop_package_unset (camelCase : String → String) (idx : TypeIndex)
    (files : List CodeGeneratorResponse_File) (f : FileDescriptorProto)
    (rest : List FileDescriptorProto) (hex : excluded f = false) (hpkg : f.Package = none) :
    mainLoop camelCase idx files (f :: rest) = .error MainFault.nilDereference := by
  rw [mainLoop, hex, hpkg]
  simp

end ProtocGenTrans
